import Mathlib

/-!
# ezSTL `unordered_map` (include/ezSTL/unordered_map.h)

A shallow embedding of the separate-chaining hash map and of its iterator.

* `vector<list<pair<Key, Value>>*> buckets` is a `List (Option (List (K × V)))`:
  `none` is `nullptr`, `some c` is a pointer to a heap list holding `c`.
* A `list*` value is represented by the index of the slot that owns the list
  (every list is owned by exactly one slot), `none` being `nullptr`.
* A list iterator (node pointer) is represented by the position of the node
  inside the list it belongs to, `none` being the null iterator.
* `size_type` is `unsigned int`: arithmetic on `__size` is taken modulo `2 ^ 32`.
* `Hash` and `KeyEqual` are explicit parameters `hash` and `key_equal`.
-/

set_option autoImplicit false

namespace ezSTL

/-! ## Growth policy -/

/-- Number of values of `unsigned int` (`size_type`). -/
def UINT_RANGE : Nat := 4294967296

/-- `enum { num_primes = 28 }`. -/
def num_primes : Nat := 28

/-- `static const unsigned int prime_list[num_primes]`. -/
def prime_list : List Nat :=
  [53, 97, 193, 389, 769,
   1543, 3079, 6151, 12289, 24593,
   49157, 98317, 196613, 393241, 786433,
   1572869, 3145739, 6291469, 12582917, 25165843,
   50331653, 100663319, 201326611, 402653189, 805306457,
   1610612741, 3221225473, 4294967291]

/-- `prime_list[i]`. -/
def prime_at (i : Nat) : Nat := prime_list.getD i 0

/-- The `for (int i = 0; i < num_primes; ++i)` loop of `next_prime`, started at
index `i` with `fuel = num_primes - i` iterations left. -/
def next_prime_loop (n : Nat) : Nat → Nat → Nat
  | 0, _ => prime_at (num_primes - 1)
  | fuel + 1, i => if prime_at i > n then prime_at i else next_prime_loop n fuel (i + 1)

/-- `inline unsigned int next_prime(unsigned int n)`. -/
def next_prime (n : Nat) : Nat := next_prime_loop n num_primes 0

/-! ## Chains (`list<pair<Key, Value>>`) and the bucket vector -/

/-- Modelled from the spec: `list.h` is not part of the sources. A chain is an
ordered sequence of entries; its `begin()` is position `0` and its `end()` is
position `length`. -/
abbrev Chain (K V : Type) := List (K × V)

/-- Modelled from the spec: `list::push_front` of the absent `list.h`
("front-insertion, inserts without duplicate checking"). -/
def list_push_front {K V : Type} (c : Chain K V) (p : K × V) : Chain K V := p :: c

/-- Modelled from the spec: `list::erase(position)` of the absent `list.h`
("removes the entry" at the given position). -/
def list_erase {K V : Type} (c : Chain K V) (pos : Nat) : Chain K V := c.eraseIdx pos

/-- Modelled from the spec: `vector::resize` of the absent `vector.h`, as the
bucket table uses it ("reallocates the slot sequence, discarding prior chain
references"; every slot starts as "no chain"). -/
def vector_resize {K V : Type} (_bs : List (Option (Chain K V))) (n : Nat) :
    List (Option (Chain K V)) := List.replicate n none

/-- The list a slot points to: `buckets[i]` followed through the pointer
(`none` for `nullptr`; an index outside the vector reads as `none`). -/
def slot {K V : Type} (bs : List (Option (Chain K V))) (i : Nat) : Option (Chain K V) :=
  bs.getD i none

/-- The pointer value `buckets[i]`: the list owned by slot `i`, or `nullptr`. -/
def slot_ptr {K V : Type} (bs : List (Option (Chain K V))) (i : Nat) : Option Nat :=
  if (slot bs i).isSome then some i else none

/-! ## Iterator and container state -/

/-- The data members of `__unordered_map_iterator` (`um_pointer` is passed
explicitly to every operation). -/
structure __unordered_map_iterator where
  /-- Node position inside the list `list_pointer` points to. -/
  list_iterator : Option Nat
  /-- Slot owning the list pointed to. -/
  list_pointer : Option Nat
  /-- Index of the bucket. -/
  bucket : Nat
deriving DecidableEq, Repr

/-- The data members of `unordered_map`. -/
structure unordered_map (K V : Type) where
  buckets : List (Option (Chain K V))
  __size : Nat
  end_iterator : __unordered_map_iterator
deriving Repr

namespace unordered_map

variable {K V : Type}

/-- `unordered_map()`: `prime_list[0]` null slots, no element, and
`end_iterator(nullptr, nullptr, this, buckets.size())`. -/
def ctor : unordered_map K V :=
  { buckets := List.replicate (prime_at 0) none
    __size := 0
    end_iterator := ⟨none, none, (List.replicate (prime_at 0) (none : Option (Chain K V))).length⟩ }

/-- `iterator end() const`. -/
def end_ (m : unordered_map K V) : __unordered_map_iterator := m.end_iterator

/-- `size_type size() const`. -/
def size (m : unordered_map K V) : Nat := m.__size

/-- `size_type bucket_size() const`. -/
def bucket_size (m : unordered_map K V) : Nat := m.buckets.length

/-- `bool empty() const`. -/
def empty (m : unordered_map K V) : Bool := m.__size == 0

/-- Copy constructor: a table of `um.bucket_size()` slots, each occupied slot
holding a copy of the list, the same `__size`, and a fresh end iterator. -/
def copy (um : unordered_map K V) : unordered_map K V :=
  { buckets := um.buckets.map (fun b => b)
    __size := um.size
    end_iterator := ⟨none, none, um.bucket_size⟩ }

/-- `__unordered_map_iterator::operator==`, both iterators belonging to `m`. -/
def iter_eq (m : unordered_map K V) (a x : __unordered_map_iterator) : Bool :=
  if a.bucket ≥ m.buckets.length ∧ x.bucket ≥ m.buckets.length then true
  else a.list_iterator == x.list_iterator && a.bucket == x.bucket

/-- The entry `*list_iterator` designated by an iterator of `m`; `none` when
the iterator designates no node. -/
def entry_at (m : unordered_map K V) (ite : __unordered_map_iterator) : Option (K × V) :=
  match ite.list_pointer, ite.list_iterator with
  | some s, some i =>
    match slot m.buckets s with
    | some c => c.get? i
    | none => none
  | _, _ => none

/-- `Value& operator*() const`. -/
def deref (m : unordered_map K V) (ite : __unordered_map_iterator) : Option V :=
  (entry_at m ite).map Prod.snd

/-- `Key get_key() const`. -/
def get_key (m : unordered_map K V) (ite : __unordered_map_iterator) : Option K :=
  (entry_at m ite).map Prod.fst

/-- The loop `while (bucket < buckets.size() && list_pointer == nullptr)
list_pointer = buckets[++bucket];` of `operator++`. -/
def skip_empty (bs : List (Option (Chain K V))) : Nat → Nat → Option Nat → Nat × Option Nat
  | 0, bucket, lp => (bucket, lp)
  | fuel + 1, bucket, lp =>
    if bucket < bs.length ∧ lp = none then skip_empty bs fuel (bucket + 1) (slot_ptr bs (bucket + 1))
    else (bucket, lp)

/-- `self& operator++()`; `none` when the iterator designates no node of `m`. -/
def incr (m : unordered_map K V) (ite : __unordered_map_iterator) :
    Option __unordered_map_iterator :=
  match ite.list_pointer, ite.list_iterator with
  | some s, some i =>
    match slot m.buckets s with
    | some c =>
      if i + 1 ≠ c.length then some { ite with list_iterator := some (i + 1) }
      else
        let r := skip_empty m.buckets (m.buckets.length - (ite.bucket + 1)) (ite.bucket + 1)
          (slot_ptr m.buckets (ite.bucket + 1))
        if r.1 < m.buckets.length then some ⟨some 0, r.2, r.1⟩
        else some ⟨ite.list_iterator, r.2, r.1⟩
    | none => none
  | _, _ => none

/-- The loop of `begin()`, at index `i` with `fuel = buckets.size() - i`. -/
def begin_loop (m : unordered_map K V) : Nat → Nat → __unordered_map_iterator
  | 0, _ => m.end_
  | fuel + 1, i =>
    if (slot m.buckets i).isSome then ⟨some 0, slot_ptr m.buckets i, i⟩
    else begin_loop m fuel (i + 1)

/-- `iterator begin() const`. -/
def begin_ (m : unordered_map K V) : __unordered_map_iterator :=
  begin_loop m m.buckets.length 0

/-- The search loop of `find` over one list: position of the first entry whose
key satisfies `KeyEqual()(ite->first, key)`, counted from `i`. -/
def chain_find (key_equal : K → K → Bool) (key : K) : Chain K V → Nat → Option Nat
  | [], _ => none
  | e :: rest, i => if key_equal e.1 key then some i else chain_find key_equal key rest (i + 1)

/-- `iterator find(const Key& key)`. -/
def find (hash : K → Nat) (key_equal : K → K → Bool) (m : unordered_map K V) (key : K) :
    __unordered_map_iterator :=
  let index := hash key % m.buckets.length
  match slot m.buckets index with
  | none => m.end_
  | some c =>
    match chain_find key_equal key c 0 with
    | some i => ⟨some i, slot_ptr m.buckets index, index⟩
    | none => m.end_

/-- `void clear()`: every occupied slot is deleted and reset, `__size = 0`. -/
def clear (m : unordered_map K V) : unordered_map K V :=
  { m with
    buckets := m.buckets.map (fun b => if b.isSome then none else b)
    __size := 0 }

/-- Lines 271-281 of `insert`: the lookup followed by either the front
insertion of a new entry or the overwrite `*ite = p.second`. -/
def insert_entry (hash : K → Nat) (key_equal : K → K → Bool) (m : unordered_map K V)
    (p : K × V) : unordered_map K V :=
  let ite := find hash key_equal m p.1
  if iter_eq m ite m.end_ then
    let index := hash p.1 % m.buckets.length
    let c : Chain K V := match slot m.buckets index with
      | none => []
      | some c => c
    { m with
      buckets := m.buckets.set index (some (list_push_front c p))
      __size := (m.__size + 1) % UINT_RANGE }
  else
    match ite.list_pointer, ite.list_iterator with
    | some s, some i =>
      { m with
        buckets := m.buckets.set s
          ((slot m.buckets s).map (fun c => c.modify (fun e => (e.1, p.2)) i)) }
    | _, _ => m

/-- The loop `for (auto ite = temp.begin(); ite != temp.end(); ++ite)
insert(make_pair(ite.get_key(), *ite));` of the rehash branch, `ins` being the
nested `insert`; `none` when the fuel runs out. -/
def rehash_loop (ins : unordered_map K V → K × V → Option (unordered_map K V))
    (temp : unordered_map K V) :
    Nat → __unordered_map_iterator → unordered_map K V → Option (unordered_map K V)
  | 0, _, _ => none
  | fuel + 1, ite, m =>
    if iter_eq temp ite temp.end_ then some m
    else
      match get_key temp ite, deref temp ite, incr temp ite with
      | some k, some v, some next =>
        match ins m (k, v) with
        | some m1 => rehash_loop ins temp fuel next m1
        | none => none
      | _, _, _ => none

/-- `void insert(const pair<Key, Value>& p)`. The fuel bounds the depth of the
recursion and the number of iterations of the re-insertion loop; `none` when it
runs out. The test `static_cast<double>(size()) / bucket_size() > 0.5` is written
`2 * size() > bucket_size()`: for 32-bit operands the quotient differs from one
half by at least `2 ^ (-33)` unless it equals it, far more than the rounding
error of a `double`, so the two tests agree. -/
def insert (hash : K → Nat) (key_equal : K → K → Bool) :
    Nat → unordered_map K V → K × V → Option (unordered_map K V)
  | 0, _, _ => none
  | fuel + 1, m, p =>
    let m1 := insert_entry hash key_equal m p
    if 2 * m1.size > m1.bucket_size then
      let new_size := next_prime m1.bucket_size
      if new_size = m1.bucket_size then some m1
      else
        let temp := copy m1
        let m2 := clear m1
        let m3 : unordered_map K V :=
          { m2 with
            buckets := vector_resize m2.buckets new_size
            end_iterator := { m2.end_iterator with bucket := new_size } }
        rehash_loop (insert hash key_equal fuel) temp fuel temp.begin_ m3
    else some m1

/-- `void erase(const iterator ite)`; `none` when `ite` designates no node. -/
def erase (m : unordered_map K V) (ite : __unordered_map_iterator) :
    Option (unordered_map K V) :=
  match ite.list_pointer, ite.list_iterator with
  | some s, some i =>
    match slot m.buckets s with
    | some c =>
      if i < c.length then
        let c1 := list_erase c i
        let bs1 := m.buckets.set s (some c1)
        let bs2 := if c1.isEmpty then bs1.set ite.bucket none else bs1
        some { m with buckets := bs2, __size := (m.__size + UINT_RANGE - 1) % UINT_RANGE }
      else none
    | none => none
  | _, _ => none

/-- `Value& operator[] (const Key& key)`: `*find(key)`. -/
def subscript (hash : K → Nat) (key_equal : K → K → Bool) (m : unordered_map K V) (key : K) :
    Option V :=
  deref m (find hash key_equal m key)

/-- The test `find(key) != end()`. -/
def contains (hash : K → Nat) (key_equal : K → K → Bool) (m : unordered_map K V) (key : K) :
    Bool :=
  !iter_eq m (find hash key_equal m key) m.end_

/-! ## Specification-side notions -/

/-- The list held by a slot, the empty list for a null slot. -/
def chain_of (b : Option (Chain K V)) : Chain K V := b.getD []

/-- All entries of a bucket vector, slot by slot, each chain front to back. -/
def entries_of (bs : List (Option (Chain K V))) : List (K × V) := bs.flatMap chain_of

/-- All entries stored in the table. -/
def entries (m : unordered_map K V) : List (K × V) := entries_of m.buckets

/-- Value of the first entry of an association list whose key equals `key`. -/
def assoc (key_equal : K → K → Bool) (key : K) (l : List (K × V)) : Option V :=
  (l.find? (fun e => key_equal e.1 key)).map Prod.snd

/-- The assumptions on the capability parameters: `key_equal` is an
equivalence and equal keys have equal hashes. -/
structure Lawful (hash : K → Nat) (key_equal : K → K → Bool) : Prop where
  refl : ∀ a, key_equal a a = true
  symm : ∀ a b, key_equal a b = true → key_equal b a = true
  trans : ∀ a b c, key_equal a b = true → key_equal b c = true → key_equal a c = true
  hash_eq : ∀ a b, key_equal a b = true → hash a = hash b

/-- Structural invariant of the table. -/
structure WF (hash : K → Nat) (key_equal : K → K → Bool) (m : unordered_map K V) : Prop where
  pos : 0 < m.buckets.length
  end_it : m.end_iterator = ⟨none, none, m.buckets.length⟩
  nonempty : ∀ i c, slot m.buckets i = some c → c ≠ []
  place : ∀ i c, slot m.buckets i = some c → ∀ e ∈ c, hash e.1 % m.buckets.length = i
  uniq : ∀ i c, slot m.buckets i = some c →
    c.Pairwise (fun a b => key_equal a.1 b.1 = false)
  count : m.__size = (entries m).length % UINT_RANGE

/-- The iterator `ite` of `m` has `l` left to visit: either it is past the
last slot and `l` is empty, or it designates the node at position `i` of the
chain of slot `b` and `l` lists the entries from that node to the end of the
table. -/
def IterAt (m : unordered_map K V) (ite : __unordered_map_iterator) (l : List (K × V)) :
    Prop :=
  (l = [] ∧ m.buckets.length ≤ ite.bucket) ∨
  (∃ b i c, ite = ⟨some i, some b, b⟩ ∧ slot m.buckets b = some c ∧ i < c.length ∧
    l = c.drop i ++ entries_of (m.buckets.drop (b + 1)))

/-- Invariant of the reachable tables: the structural invariant, a bucket count
taken from `prime_list`, and a load factor of at most one half below the
largest bucket count. -/
structure Inv (hash : K → Nat) (key_equal : K → K → Bool) (m : unordered_map K V) : Prop where
  wf : WF hash key_equal m
  prime : m.buckets.length ∈ prime_list
  load : m.buckets.length ≠ 4294967291 → 2 * (entries m).length ≤ m.buckets.length

/-- The table the re-insertion loop starts from: `clear()` followed by
`buckets.resize(new_size)` and `end_iterator.bucket = new_size`. -/
def rehash_start (m1 : unordered_map K V) (new_size : Nat) : unordered_map K V :=
  { clear m1 with
    buckets := vector_resize (clear m1).buckets new_size
    end_iterator := { (clear m1).end_iterator with bucket := new_size } }

/-- The table `insert` produces once the fuel suffices: the table after the
insertion step, re-inserted entry by entry into a larger table when the load
factor exceeds one half and a larger bucket count exists. -/
def insert_result (hash : K → Nat) (key_equal : K → K → Bool) (m : unordered_map K V)
    (p : K × V) : unordered_map K V :=
  if 2 * (insert_entry hash key_equal m p).size > (insert_entry hash key_equal m p).bucket_size ∧
      next_prime (insert_entry hash key_equal m p).bucket_size ≠
        (insert_entry hash key_equal m p).bucket_size then
    (entries (insert_entry hash key_equal m p)).foldl (insert_entry hash key_equal)
      (rehash_start (insert_entry hash key_equal m p)
        (next_prime (insert_entry hash key_equal m p).bucket_size))
  else insert_entry hash key_equal m p

/-- The tables obtained from the default-constructed one by `insert`, by
`erase` through the iterator `find` returns for a present key, and by `clear`. -/
inductive Reachable (hash : K → Nat) (key_equal : K → K → Bool) : unordered_map K V → Prop
  | ctor : Reachable hash key_equal ctor
  | insert (m m1 : unordered_map K V) (p : K × V) (fuel : Nat) :
      Reachable hash key_equal m → insert hash key_equal fuel m p = some m1 →
      Reachable hash key_equal m1
  | erase (m m1 : unordered_map K V) (k : K) :
      Reachable hash key_equal m → contains hash key_equal m k = true →
      erase m (find hash key_equal m k) = some m1 → Reachable hash key_equal m1
  | clear (m : unordered_map K V) :
      Reachable hash key_equal m → Reachable hash key_equal (clear m)

/-- Inserting the pairs of a list one after the other, first to last. -/
def insert_all (hash : K → Nat) (key_equal : K → K → Bool) (fuel : Nat)
    (m : unordered_map K V) (l : List (K × V)) : Option (unordered_map K V) :=
  l.foldlM (insert hash key_equal fuel) m

/-- `B` is the smallest entry of `prime_list` that is at least `x`. -/
def SmallestCandidate (B x : Nat) : Prop :=
  B ∈ prime_list ∧ x ≤ B ∧ ∀ q ∈ prime_list, x ≤ q → B ≤ q

/-- The mutating operations of a test sequence: `insert(p)` and
`erase(find(k))`. -/
inductive Op (K V : Type) where
  | insert (p : K × V)
  | erase (k : K)

/-- One operation on the table. `erase` is given the iterator `find(k)` and is
only admitted for a key that is present. -/
def step (hash : K → Nat) (key_equal : K → K → Bool) (fuel : Nat) (m : unordered_map K V) :
    Op K V → Option (unordered_map K V)
  | Op.insert p => insert hash key_equal fuel m p
  | Op.erase k =>
    if contains hash key_equal m k = true then erase m (find hash key_equal m k) else none

/-- A sequence of operations on the table, first to last. -/
def run (hash : K → Nat) (key_equal : K → K → Bool) (fuel : Nat) (m : unordered_map K V)
    (ops : List (Op K V)) : Option (unordered_map K V) :=
  ops.foldlM (step hash key_equal fuel) m

/-- Reference association map, reduced to its set of keys: inserting an absent
key adds it, inserting a present key changes nothing, erasing removes the key. -/
def ref_step (key_equal : K → K → Bool) (r : List K) : Op K V → List K
  | Op.insert p => if r.any (fun a => key_equal a p.1) then r else p.1 :: r
  | Op.erase k => r.filter (fun a => !key_equal a k)

/-- The keys logically present after a sequence of operations. -/
def ref_run (key_equal : K → K → Bool) (r : List K) (ops : List (Op K V)) : List K :=
  ops.foldl (ref_step key_equal) r

/-- Every `erase` of the sequence is given a key that is present at that time. -/
def admissible (key_equal : K → K → Bool) : List K → List (Op K V) → Bool
  | _, [] => true
  | r, Op.insert p :: ops => admissible key_equal (ref_step key_equal r (Op.insert p)) ops
  | r, Op.erase k :: ops =>
    r.any (fun a => key_equal a k) &&
      admissible key_equal (ref_step key_equal r (Op.erase k : Op K V)) ops

/-- The loop `for (ite = begin(); ite != end(); ++ite)` collecting the entries
it visits, started at `ite`; `none` when the fuel runs out. -/
def traverse (m : unordered_map K V) :
    Nat → __unordered_map_iterator → Option (List (K × V))
  | 0, _ => none
  | fuel + 1, ite =>
    if iter_eq m ite m.end_ then some []
    else
      match entry_at m ite, incr m ite with
      | some e, some next => (traverse m fuel next).map (fun l => e :: l)
      | _, _ => none

/-- The table holding the `4294967296` keys `0 .. 4294967295`, each inserted
once with value `0`, under the identity hash. -/
@[irreducible] def big_table : unordered_map Nat Nat :=
  ((List.range 4294967296).map (fun k => (k, 0))).foldl
    (insert_result id (fun a b => decide (a = b))) ctor

/-- The `4294967296` inserts `insert((k, 0))`, `k = 0 .. 4294967295`, that build
`big_table`. -/
@[irreducible] def big_ops : List (Op Nat Nat) :=
  ((List.range 4294967296).map (fun k => (k, 0))).map Op.insert

/-- The table refines the reference key set: the same keys are present, and
there are as many entries as reference keys. -/
def Refines (hash : K → Nat) (key_equal : K → K → Bool) (m : unordered_map K V)
    (r : List K) : Prop :=
  (∀ k, contains hash key_equal m k = r.any (fun a => key_equal a k)) ∧
    (entries m).length = r.length ∧ r.Pairwise (fun a b => key_equal a b = false)

/-- The table of the second test scenario: `"a" -> 1` and `"b" -> 2` inserted
into the default-constructed table, strings being hashed by their length. -/
def scenario_ab : unordered_map String Nat :=
  insert_result String.length (fun a b => decide (a = b))
    (insert_result String.length (fun a b => decide (a = b)) ctor ("a", 1)) ("b", 2)

/-- A live iterator of `m`: it designates the node at position `i` of the chain
of slot `b`. -/
def Live (m : unordered_map K V) (ite : __unordered_map_iterator) : Prop :=
  ∃ b i c, ite = ⟨some i, some b, b⟩ ∧ slot m.buckets b = some c ∧ i < c.length

/-- The table `m1` is obtained from the table `m` by finitely many `insert`,
`erase` (through a live iterator) and `clear` calls. -/
inductive Evolves (hash : K → Nat) (key_equal : K → K → Bool) (m : unordered_map K V) :
    unordered_map K V → Prop
  | refl : Evolves hash key_equal m m
  | insert (m1 m2 : unordered_map K V) (p : K × V) (fuel : Nat) :
      Evolves hash key_equal m m1 → insert hash key_equal fuel m1 p = some m2 →
      Evolves hash key_equal m m2
  | erase (m1 m2 : unordered_map K V) (ite : __unordered_map_iterator) :
      Evolves hash key_equal m m1 → Live m1 ite → erase m1 ite = some m2 →
      Evolves hash key_equal m m2
  | clear (m1 : unordered_map K V) :
      Evolves hash key_equal m m1 → Evolves hash key_equal m (clear m1)

/-- The sum of the lengths of the chains of all occupied slots. -/
def chain_total (m : unordered_map K V) : Nat :=
  (m.buckets.map (fun b => match b with
    | none => 0
    | some c => c.length)).sum

/-- Trial division: `true` when no `d` with `2 ≤ d ≤ k + 1` divides `n`. -/
def no_divisor_upto (n : Nat) : Nat → Bool
  | 0 => true
  | k + 1 => decide (n % (k + 2) ≠ 0) && no_divisor_upto n k

/-- Bitwise search for a number `r` with `r * r ≤ n`, starting from `r` with the
`b` lowest bits still to decide. -/
def isqrt_loop (n : Nat) : Nat → Nat → Nat
  | 0, r => r
  | b + 1, r =>
    if (r + 2 ^ b) * (r + 2 ^ b) ≤ n then isqrt_loop n b (r + 2 ^ b) else isqrt_loop n b r

/-- Primality check by trial division up to a bound `r` with `n < (r + 1) ^ 2`. -/
def is_prime_trial (n : Nat) : Bool :=
  decide (2 ≤ n) && decide (n < (isqrt_loop n 17 0 + 1) * (isqrt_loop n 17 0 + 1)) &&
    no_divisor_upto n (isqrt_loop n 17 0 - 1)

/-- Modular exponentiation by repeated squaring: `pow_mod p fuel a e` is
`a ^ e % p` when `e < 2 ^ fuel`. -/
def pow_mod (p : Nat) : Nat → Nat → Nat → Nat
  | 0, _, _ => 1 % p
  | fuel + 1, a, e =>
    if e = 0 then 1 % p
    else if e % 2 = 1 then a * pow_mod p fuel (a * a % p) (e / 2) % p
    else pow_mod p fuel (a * a % p) (e / 2)

/-- The check of a Lucas certificate `(p, a, fs)`: `fs` lists prime factors whose
product is `p - 1`, `a ^ (p - 1)` is `1` modulo `p`, and `a ^ ((p - 1) / q)` is
not `1` modulo `p` for each `q` in `fs`. -/
def lucas_check (c : Nat × Nat × List Nat) : Bool :=
  decide (c.2.2.prod + 1 = c.1) && decide (c.1 ≤ 2 ^ 32) &&
    decide (pow_mod c.1 32 c.2.1 (c.1 - 1) = 1) &&
    c.2.2.all (fun q => is_prime_trial q && decide (pow_mod c.1 32 c.2.1 ((c.1 - 1) / q) ≠ 1))

/-- A Lucas certificate for each entry of `prime_list`: the entry, a primitive
root and the prime factorisation of its predecessor. -/
def prime_certificates : List (Nat × Nat × List Nat) :=
  [(53, 2, [2, 2, 13]),
   (97, 5, [2, 2, 2, 2, 2, 3]),
   (193, 5, [2, 2, 2, 2, 2, 2, 3]),
   (389, 2, [2, 2, 97]),
   (769, 11, [2, 2, 2, 2, 2, 2, 2, 2, 3]),
   (1543, 5, [2, 3, 257]),
   (3079, 6, [2, 3, 3, 3, 3, 19]),
   (6151, 3, [2, 3, 5, 5, 41]),
   (12289, 11, [2, 2, 2, 2, 2, 2, 2, 2, 2, 2, 2, 2, 3]),
   (24593, 3, [2, 2, 2, 2, 29, 53]),
   (49157, 2, [2, 2, 12289]),
   (98317, 6, [2, 2, 3, 3, 2731]),
   (196613, 2, [2, 2, 13, 19, 199]),
   (393241, 11, [2, 2, 2, 3, 5, 29, 113]),
   (786433, 10, [2, 2, 2, 2, 2, 2, 2, 2, 2, 2, 2, 2, 2, 2, 2, 2, 2, 2, 3]),
   (1572869, 2, [2, 2, 11, 35747]),
   (3145739, 2, [2, 1572869]),
   (6291469, 2, [2, 2, 3, 3, 174763]),
   (12582917, 2, [2, 2, 727, 4327]),
   (25165843, 2, [2, 3, 13, 19, 16981]),
   (50331653, 2, [2, 2, 7, 313, 5743]),
   (100663319, 7, [2, 7, 23, 312619]),
   (201326611, 2, [2, 3, 5, 6710887]),
   (402653189, 2, [2, 2, 7, 7, 7, 269, 1091]),
   (805306457, 3, [2, 2, 2, 17, 5921371]),
   (1610612741, 2, [2, 2, 5, 11, 1399, 5233]),
   (3221225473, 5, [2, 2, 2, 2, 2, 2, 2, 2, 2, 2, 2, 2, 2, 2, 2, 2, 2, 2, 2, 2, 2, 2, 2, 2, 2, 2, 2, 2, 2, 2, 3]),
   (4294967291, 2, [2, 5, 19, 22605091])]

/-- `void insert(const pair<Key, Value>& p)` once more, with the bound `depth` on
the depth of the recursion kept apart from the bound `loop_fuel` on the number
of iterations of each re-insertion loop; `none` when either runs out. -/
def insert_depth (hash : K → Nat) (key_equal : K → K → Bool) (loop_fuel : Nat) :
    Nat → unordered_map K V → K × V → Option (unordered_map K V)
  | 0, _, _ => none
  | depth + 1, m, p =>
    let m1 := insert_entry hash key_equal m p
    if 2 * m1.size > m1.bucket_size then
      let new_size := next_prime m1.bucket_size
      if new_size = m1.bucket_size then some m1
      else
        let temp := copy m1
        let m2 := clear m1
        let m3 : unordered_map K V :=
          { m2 with
            buckets := vector_resize m2.buckets new_size
            end_iterator := { m2.end_iterator with bucket := new_size } }
        rehash_loop (insert_depth hash key_equal loop_fuel depth) temp loop_fuel temp.begin_ m3
    else some m1

/-- The indexes `i` of the accesses `buckets[i]` made by the loop
`while (bucket < buckets.size() && list_pointer == nullptr)
list_pointer = buckets[++bucket];` of `operator++`, in the order they are made
(same arguments as `skip_empty`). -/
def skip_empty_reads (bs : List (Option (Chain K V))) : Nat → Nat → Option Nat → List Nat
  | 0, _, _ => []
  | fuel + 1, bucket, lp =>
    if bucket < bs.length ∧ lp = none then
      (bucket + 1) :: skip_empty_reads bs fuel (bucket + 1) (slot_ptr bs (bucket + 1))
    else []

/-- The indexes `i` of the accesses `buckets[i]` made by `operator++`, in the
order they are made: none when the next node is in the same list, otherwise
the access `buckets[++bucket]` before the loop followed by those of the loop. -/
def incr_reads (m : unordered_map K V) (ite : __unordered_map_iterator) : List Nat :=
  match ite.list_pointer, ite.list_iterator with
  | some s, some i =>
    match slot m.buckets s with
    | some c =>
      if i + 1 ≠ c.length then []
      else
        (ite.bucket + 1) ::
          skip_empty_reads m.buckets (m.buckets.length - (ite.bucket + 1)) (ite.bucket + 1)
            (slot_ptr m.buckets (ite.bucket + 1))
    | none => []
  | _, _ => []

/-- The table after `insert((52, 1))` on the default-constructed table, keys
being hashed by the identity: its only entry lies in the last slot. -/
def scenario_last_slot : unordered_map Nat Nat :=
  insert_result id (fun a b => decide (a = b)) ctor (52, 1)

/-- The table after `insert((7, 40))` on the default-constructed table, keys
being hashed by the identity. -/
def scenario_one_key : unordered_map Nat Nat :=
  insert_result id (fun a b => decide (a = b)) ctor (7, 40)

/-! ## Slots and entries -/

theorem slot_eq_getElem? (bs : List (Option (Chain K V))) (i : Nat) :
    slot bs i = (bs[i]?).getD none := by
  simp [slot, List.getD_eq_getElem?_getD]

theorem slot_of_le (bs : List (Option (Chain K V))) (i : Nat) (h : bs.length ≤ i) :
    slot bs i = none := by
  simp [slot_eq_getElem?, List.getElem?_eq_none h]

theorem slot_lt_of_some {bs : List (Option (Chain K V))} {i : Nat} {c : Chain K V}
    (h : slot bs i = some c) : i < bs.length := by
  by_contra hc
  rw [slot_of_le bs i (Nat.le_of_not_lt hc)] at h
  cases h

theorem slot_set (bs : List (Option (Chain K V))) (i j : Nat) (x : Option (Chain K V))
    (hi : i < bs.length) : slot (bs.set i x) j = if i = j then x else slot bs j := by
  simp only [slot_eq_getElem?, List.getElem?_set]
  by_cases h : i = j
  · subst h; simp [hi]
  · simp [h]

theorem slot_set_ne (bs : List (Option (Chain K V))) (i j : Nat) (x : Option (Chain K V))
    (h : i ≠ j) : slot (bs.set i x) j = slot bs j := by
  simp [slot_eq_getElem?, List.getElem?_set, h]

theorem slot_replicate (n i : Nat) :
    slot (List.replicate n (none : Option (Chain K V))) i = none := by
  simp only [slot_eq_getElem?, List.getElem?_replicate]
  split <;> rfl

theorem slot_cons_zero (b : Option (Chain K V)) (bs : List (Option (Chain K V))) :
    slot (b :: bs) 0 = b := by
  simp [slot]

theorem slot_cons_succ (b : Option (Chain K V)) (bs : List (Option (Chain K V))) (i : Nat) :
    slot (b :: bs) (i + 1) = slot bs i := by
  simp [slot]

theorem entries_of_nil : entries_of ([] : List (Option (Chain K V))) = [] := rfl

theorem entries_of_cons (b : Option (Chain K V)) (bs : List (Option (Chain K V))) :
    entries_of (b :: bs) = chain_of b ++ entries_of bs := by
  simp [entries_of, List.flatMap_cons]

theorem entries_of_append (as bs : List (Option (Chain K V))) :
    entries_of (as ++ bs) = entries_of as ++ entries_of bs := by
  simp [entries_of, List.flatMap_append]

theorem entries_of_replicate (n : Nat) :
    entries_of (List.replicate n (none : Option (Chain K V))) = [] := by
  induction n with
  | zero => rfl
  | succ n ih => rw [List.replicate_succ, entries_of_cons, ih]; rfl

/-- Splitting the entries around slot `i`. -/
theorem entries_of_split (bs : List (Option (Chain K V))) (i : Nat) (hi : i < bs.length) :
    entries_of bs =
      entries_of (bs.take i) ++ (chain_of (slot bs i) ++ entries_of (bs.drop (i + 1))) := by
  induction bs generalizing i with
  | nil => simp at hi
  | cons b bs ih =>
    cases i with
    | zero => simp [entries_of_cons, slot_cons_zero, entries_of_nil]
    | succ i =>
      have hi2 : i < bs.length := by simpa using hi
      simp only [List.take_succ_cons, List.drop_succ_cons, entries_of_cons, slot_cons_succ,
        List.append_assoc]
      rw [← ih i hi2]

theorem entries_of_set (bs : List (Option (Chain K V))) (i : Nat) (x : Option (Chain K V))
    (hi : i < bs.length) :
    entries_of (bs.set i x) =
      entries_of (bs.take i) ++ (chain_of x ++ entries_of (bs.drop (i + 1))) := by
  induction bs generalizing i with
  | nil => simp at hi
  | cons b bs ih =>
    cases i with
    | zero => simp [entries_of_cons, entries_of_nil]
    | succ i =>
      have hi2 : i < bs.length := by simpa using hi
      simp only [List.set_cons_succ, List.take_succ_cons, List.drop_succ_cons, entries_of_cons,
        List.append_assoc]
      rw [ih i hi2]

theorem mem_entries_of {bs : List (Option (Chain K V))} {e : K × V} :
    e ∈ entries_of bs ↔ ∃ i c, slot bs i = some c ∧ e ∈ c := by
  induction bs with
  | nil => simp [entries_of_nil, slot]
  | cons b bs ih =>
    rw [entries_of_cons, List.mem_append, ih]
    constructor
    · rintro (h | ⟨i, c, hs, he⟩)
      · cases b with
        | none => simp [chain_of] at h
        | some c => exact ⟨0, c, by simp [slot_cons_zero], by simpa [chain_of] using h⟩
      · exact ⟨i + 1, c, by simpa [slot_cons_succ] using hs, he⟩
    · rintro ⟨i, c, hs, he⟩
      cases i with
      | zero =>
        rw [slot_cons_zero] at hs
        left; simpa [hs, chain_of] using he
      | succ i =>
        rw [slot_cons_succ] at hs
        exact Or.inr ⟨i, c, hs, he⟩

/-! ## The search loop of `find` -/

theorem chain_find_eq_none {key_equal : K → K → Bool} {key : K} {c : Chain K V} {j : Nat} :
    chain_find key_equal key c j = none ↔ ∀ e ∈ c, key_equal e.1 key = false := by
  induction c generalizing j with
  | nil => simp [chain_find]
  | cons e rest ih =>
    by_cases h : key_equal e.1 key = true
    · simp [chain_find, h]
    · simp [chain_find, h, ih]

theorem chain_find_some {key_equal : K → K → Bool} {key : K} {c : Chain K V} {j i : Nat}
    (h : chain_find key_equal key c j = some i) :
    ∃ t e, i = j + t ∧ c.get? t = some e ∧ key_equal e.1 key = true ∧
      c.find? (fun e => key_equal e.1 key) = some e ∧
      ∀ x ∈ c.take t, key_equal x.1 key = false := by
  induction c generalizing j with
  | nil => simp [chain_find] at h
  | cons e rest ih =>
    by_cases hk : key_equal e.1 key = true
    · simp only [chain_find, hk, if_true, Option.some.injEq] at h
      exact ⟨0, e, by omega, by simp, hk, by simp [List.find?_cons, hk], by simp⟩
    · simp only [chain_find, hk, Bool.false_eq_true, if_false] at h
      obtain ⟨t, e1, hi, hget, hke, hfind, hfirst⟩ := ih h
      have hk2 : key_equal e.1 key = false := by simpa using hk
      refine ⟨t + 1, e1, by omega, by simpa using hget, hke, ?_, ?_⟩
      · simp [List.find?_cons, hk2, hfind]
      · intro x hx
        simp only [List.take_succ_cons, List.mem_cons] at hx
        rcases hx with rfl | hx
        · exact hk2
        · exact hfirst x hx

theorem assoc_nil (key_equal : K → K → Bool) (key : K) :
    assoc key_equal key ([] : List (K × V)) = none := rfl

theorem assoc_cons (key_equal : K → K → Bool) (key : K) (e : K × V) (l : List (K × V)) :
    assoc key_equal key (e :: l) =
      if key_equal e.1 key = true then some e.2 else assoc key_equal key l := by
  by_cases h : key_equal e.1 key = true
  · simp [assoc, List.find?_cons, h]
  · have h2 : key_equal e.1 key = false := by simpa using h
    simp [assoc, List.find?_cons, h2]

theorem assoc_eq_none {key_equal : K → K → Bool} {key : K} {l : List (K × V)} :
    assoc key_equal key l = none ↔ ∀ e ∈ l, key_equal e.1 key = false := by
  induction l with
  | nil => simp [assoc_nil]
  | cons e l ih =>
    rw [assoc_cons]
    by_cases h : key_equal e.1 key = true
    · simp [h]
    · simp [h, ih]

theorem assoc_eq_some {key_equal : K → K → Bool} {key : K} {l : List (K × V)} {v : V}
    (h : assoc key_equal key l = some v) :
    ∃ e ∈ l, key_equal e.1 key = true ∧ e.2 = v := by
  induction l with
  | nil => simp [assoc_nil] at h
  | cons e l ih =>
    rw [assoc_cons] at h
    by_cases hk : key_equal e.1 key = true
    · simp only [hk, if_true, Option.some.injEq] at h
      exact ⟨e, by simp, hk, h⟩
    · simp only [hk, if_false] at h
      obtain ⟨e1, he1, h1, h2⟩ := ih h
      exact ⟨e1, by simp [he1], h1, h2⟩

theorem chain_find_isSome_eq_assoc (key_equal : K → K → Bool) (key : K) (c : Chain K V)
    (j : Nat) :
    (chain_find key_equal key c j).isSome = (assoc key_equal key c).isSome := by
  cases h : chain_find key_equal key c j with
  | none =>
    rw [chain_find_eq_none] at h
    simp [assoc_eq_none.mpr h]
  | some i =>
    obtain ⟨t, e, _, _, _, hfind, _⟩ := chain_find_some h
    simp [assoc, hfind]

/-- Two keys that are equal select the same entries. -/
theorem key_equal_congr {hash : K → Nat} {key_equal : K → K → Bool}
    (L : Lawful hash key_equal) {k k1 : K} (h : key_equal k k1 = true) (a : K) :
    key_equal a k = key_equal a k1 := by
  cases h1 : key_equal a k with
  | true => exact (L.trans a k k1 h1 h).symm
  | false =>
    cases h2 : key_equal a k1 with
    | false => rfl
    | true =>
      have := L.trans a k1 k h2 (L.symm k k1 h)
      rw [h1] at this
      cases this

theorem assoc_congr {hash : K → Nat} {key_equal : K → K → Bool}
    (L : Lawful hash key_equal) {k k1 : K} (h : key_equal k k1 = true) (l : List (K × V)) :
    assoc key_equal k l = assoc key_equal k1 l := by
  induction l with
  | nil => rfl
  | cons e l ih => rw [assoc_cons, assoc_cons, ih, key_equal_congr L h e.1]

/-- Effect of the overwrite `*ite = p.second` on later searches of the chain. -/
theorem assoc_modify {hash : K → Nat} {key_equal : K → K → Bool}
    (L : Lawful hash key_equal) (k k1 : K) (v : V) (c : Chain K V) (t : Nat) (e : K × V)
    (hget : c.get? t = some e) (hke : key_equal e.1 k = true)
    (hfirst : ∀ x ∈ c.take t, key_equal x.1 k = false) :
    assoc key_equal k1 (c.modify (fun x => (x.1, v)) t) =
      if key_equal k k1 = true then some v else assoc key_equal k1 c := by
  induction c generalizing t with
  | nil => simp at hget
  | cons x rest ih =>
    cases t with
    | zero =>
      simp only [List.get?_cons_zero, Option.some.injEq] at hget
      subst hget
      simp only [List.modify_zero_cons, assoc_cons]
      by_cases hkk : key_equal k k1 = true
      · have : key_equal x.1 k1 = true := L.trans _ _ _ hke hkk
        simp [hkk, this]
      · have : key_equal x.1 k1 = false := by
          cases hx : key_equal x.1 k1 with
          | false => rfl
          | true => exact absurd (L.trans _ _ _ (L.symm _ _ hke) hx) hkk
        simp [hkk, this]
    | succ t =>
      simp only [List.get?_cons_succ] at hget
      have hx0 : key_equal x.1 k = false := hfirst x (by simp)
      have hfirst2 : ∀ y ∈ rest.take t, key_equal y.1 k = false := by
        intro y hy
        exact hfirst y (by simp [hy])
      simp only [List.modify_succ_cons, assoc_cons, ih t hget hfirst2]
      by_cases hkk : key_equal k k1 = true
      · have : key_equal x.1 k1 = false := by
          rw [← key_equal_congr L hkk]; exact hx0
        simp [hkk, this]
      · simp [hkk]

/-! ## `find`, `operator[]` and the test against `end()` -/

theorem slot_ptr_of_some {bs : List (Option (Chain K V))} {i : Nat} {c : Chain K V}
    (h : slot bs i = some c) : slot_ptr bs i = some i := by
  simp [slot_ptr, h]

theorem slot_ptr_of_none {bs : List (Option (Chain K V))} {i : Nat}
    (h : slot bs i = none) : slot_ptr bs i = none := by
  simp [slot_ptr, h]

/-- The three outcomes of `find`. -/
theorem find_cases (hash : K → Nat) (key_equal : K → K → Bool) (m : unordered_map K V)
    (key : K) :
    (slot m.buckets (hash key % m.buckets.length) = none ∧
        find hash key_equal m key = m.end_) ∨
    (∃ c, slot m.buckets (hash key % m.buckets.length) = some c ∧
        chain_find key_equal key c 0 = none ∧ find hash key_equal m key = m.end_) ∨
    (∃ c t, slot m.buckets (hash key % m.buckets.length) = some c ∧
        chain_find key_equal key c 0 = some t ∧
        find hash key_equal m key =
          ⟨some t, some (hash key % m.buckets.length), hash key % m.buckets.length⟩) := by
  cases hs : slot m.buckets (hash key % m.buckets.length) with
  | none => left; simp [find, hs]
  | some c =>
    right
    cases hc : chain_find key_equal key c 0 with
    | none => left; exact ⟨c, rfl, hc, by simp [find, hs, hc]⟩
    | some t => right; exact ⟨c, t, rfl, hc, by simp [find, hs, hc, slot_ptr_of_some hs]⟩

theorem iter_eq_self (m : unordered_map K V) (a : __unordered_map_iterator) :
    iter_eq m a a = true := by
  simp [iter_eq]

theorem iter_eq_end_of_lt (m : unordered_map K V) (t : Nat) (lp : Option Nat) (b : Nat)
    (hb : b < m.buckets.length) (hend : m.end_iterator.list_iterator = none) :
    iter_eq m ⟨some t, lp, b⟩ m.end_ = false := by
  simp [iter_eq, end_, hend, Nat.not_le.mpr hb]

theorem entry_at_end (m : unordered_map K V) (hend : m.end_iterator.list_pointer = none) :
    entry_at m m.end_ = none := by
  simp [entry_at, end_, hend]

/-- The value `operator[]` reads is the value found by searching the chain of
the slot selected by the hash. -/
theorem subscript_eq (hash : K → Nat) (key_equal : K → K → Bool) (m : unordered_map K V)
    (key : K) (hend : m.end_iterator.list_pointer = none) :
    subscript hash key_equal m key =
      assoc key_equal key (chain_of (slot m.buckets (hash key % m.buckets.length))) := by
  unfold subscript deref
  rcases find_cases hash key_equal m key with ⟨hs, hf⟩ | ⟨c, hs, hc, hf⟩ | ⟨c, t, hs, hc, hf⟩
  · rw [hf, entry_at_end m hend, hs]; rfl
  · rw [hf, entry_at_end m hend, hs]
    simp only [chain_of, Option.getD_some, Option.map_none']
    exact (assoc_eq_none.mpr (chain_find_eq_none.mp hc)).symm
  · obtain ⟨t1, e, ht, hget, _, hfind, _⟩ := chain_find_some hc
    have ht1 : t1 = t := by omega
    subst ht1
    rw [hf, hs]
    simp only [entry_at, hs, hget, chain_of, assoc, hfind, Option.getD_some, Option.map_some']

theorem contains_eq (hash : K → Nat) (key_equal : K → K → Bool) (m : unordered_map K V)
    (key : K) (hpos : 0 < m.buckets.length)
    (hend : m.end_iterator.list_iterator = none) :
    contains hash key_equal m key =
      (assoc key_equal key (chain_of (slot m.buckets (hash key % m.buckets.length)))).isSome := by
  unfold contains
  rcases find_cases hash key_equal m key with ⟨hs, hf⟩ | ⟨c, hs, hc, hf⟩ | ⟨c, t, hs, hc, hf⟩
  · rw [hf, iter_eq_self, hs]; rfl
  · rw [hf, iter_eq_self, hs]
    simp only [chain_of, Option.getD_some]
    rw [assoc_eq_none.mpr (chain_find_eq_none.mp hc)]; rfl
  · rw [hf, iter_eq_end_of_lt m t _ _ (Nat.mod_lt _ hpos) hend, hs]
    simp only [chain_of, Option.getD_some]
    rw [← chain_find_isSome_eq_assoc key_equal key c 0, hc]; rfl

theorem contains_eq_isSome_subscript {hash : K → Nat} {key_equal : K → K → Bool}
    {m : unordered_map K V} (W : WF hash key_equal m) (key : K) :
    contains hash key_equal m key = (subscript hash key_equal m key).isSome := by
  rw [contains_eq hash key_equal m key W.pos (by rw [W.end_it]),
    subscript_eq hash key_equal m key (by rw [W.end_it])]

/-! ## The insertion step (lines 271-281 of `insert`) -/

theorem insert_entry_end_iterator (hash : K → Nat) (key_equal : K → K → Bool)
    (m : unordered_map K V) (p : K × V) :
    (insert_entry hash key_equal m p).end_iterator = m.end_iterator := by
  unfold insert_entry
  simp only
  split
  · rfl
  · split <;> rfl

/-- A key that is absent is put in front of the chain of its slot. -/
theorem insert_entry_fresh (hash : K → Nat) (key_equal : K → K → Bool)
    (m : unordered_map K V) (p : K × V) (h : contains hash key_equal m p.1 = false) :
    (insert_entry hash key_equal m p).buckets =
        m.buckets.set (hash p.1 % m.buckets.length)
          (some (p :: chain_of (slot m.buckets (hash p.1 % m.buckets.length)))) ∧
      (insert_entry hash key_equal m p).__size = (m.__size + 1) % UINT_RANGE := by
  have h1 : iter_eq m (find hash key_equal m p.1) m.end_ = true := by
    simpa [contains] using h
  unfold insert_entry
  simp only [h1, if_true, list_push_front]
  constructor
  · cases hs : slot m.buckets (hash p.1 % m.buckets.length) <;> simp [chain_of]
  · trivial

/-- A key that is present has its value overwritten in place. -/
theorem insert_entry_found (hash : K → Nat) (key_equal : K → K → Bool)
    (m : unordered_map K V) (p : K × V) (h : contains hash key_equal m p.1 = true) :
    ∃ c t e, slot m.buckets (hash p.1 % m.buckets.length) = some c ∧
      c.get? t = some e ∧ key_equal e.1 p.1 = true ∧
      (∀ x ∈ c.take t, key_equal x.1 p.1 = false) ∧
      (insert_entry hash key_equal m p).buckets =
        m.buckets.set (hash p.1 % m.buckets.length)
          (some (c.modify (fun x => (x.1, p.2)) t)) ∧
      (insert_entry hash key_equal m p).__size = m.__size := by
  have h1 : iter_eq m (find hash key_equal m p.1) m.end_ = false := by
    simpa [contains] using h
  rcases find_cases hash key_equal m p.1 with ⟨hs, hf⟩ | ⟨c, hs, hc, hf⟩ | ⟨c, t, hs, hc, hf⟩
  · rw [hf, iter_eq_self] at h1; cases h1
  · rw [hf, iter_eq_self] at h1; cases h1
  · obtain ⟨t1, e, ht, hget, hke, _, hfirst⟩ := chain_find_some hc
    have ht1 : t1 = t := by omega
    subst ht1
    refine ⟨c, t1, e, hs, hget, hke, hfirst, ?_, ?_⟩
    · unfold insert_entry
      simp only [h1, Bool.false_eq_true, if_false]
      rw [hf]
      simp [hs]
    · unfold insert_entry
      simp only [h1, Bool.false_eq_true, if_false]
      rw [hf]

theorem map_fst_modify (c : Chain K V) (v : V) (t : Nat) :
    (c.modify (fun x => (x.1, v)) t).map Prod.fst = c.map Prod.fst := by
  induction c generalizing t with
  | nil => cases t <;> rfl
  | cons x rest ih =>
    cases t with
    | zero => simp [List.modify_zero_cons]
    | succ t => simp [List.modify_succ_cons, ih t]

theorem pairwise_key_iff (key_equal : K → K → Bool) (c : Chain K V) :
    c.Pairwise (fun a b => key_equal a.1 b.1 = false) ↔
      (c.map Prod.fst).Pairwise (fun a b => key_equal a b = false) := by
  rw [List.pairwise_map]

theorem mem_modify_fst {c : Chain K V} {v : V} {t : Nat} {e : K × V}
    (h : e ∈ c.modify (fun x => (x.1, v)) t) : ∃ e0 ∈ c, e0.1 = e.1 := by
  have h1 : e.1 ∈ (c.modify (fun x => (x.1, v)) t).map Prod.fst := List.mem_map_of_mem _ h
  rw [map_fst_modify] at h1
  obtain ⟨e0, he0, h0⟩ := List.mem_map.mp h1
  exact ⟨e0, he0, h0⟩

theorem succ_mod_uint (n : Nat) : (n % UINT_RANGE + 1) % UINT_RANGE = (n + 1) % UINT_RANGE := by
  simp [Nat.add_mod]

/-- The insertion step keeps the structural invariant. -/
theorem insert_entry_WF {hash : K → Nat} {key_equal : K → K → Bool}
    (L : Lawful hash key_equal) {m : unordered_map K V} (W : WF hash key_equal m)
    (p : K × V) : WF hash key_equal (insert_entry hash key_equal m p) := by
  have hidx : hash p.1 % m.buckets.length < m.buckets.length := Nat.mod_lt _ W.pos
  have hsplit := entries_of_split m.buckets _ hidx
  cases hcon : contains hash key_equal m p.1 with
  | false =>
    obtain ⟨hb, hsz⟩ := insert_entry_fresh hash key_equal m p hcon
    have hlen : (insert_entry hash key_equal m p).buckets.length = m.buckets.length := by
      rw [hb, List.length_set]
    have habs : ∀ e ∈ chain_of (slot m.buckets (hash p.1 % m.buckets.length)),
        key_equal e.1 p.1 = false := by
      rw [contains_eq hash key_equal m p.1 W.pos (by rw [W.end_it])] at hcon
      apply assoc_eq_none.mp
      cases ha : assoc key_equal p.1 (chain_of (slot m.buckets (hash p.1 % m.buckets.length)))
      · rfl
      · rw [ha] at hcon; cases hcon
    refine ⟨by rw [hlen]; exact W.pos, ?_, ?_, ?_, ?_, ?_⟩
    · rw [insert_entry_end_iterator, hlen]; exact W.end_it
    · intro i c hs
      rw [hb, slot_set _ _ _ _ hidx] at hs
      split at hs
      · cases hs; simp
      · exact W.nonempty i c hs
    · intro i c hs e he
      rw [hlen]
      rw [hb, slot_set _ _ _ _ hidx] at hs
      split at hs
      · next hi =>
        cases hs
        rcases List.mem_cons.mp he with rfl | he
        · exact hi
        · cases hs0 : slot m.buckets (hash p.1 % m.buckets.length) with
          | none => rw [hs0] at he; simp [chain_of] at he
          | some c0 =>
            rw [hs0] at he
            rw [← hi]
            exact W.place _ c0 hs0 e (by simpa [chain_of] using he)
      · exact W.place i c hs e he
    · intro i c hs
      rw [hb, slot_set _ _ _ _ hidx] at hs
      split at hs
      · cases hs
        rw [List.pairwise_cons]
        constructor
        · intro e he
          cases hx : key_equal p.1 e.1 with
          | false => rfl
          | true =>
            have := L.symm _ _ hx
            rw [habs e he] at this
            cases this
        · cases hs0 : slot m.buckets (hash p.1 % m.buckets.length) with
          | none => simp [chain_of]
          | some c0 => simpa [chain_of] using W.uniq _ c0 hs0
      · exact W.uniq i c hs
    · rw [hsz, W.count, succ_mod_uint]
      unfold entries
      rw [hb, entries_of_set _ _ _ hidx, hsplit]
      simp only [chain_of, Option.getD_some, List.length_append, List.length_cons]
      congr 1
      omega
  | true =>
    obtain ⟨c0, t, e0, hs0, hget, hke, hfirst, hb, hsz⟩ :=
      insert_entry_found hash key_equal m p hcon
    have hlen : (insert_entry hash key_equal m p).buckets.length = m.buckets.length := by
      rw [hb, List.length_set]
    refine ⟨by rw [hlen]; exact W.pos, ?_, ?_, ?_, ?_, ?_⟩
    · rw [insert_entry_end_iterator, hlen]; exact W.end_it
    · intro i c hs
      rw [hb, slot_set _ _ _ _ hidx] at hs
      split at hs
      · cases hs
        intro hnil
        have := congrArg List.length hnil
        rw [List.length_modify] at this
        exact W.nonempty _ c0 hs0 (List.length_eq_zero.mp this)
      · exact W.nonempty i c hs
    · intro i c hs e he
      rw [hlen]
      rw [hb, slot_set _ _ _ _ hidx] at hs
      split at hs
      · next hi =>
        cases hs
        obtain ⟨e1, he1, h1⟩ := mem_modify_fst he
        rw [← h1, ← hi]
        exact W.place _ c0 hs0 e1 he1
      · exact W.place i c hs e he
    · intro i c hs
      rw [hb, slot_set _ _ _ _ hidx] at hs
      split at hs
      · cases hs
        rw [pairwise_key_iff, map_fst_modify, ← pairwise_key_iff]
        exact W.uniq _ c0 hs0
      · exact W.uniq i c hs
    · rw [hsz, W.count]
      unfold entries
      rw [hb, entries_of_set _ _ _ hidx, hsplit, hs0]
      simp only [chain_of, Option.getD_some, List.length_append, List.length_modify]

theorem insert_entry_length (hash : K → Nat) (key_equal : K → K → Bool)
    (m : unordered_map K V) (p : K × V) :
    (insert_entry hash key_equal m p).buckets.length = m.buckets.length := by
  cases hcon : contains hash key_equal m p.1 with
  | false => rw [(insert_entry_fresh hash key_equal m p hcon).1, List.length_set]
  | true =>
    obtain ⟨c0, t, e0, _, _, _, _, hb, _⟩ := insert_entry_found hash key_equal m p hcon
    rw [hb, List.length_set]

/-- After the insertion step the key reads the new value and every other key
reads what it read before. -/
theorem insert_entry_subscript {hash : K → Nat} {key_equal : K → K → Bool}
    (L : Lawful hash key_equal) {m : unordered_map K V} (W : WF hash key_equal m)
    (p : K × V) (k1 : K) :
    subscript hash key_equal (insert_entry hash key_equal m p) k1 =
      if key_equal p.1 k1 = true then some p.2 else subscript hash key_equal m k1 := by
  have hidx : hash p.1 % m.buckets.length < m.buckets.length := Nat.mod_lt _ W.pos
  have hend : m.end_iterator.list_pointer = none := by rw [W.end_it]
  rw [subscript_eq hash key_equal _ k1 (by rw [insert_entry_end_iterator]; exact hend),
    subscript_eq hash key_equal m k1 hend, insert_entry_length]
  have hne : ¬ hash p.1 % m.buckets.length = hash k1 % m.buckets.length →
      ¬ key_equal p.1 k1 = true := by
    intro hne hk
    exact hne (by rw [L.hash_eq _ _ hk])
  cases hcon : contains hash key_equal m p.1 with
  | false =>
    rw [(insert_entry_fresh hash key_equal m p hcon).1, slot_set _ _ _ _ hidx]
    split
    · next hi =>
      rw [← hi]
      simp only [chain_of, Option.getD_some]
      rw [assoc_cons]
    · next hi => rw [if_neg (hne hi)]
  | true =>
    obtain ⟨c0, t, e0, hs0, hget, hke, hfirst, hb, _⟩ :=
      insert_entry_found hash key_equal m p hcon
    rw [hb, slot_set _ _ _ _ hidx]
    split
    · next hi =>
      rw [← hi, hs0]
      simp only [chain_of, Option.getD_some]
      exact assoc_modify L p.1 k1 p.2 c0 t e0 hget hke hfirst
    · next hi => rw [if_neg (hne hi)]

/-- A fresh key adds exactly one entry. -/
theorem insert_entry_perm {hash : K → Nat} {key_equal : K → K → Bool}
    {m : unordered_map K V} (hpos : 0 < m.buckets.length) (p : K × V)
    (hcon : contains hash key_equal m p.1 = false) :
    (entries (insert_entry hash key_equal m p)).Perm (p :: entries m) := by
  have hidx : hash p.1 % m.buckets.length < m.buckets.length := Nat.mod_lt _ hpos
  unfold entries
  rw [(insert_entry_fresh hash key_equal m p hcon).1, entries_of_set _ _ _ hidx,
    entries_of_split m.buckets _ hidx]
  simp only [chain_of, Option.getD_some, List.cons_append]
  exact List.perm_middle

/-- An overwrite keeps the number of entries. -/
theorem insert_entry_length_entries_found {hash : K → Nat} {key_equal : K → K → Bool}
    {m : unordered_map K V} (hpos : 0 < m.buckets.length) (p : K × V)
    (hcon : contains hash key_equal m p.1 = true) :
    (entries (insert_entry hash key_equal m p)).length = (entries m).length := by
  have hidx : hash p.1 % m.buckets.length < m.buckets.length := Nat.mod_lt _ hpos
  obtain ⟨c0, t, e0, hs0, _, _, _, hb, _⟩ := insert_entry_found hash key_equal m p hcon
  unfold entries
  rw [hb, entries_of_set _ _ _ hidx, entries_of_split m.buckets _ hidx, hs0]
  simp only [chain_of, Option.getD_some, List.length_append, List.length_modify]

/-! ## Reading the table through its list of entries -/

theorem key_equal_false_symm {hash : K → Nat} {key_equal : K → K → Bool}
    (L : Lawful hash key_equal) {a b : K} (h : key_equal a b = false) :
    key_equal b a = false := by
  cases hx : key_equal b a with
  | false => rfl
  | true =>
    have := L.symm _ _ hx
    rw [h] at this
    cases this

/-- In a chain without equal keys, the entry with a given key is the one the
search returns. -/
theorem assoc_of_mem {hash : K → Nat} {key_equal : K → K → Bool}
    (L : Lawful hash key_equal) {c : List (K × V)}
    (hu : c.Pairwise (fun a b => key_equal a.1 b.1 = false)) {e : K × V} (he : e ∈ c)
    {k : K} (hk : key_equal e.1 k = true) : assoc key_equal k c = some e.2 := by
  induction c with
  | nil => simp at he
  | cons x rest ih =>
    rw [List.pairwise_cons] at hu
    rw [assoc_cons]
    rcases List.mem_cons.mp he with rfl | he1
    · simp [hk]
    · have hx : key_equal x.1 k = false := by
        rw [← key_equal_congr L hk]
        exact hu.1 e he1
      simp [hx, ih hu.2 he1]

/-- The value read for a key is the value of the entry of the table with that
key. -/
theorem subscript_eq_some_iff {hash : K → Nat} {key_equal : K → K → Bool}
    (L : Lawful hash key_equal) {m : unordered_map K V} (W : WF hash key_equal m)
    (k : K) (v : V) :
    subscript hash key_equal m k = some v ↔
      ∃ e ∈ entries m, key_equal e.1 k = true ∧ e.2 = v := by
  rw [subscript_eq hash key_equal m k (by rw [W.end_it])]
  constructor
  · intro h
    obtain ⟨e, he, hk, hv⟩ := assoc_eq_some h
    cases hs : slot m.buckets (hash k % m.buckets.length) with
    | none => rw [hs] at he; simp [chain_of] at he
    | some c =>
      rw [hs] at he
      exact ⟨e, mem_entries_of.mpr ⟨_, c, hs, by simpa [chain_of] using he⟩, hk, hv⟩
  · rintro ⟨e, he, hk, hv⟩
    obtain ⟨i, c, hs, hec⟩ := mem_entries_of.mp he
    have hi : hash k % m.buckets.length = i := by
      rw [← L.hash_eq _ _ hk]
      exact W.place i c hs e hec
    rw [hi, hs]
    simp only [chain_of, Option.getD_some]
    rw [assoc_of_mem L (W.uniq i c hs) hec hk, hv]

theorem subscript_eq_none_iff {hash : K → Nat} {key_equal : K → K → Bool}
    (L : Lawful hash key_equal) {m : unordered_map K V} (W : WF hash key_equal m)
    (k : K) :
    subscript hash key_equal m k = none ↔ ∀ e ∈ entries m, key_equal e.1 k = false := by
  constructor
  · intro h e he
    cases hk : key_equal e.1 k with
    | false => rfl
    | true =>
      have := (subscript_eq_some_iff L W k e.2).mpr ⟨e, he, hk, rfl⟩
      rw [h] at this
      cases this
  · intro h
    cases hs : subscript hash key_equal m k with
    | none => rfl
    | some v =>
      obtain ⟨e, he, hk, _⟩ := (subscript_eq_some_iff L W k v).mp hs
      rw [h e he] at hk
      cases hk

/-- Two tables with the same entries read the same value for every key. -/
theorem subscript_eq_of_perm {hash : K → Nat} {key_equal : K → K → Bool}
    (L : Lawful hash key_equal) {m m1 : unordered_map K V} (W : WF hash key_equal m)
    (W1 : WF hash key_equal m1) (hp : (entries m1).Perm (entries m)) (k : K) :
    subscript hash key_equal m1 k = subscript hash key_equal m k := by
  cases hs : subscript hash key_equal m k with
  | none =>
    rw [subscript_eq_none_iff L W] at hs
    rw [subscript_eq_none_iff L W1]
    intro e he
    exact hs e (hp.mem_iff.mp he)
  | some v =>
    rw [subscript_eq_some_iff L W] at hs
    rw [subscript_eq_some_iff L W1]
    obtain ⟨e, he, h1, h2⟩ := hs
    exact ⟨e, hp.mem_iff.mpr he, h1, h2⟩

/-- The keys of the table are pairwise different, also across chains. -/
theorem entries_pairwise {hash : K → Nat} {key_equal : K → K → Bool}
    (L : Lawful hash key_equal) {m : unordered_map K V} (W : WF hash key_equal m) :
    (entries m).Pairwise (fun a b => key_equal a.1 b.1 = false) := by
  have key : ∀ (bs : List (Option (Chain K V))) (off : Nat),
      (∀ i c, slot bs i = some c → ∀ e ∈ c, hash e.1 % m.buckets.length = off + i) →
      (∀ i c, slot bs i = some c → c.Pairwise (fun a b => key_equal a.1 b.1 = false)) →
      (entries_of bs).Pairwise (fun a b => key_equal a.1 b.1 = false) := by
    intro bs
    induction bs with
    | nil => intro _ _ _; simp [entries_of_nil]
    | cons b bs ih =>
      intro off hp hu
      rw [entries_of_cons, List.pairwise_append]
      refine ⟨?_, ?_, ?_⟩
      · cases b with
        | none => simp [chain_of]
        | some c => simpa [chain_of] using hu 0 c (by simp [slot_cons_zero])
      · apply ih (off + 1)
        · intro i c hs e he
          have := hp (i + 1) c (by simpa [slot_cons_succ] using hs) e he
          omega
        · intro i c hs
          exact hu (i + 1) c (by simpa [slot_cons_succ] using hs)
      · intro a ha b1 hb1
        cases b with
        | none => simp [chain_of] at ha
        | some c =>
          have h0 := hp 0 c (by simp [slot_cons_zero]) a (by simpa [chain_of] using ha)
          obtain ⟨i, c1, hs1, he1⟩ := mem_entries_of.mp hb1
          have h1 := hp (i + 1) c1 (by simpa [slot_cons_succ] using hs1) b1 he1
          cases hx : key_equal a.1 b1.1 with
          | false => rfl
          | true =>
            have := L.hash_eq _ _ hx
            rw [this] at h0
            omega
  exact key m.buckets 0 (fun i c hs e he => by simpa using W.place i c hs e he) W.uniq

/-! ## Traversal: `begin()`, `operator++` and `operator==` -/

theorem entries_of_drop_of_le (bs : List (Option (Chain K V))) (b : Nat)
    (h : bs.length ≤ b) : entries_of (bs.drop b) = [] := by
  rw [List.drop_eq_nil_of_le h]; rfl

theorem entries_of_drop (bs : List (Option (Chain K V))) (b : Nat) (h : b < bs.length) :
    entries_of (bs.drop b) = chain_of (slot bs b) ++ entries_of (bs.drop (b + 1)) := by
  rw [List.drop_eq_getElem_cons h, entries_of_cons, slot_eq_getElem?,
    List.getElem?_eq_getElem h]
  rfl

/-- The scan of `operator++` stops past the last slot or on the next occupied
slot. -/
theorem skip_empty_spec (bs : List (Option (Chain K V))) (fuel b : Nat)
    (hf : fuel = bs.length - b) :
    (bs.length ≤ (skip_empty bs fuel b (slot_ptr bs b)).1 ∧ entries_of (bs.drop b) = []) ∨
    (∃ c, (skip_empty bs fuel b (slot_ptr bs b)).1 < bs.length ∧
      (skip_empty bs fuel b (slot_ptr bs b)).2 = some (skip_empty bs fuel b (slot_ptr bs b)).1 ∧
      slot bs (skip_empty bs fuel b (slot_ptr bs b)).1 = some c ∧
      entries_of (bs.drop b) =
        c ++ entries_of (bs.drop ((skip_empty bs fuel b (slot_ptr bs b)).1 + 1))) := by
  induction fuel generalizing b with
  | zero =>
    left
    have hb : bs.length ≤ b := by omega
    exact ⟨by simpa [skip_empty] using hb, entries_of_drop_of_le bs b hb⟩
  | succ fuel ih =>
    have hb : b < bs.length := by omega
    cases hs : slot bs b with
    | none =>
      have hp : slot_ptr bs b = none := slot_ptr_of_none hs
      have hstep : skip_empty bs (fuel + 1) b (slot_ptr bs b) =
          skip_empty bs fuel (b + 1) (slot_ptr bs (b + 1)) := by
        rw [hp]; simp [skip_empty, hb]
      rw [hstep, entries_of_drop bs b hb, hs]
      simpa [chain_of] using ih (b + 1) (by omega)
    | some c =>
      have hp : slot_ptr bs b = some b := slot_ptr_of_some hs
      have hstep : skip_empty bs (fuel + 1) b (slot_ptr bs b) = (b, some b) := by
        rw [hp]; simp [skip_empty]
      right
      rw [hstep]
      exact ⟨c, hb, rfl, hs, by rw [entries_of_drop bs b hb, hs]; rfl⟩

theorem begin_loop_IterAt {m : unordered_map K V}
    (hne : ∀ i c, slot m.buckets i = some c → c ≠ [])
    (hend : m.buckets.length ≤ m.end_iterator.bucket) (fuel i : Nat)
    (hf : fuel = m.buckets.length - i) :
    IterAt m (begin_loop m fuel i) (entries_of (m.buckets.drop i)) := by
  induction fuel generalizing i with
  | zero =>
    left
    exact ⟨entries_of_drop_of_le _ _ (by omega), by simpa [begin_loop, end_] using hend⟩
  | succ fuel ih =>
    have hi : i < m.buckets.length := by omega
    cases hs : slot m.buckets i with
    | none =>
      have hstep : begin_loop m (fuel + 1) i = begin_loop m fuel (i + 1) := by
        simp [begin_loop, hs]
      rw [hstep, entries_of_drop _ _ hi, hs]
      simpa [chain_of] using ih (i + 1) (by omega)
    | some c =>
      have hstep : begin_loop m (fuel + 1) i = ⟨some 0, some i, i⟩ := by
        simp [begin_loop, hs, slot_ptr_of_some hs]
      right
      rw [hstep]
      refine ⟨i, 0, c, rfl, hs, ?_, ?_⟩
      · exact List.length_pos.mpr (hne i c hs)
      · rw [entries_of_drop _ _ hi, hs]; rfl

/-- `begin()` designates the first entry of the table. -/
theorem begin_IterAt {hash : K → Nat} {key_equal : K → K → Bool} {m : unordered_map K V}
    (W : WF hash key_equal m) : IterAt m m.begin_ (entries m) := by
  have := begin_loop_IterAt W.nonempty (by rw [W.end_it]) m.buckets.length 0 (by omega)
  simpa [begin_, entries] using this

/-- An iterator compares equal to `end()` exactly when nothing is left to
visit. -/
theorem iter_eq_end_iff {hash : K → Nat} {key_equal : K → K → Bool} {m : unordered_map K V}
    (W : WF hash key_equal m) {ite : __unordered_map_iterator} {l : List (K × V)}
    (h : IterAt m ite l) : iter_eq m ite m.end_ = true ↔ l = [] := by
  rcases h with ⟨hl, hb⟩ | ⟨b, i, c, hite, hs, hi, hl⟩
  · simp [iter_eq, end_, W.end_it, hb, hl]
  · have hb : b < m.buckets.length := slot_lt_of_some hs
    subst hite
    rw [iter_eq_end_of_lt m i _ b hb (by rw [W.end_it])]
    have : c.drop i ≠ [] := by
      intro hd
      have := congrArg List.length hd
      simp at this
      omega
    simp [hl, this]

/-- `operator*`/`get_key` read the entry designated and `operator++` moves to
the next entry of the table. -/
theorem incr_IterAt {m : unordered_map K V} {ite : __unordered_map_iterator}
    {e : K × V} {l : List (K × V)} (hne : ∀ i c, slot m.buckets i = some c → c ≠ [])
    (h : IterAt m ite (e :: l)) :
    entry_at m ite = some e ∧ ∃ next, incr m ite = some next ∧ IterAt m next l := by
  rcases h with ⟨hl, _⟩ | ⟨b, i, c, hite, hs, hi, hl⟩
  · cases hl
  · subst hite
    rw [List.drop_eq_getElem_cons hi, List.cons_append] at hl
    obtain ⟨he, hl⟩ := List.cons.inj hl
    constructor
    · simp [entry_at, hs, List.get?_eq_getElem?, List.getElem?_eq_getElem hi, he]
    · by_cases hlast : i + 1 = c.length
      · have hdrop : c.drop (i + 1) = [] := List.drop_eq_nil_of_le (by omega)
        rw [hdrop, List.nil_append] at hl
        rcases skip_empty_spec m.buckets (m.buckets.length - (b + 1)) (b + 1) rfl with
          ⟨hr, hE⟩ | ⟨c1, hr, hr2, hs1, hE⟩
        · have hincr : incr m ⟨some i, some b, b⟩ = some ⟨some i,
              (skip_empty m.buckets (m.buckets.length - (b + 1)) (b + 1)
                (slot_ptr m.buckets (b + 1))).2,
              (skip_empty m.buckets (m.buckets.length - (b + 1)) (b + 1)
                (slot_ptr m.buckets (b + 1))).1⟩ := by
            simp only [incr, hs, hlast, ne_eq, not_true_eq_false, if_false]
            rw [if_neg (Nat.not_lt.mpr hr)]
          exact ⟨_, hincr, Or.inl ⟨by rw [hl, hE], hr⟩⟩
        · have hincr : incr m ⟨some i, some b, b⟩ = some ⟨some 0,
              some (skip_empty m.buckets (m.buckets.length - (b + 1)) (b + 1)
                (slot_ptr m.buckets (b + 1))).1,
              (skip_empty m.buckets (m.buckets.length - (b + 1)) (b + 1)
                (slot_ptr m.buckets (b + 1))).1⟩ := by
            simp only [incr, hs, hlast, ne_eq, not_true_eq_false, if_false]
            rw [if_pos hr, hr2]
          exact ⟨_, hincr, Or.inr ⟨_, 0, c1, rfl, hs1, List.length_pos.mpr (hne _ c1 hs1),
            by rw [hl, hE]; rfl⟩⟩
      · refine ⟨⟨some (i + 1), some b, b⟩, ?_, Or.inr ⟨b, i + 1, c, rfl, hs, by omega, hl⟩⟩
        simp [incr, hs, hlast]

/-- The re-insertion loop applies the nested `insert` to the entries of `temp`
in traversal order. -/
theorem rehash_loop_eq {hash : K → Nat} {key_equal : K → K → Bool}
    (ins : unordered_map K V → K × V → Option (unordered_map K V))
    {temp : unordered_map K V} (W : WF hash key_equal temp) (l : List (K × V)) :
    ∀ (fuel : Nat) (ite : __unordered_map_iterator) (m : unordered_map K V),
      IterAt temp ite l → l.length < fuel →
      rehash_loop ins temp fuel ite m = l.foldlM ins m := by
  induction l with
  | nil =>
    intro fuel ite m h hf
    cases fuel with
    | zero => simp at hf
    | succ fuel =>
      have := (iter_eq_end_iff W h).mpr rfl
      simp [rehash_loop, this]
  | cons e l ih =>
    intro fuel ite m h hf
    cases fuel with
    | zero => simp at hf
    | succ fuel =>
      have hne : iter_eq temp ite temp.end_ = false := by
        cases hx : iter_eq temp ite temp.end_ with
        | false => rfl
        | true => exact absurd ((iter_eq_end_iff W h).mp hx) (by simp)
      obtain ⟨hentry, next, hnext, hat⟩ := incr_IterAt W.nonempty h
      have hlen : l.length < fuel := by simpa using hf
      simp only [rehash_loop, hne, Bool.false_eq_true, if_false, get_key, deref, hentry,
        Option.map_some', hnext, List.foldlM_cons]
      cases hins : ins m (e.1, e.2) with
      | none => simp [hins]
      | some m1 => simpa [hins] using ih fuel next m1 hat hlen

/-! ## Fuel -/

theorem rehash_loop_mono
    (ins ins1 : unordered_map K V → K × V → Option (unordered_map K V))
    (hins : ∀ m p r, ins m p = some r → ins1 m p = some r) (temp : unordered_map K V) :
    ∀ (fuel fuel1 : Nat) (ite : __unordered_map_iterator) (m r : unordered_map K V),
      fuel ≤ fuel1 → rehash_loop ins temp fuel ite m = some r →
      rehash_loop ins1 temp fuel1 ite m = some r := by
  intro fuel
  induction fuel with
  | zero => intro fuel1 ite m r _ h; simp [rehash_loop] at h
  | succ fuel ih =>
    intro fuel1 ite m r hle h
    cases fuel1 with
    | zero => omega
    | succ fuel1 =>
      by_cases heq : iter_eq temp ite temp.end_ = true
      · simpa [rehash_loop, heq] using h
      · simp only [rehash_loop, heq, Bool.false_eq_true, if_false] at h ⊢
        cases hk : get_key temp ite with
        | none => simp [hk] at h
        | some k =>
          cases hv : deref temp ite with
          | none => simp [hk, hv] at h
          | some v =>
            cases hn : incr temp ite with
            | none => simp [hk, hv, hn] at h
            | some next =>
              simp only [hk, hv, hn] at h ⊢
              cases hm1 : ins m (k, v) with
              | none => simp [hm1] at h
              | some m1 =>
                simp only [hm1] at h
                simp only [hins _ _ _ hm1]
                exact ih fuel1 next m1 r (by omega) h

/-- More fuel does not change the result of `insert`. -/
theorem insert_mono (hash : K → Nat) (key_equal : K → K → Bool) :
    ∀ (fuel fuel1 : Nat) (m : unordered_map K V) (p : K × V) (r : unordered_map K V),
      fuel ≤ fuel1 → insert hash key_equal fuel m p = some r →
      insert hash key_equal fuel1 m p = some r := by
  intro fuel
  induction fuel with
  | zero => intro fuel1 m p r _ h; simp [insert] at h
  | succ fuel ih =>
    intro fuel1 m p r hle h
    cases fuel1 with
    | zero => omega
    | succ fuel1 =>
      by_cases hc : 2 * (insert_entry hash key_equal m p).size >
          (insert_entry hash key_equal m p).bucket_size
      · by_cases hn : next_prime (insert_entry hash key_equal m p).bucket_size =
            (insert_entry hash key_equal m p).bucket_size
        · simpa [insert, hc, hn] using h
        · simp only [insert, hc, hn, if_true, if_false] at h ⊢
          exact rehash_loop_mono _ _ (fun m p r hr => ih fuel1 m p r (by omega) hr) _ _ _ _ _ _
            (by omega) h
      · simpa [insert, hc] using h

/-! ## Growth policy facts -/

theorem prime_list_facts :
    ∀ B ∈ prime_list, 0 < B ∧ B < UINT_RANGE ∧ B % 2 = 1 ∧ next_prime B ∈ prime_list ∧
      (B ≠ 4294967291 → B + 2 ≤ next_prime B) ∧ (B = 4294967291 → next_prime B = B) := by
  decide

/-! ## The rehash branch of `insert` -/

theorem insert_no_rehash (hash : K → Nat) (key_equal : K → K → Bool) (fuel : Nat)
    (m : unordered_map K V) (p : K × V)
    (h : 2 * (insert_entry hash key_equal m p).size ≤
      (insert_entry hash key_equal m p).bucket_size) :
    insert hash key_equal (fuel + 1) m p = some (insert_entry hash key_equal m p) := by
  simp [insert, Nat.not_lt.mpr h]

theorem rehash_start_length (m1 : unordered_map K V) (n : Nat) :
    (rehash_start m1 n).buckets.length = n := by
  simp [rehash_start, vector_resize]

theorem rehash_start_entries (m1 : unordered_map K V) (n : Nat) :
    entries (rehash_start m1 n) = [] := by
  simp [entries, rehash_start, vector_resize, entries_of_replicate]

theorem rehash_start_WF {hash : K → Nat} {key_equal : K → K → Bool}
    {m1 : unordered_map K V} (W : WF hash key_equal m1) (n : Nat) (hn : 0 < n) :
    WF hash key_equal (rehash_start m1 n) := by
  have hb : (rehash_start m1 n).buckets = List.replicate n none := rfl
  refine ⟨by rw [rehash_start_length]; exact hn, ?_, ?_, ?_, ?_, ?_⟩
  · rw [rehash_start_length]
    simp [rehash_start, clear, W.end_it]
  · intro i c hs; rw [hb, slot_replicate] at hs; cases hs
  · intro i c hs; rw [hb, slot_replicate] at hs; cases hs
  · intro i c hs; rw [hb, slot_replicate] at hs; cases hs
  · rw [rehash_start_entries]; rfl

theorem copy_eq {hash : K → Nat} {key_equal : K → K → Bool} {m : unordered_map K V}
    (W : WF hash key_equal m) : copy m = m := by
  cases m with
  | mk bs sz e =>
    have := W.end_it
    simp only at this
    simp [copy, size, bucket_size, this]

/-- Re-inserting pairwise different keys into a table that is large enough
never triggers a nested rehash, and stores exactly these entries. -/
theorem foldlM_insert_fresh {hash : K → Nat} {key_equal : K → K → Bool}
    (L : Lawful hash key_equal) (B fuel : Nat) (hfuel : 0 < fuel) (hB : B < UINT_RANGE) :
    ∀ (l : List (K × V)) (mj : unordered_map K V) (done : List (K × V)),
      WF hash key_equal mj → mj.buckets.length = B → (entries mj).Perm done →
      (done ++ l).Pairwise (fun a b => key_equal a.1 b.1 = false) →
      2 * (done.length + l.length) ≤ B →
      l.foldlM (insert hash key_equal fuel) mj =
          some (l.foldl (insert_entry hash key_equal) mj) ∧
        WF hash key_equal (l.foldl (insert_entry hash key_equal) mj) ∧
        (l.foldl (insert_entry hash key_equal) mj).buckets.length = B ∧
        (entries (l.foldl (insert_entry hash key_equal) mj)).Perm (done ++ l) := by
  intro l
  induction l with
  | nil =>
    intro mj done W hlen hperm _ _
    simpa using ⟨W, hlen, hperm⟩
  | cons e l ih =>
    intro mj done W hlen hperm hpw hload
    have hfresh : contains hash key_equal mj e.1 = false := by
      rw [contains_eq_isSome_subscript W]
      rw [(subscript_eq_none_iff L W e.1).mpr]
      · rfl
      · intro x hx
        have hx1 : x ∈ done := hperm.mem_iff.mp hx
        exact (List.pairwise_append.mp hpw).2.2 x hx1 e (by simp)
    have W1 := insert_entry_WF L W e
    have hperm1 := insert_entry_perm W.pos e hfresh
    have hlen1 : (insert_entry hash key_equal mj e).buckets.length = B := by
      rw [insert_entry_length, hlen]
    have hcount : (entries (insert_entry hash key_equal mj e)).length = done.length + 1 := by
      rw [hperm1.length_eq, List.length_cons, hperm.length_eq]
    have hsize : (insert_entry hash key_equal mj e).size = done.length + 1 := by
      simp only [List.length_cons] at hload
      unfold size
      rw [W1.count, hcount]
      exact Nat.mod_eq_of_lt (by omega)
    have hstep : insert hash key_equal fuel mj e =
        some (insert_entry hash key_equal mj e) := by
      obtain ⟨f, rfl⟩ : ∃ f, fuel = f + 1 := ⟨fuel - 1, by omega⟩
      apply insert_no_rehash
      simp only [List.length_cons] at hload
      rw [hsize]
      unfold bucket_size
      rw [hlen1]
      omega
    have hperm2 : (entries (insert_entry hash key_equal mj e)).Perm (done ++ [e]) :=
      hperm1.trans ((List.Perm.cons e hperm).trans (List.perm_append_singleton e done).symm)
    have := ih (insert_entry hash key_equal mj e) (done ++ [e]) W1 hlen1 hperm2
      (by simpa using hpw) (by simp only [List.length_cons, List.length_append,
        List.length_nil] at hload ⊢; omega)
    simp only [List.foldlM_cons, hstep, List.foldl_cons]
    simpa using this

/-! ## `insert` -/

theorem insert_entry_count (hash : K → Nat) (key_equal : K → K → Bool)
    {m : unordered_map K V} (hpos : 0 < m.buckets.length) (p : K × V) :
    (entries (insert_entry hash key_equal m p)).length =
      (entries m).length + (if contains hash key_equal m p.1 = true then 0 else 1) := by
  cases hcon : contains hash key_equal m p.1 with
  | false => simp [(insert_entry_perm hpos p hcon).length_eq]
  | true => simp [insert_entry_length_entries_found hpos p hcon]

/-- Below the largest bucket count the 32-bit counter holds the exact number
of entries after the insertion step. -/
theorem insert_entry_size_exact {hash : K → Nat} {key_equal : K → K → Bool}
    (L : Lawful hash key_equal) {m : unordered_map K V} (I : Inv hash key_equal m)
    (p : K × V) (hB : m.buckets.length ≠ 4294967291) :
    (insert_entry hash key_equal m p).size = (entries (insert_entry hash key_equal m p)).length ∧
      2 * (entries (insert_entry hash key_equal m p)).length ≤ m.buckets.length + 1 := by
  have hcount := insert_entry_count hash key_equal I.wf.pos p
  have hload := I.load hB
  obtain ⟨_, hlt, hodd, _, _, _⟩ := prime_list_facts _ I.prime
  have hle : (entries (insert_entry hash key_equal m p)).length ≤ (entries m).length + 1 := by
    rw [hcount]; split <;> omega
  constructor
  · unfold size
    rw [(insert_entry_WF L I.wf p).count]
    apply Nat.mod_eq_of_lt
    omega
  · omega

/-- With enough fuel `insert` returns, and returns `insert_result`. -/
theorem insert_eq_result {hash : K → Nat} {key_equal : K → K → Bool}
    (L : Lawful hash key_equal) {m : unordered_map K V} (I : Inv hash key_equal m)
    (p : K × V) (fuel : Nat) (hfuel : (entries m).length + 3 ≤ fuel) :
    insert hash key_equal fuel m p = some (insert_result hash key_equal m p) := by
  obtain ⟨f, rfl⟩ : ∃ f, fuel = f + 1 := ⟨fuel - 1, by omega⟩
  have W1 := insert_entry_WF L I.wf p
  have hlen1 := insert_entry_length hash key_equal m p
  obtain ⟨_, hlt, hodd, hnp, hgrow, hmax⟩ := prime_list_facts _ I.prime
  by_cases hc : 2 * (insert_entry hash key_equal m p).size >
      (insert_entry hash key_equal m p).bucket_size
  · by_cases hn : next_prime (insert_entry hash key_equal m p).bucket_size =
        (insert_entry hash key_equal m p).bucket_size
    · simp [insert, insert_result, hc, hn]
    · have hB : m.buckets.length ≠ 4294967291 := by
        intro hB
        apply hn
        unfold bucket_size
        rw [hlen1]
        exact hmax hB
      obtain ⟨hsize, hload1⟩ := insert_entry_size_exact L I p hB
      have hcount := insert_entry_count hash key_equal I.wf.pos p
      have hle : (entries (insert_entry hash key_equal m p)).length ≤ (entries m).length + 1 := by
        rw [hcount]; split <;> omega
      have hnp2 := prime_list_facts _ hnp
      have hfold := foldlM_insert_fresh L (next_prime m.buckets.length) f (by omega) hnp2.2.1
        (entries (insert_entry hash key_equal m p))
        (rehash_start (insert_entry hash key_equal m p) (next_prime m.buckets.length)) []
        (rehash_start_WF W1 _ hnp2.1) (rehash_start_length _ _)
        (by rw [rehash_start_entries])
        (by simpa using entries_pairwise L W1)
        (by have := hgrow hB; simp only [List.length_nil]; omega)
      have hloop := rehash_loop_eq (insert hash key_equal f) W1
        (entries (insert_entry hash key_equal m p)) f
        (insert_entry hash key_equal m p).begin_
        (rehash_start (insert_entry hash key_equal m p) (next_prime m.buckets.length))
        (begin_IterAt W1) (by omega)
      simp only [insert, insert_result, hc, hn, if_true, if_false, ne_eq, not_false_eq_true,
        and_self, copy_eq W1]
      unfold bucket_size
      rw [hlen1]
      rw [← hfold.1, ← hloop]
      rfl
  · simp [insert, insert_result, hc]

/-- What `insert` returns: the invariant holds again, the entries are those of
the insertion step, and the bucket count is the old one unless the load factor
went over one half, in which case it is the next candidate. -/
theorem insert_result_spec {hash : K → Nat} {key_equal : K → K → Bool}
    (L : Lawful hash key_equal) {m : unordered_map K V} (I : Inv hash key_equal m)
    (p : K × V) :
    Inv hash key_equal (insert_result hash key_equal m p) ∧
      (entries (insert_result hash key_equal m p)).Perm
        (entries (insert_entry hash key_equal m p)) ∧
      (insert_result hash key_equal m p).buckets.length =
        (if 2 * (entries (insert_entry hash key_equal m p)).length > m.buckets.length then
          next_prime m.buckets.length else m.buckets.length) := by
  have W1 := insert_entry_WF L I.wf p
  have hlen1 := insert_entry_length hash key_equal m p
  obtain ⟨_, hlt, hodd, hnp, hgrow, hmax⟩ := prime_list_facts _ I.prime
  by_cases hB : m.buckets.length = 4294967291
  · -- at the largest bucket count the table never changes size
    have hres : insert_result hash key_equal m p = insert_entry hash key_equal m p := by
      unfold insert_result bucket_size
      rw [hlen1, hmax hB]
      simp
    rw [hres]
    refine ⟨⟨W1, by rw [hlen1]; exact I.prime, fun h => absurd (hlen1.trans hB) h⟩,
      List.Perm.refl _, ?_⟩
    rw [hlen1, hmax hB]; simp
  · obtain ⟨hsize, hload1⟩ := insert_entry_size_exact L I p hB
    have hne : next_prime m.buckets.length ≠ m.buckets.length := by
      have := hgrow hB; omega
    by_cases hc : 2 * (entries (insert_entry hash key_equal m p)).length > m.buckets.length
    · have hres : insert_result hash key_equal m p =
          (entries (insert_entry hash key_equal m p)).foldl (insert_entry hash key_equal)
            (rehash_start (insert_entry hash key_equal m p) (next_prime m.buckets.length)) := by
        unfold insert_result bucket_size
        rw [hlen1, hsize]
        simp [hc, hne]
      have hnp2 := prime_list_facts _ hnp
      have hfold := foldlM_insert_fresh L (next_prime m.buckets.length) 1 (by omega) hnp2.2.1
        (entries (insert_entry hash key_equal m p))
        (rehash_start (insert_entry hash key_equal m p) (next_prime m.buckets.length)) []
        (rehash_start_WF W1 _ hnp2.1) (rehash_start_length _ _)
        (by rw [rehash_start_entries])
        (by simpa using entries_pairwise L W1)
        (by have := hgrow hB; simp only [List.length_nil]; omega)
      rw [hres]
      obtain ⟨_, hW, hl, hperm⟩ := hfold
      have hperm1 : (entries ((entries (insert_entry hash key_equal m p)).foldl
          (insert_entry hash key_equal)
          (rehash_start (insert_entry hash key_equal m p) (next_prime m.buckets.length)))).Perm
          (entries (insert_entry hash key_equal m p)) := by simpa using hperm
      refine ⟨⟨hW, by rw [hl]; exact hnp, fun _ => ?_⟩, hperm1, by rw [hl, if_pos hc]⟩
      rw [hl, hperm1.length_eq]
      have := hgrow hB
      omega
    · have hres : insert_result hash key_equal m p = insert_entry hash key_equal m p := by
        unfold insert_result bucket_size
        rw [hlen1, hsize]
        simp [hc]
      rw [hres]
      refine ⟨⟨W1, by rw [hlen1]; exact I.prime, fun _ => ?_⟩, List.Perm.refl _, ?_⟩
      · rw [hlen1]; omega
      · rw [hlen1, if_neg hc]

/-- Reading any key after `insert`. -/
theorem insert_result_subscript {hash : K → Nat} {key_equal : K → K → Bool}
    (L : Lawful hash key_equal) {m : unordered_map K V} (I : Inv hash key_equal m)
    (p : K × V) (k1 : K) :
    subscript hash key_equal (insert_result hash key_equal m p) k1 =
      if key_equal p.1 k1 = true then some p.2 else subscript hash key_equal m k1 := by
  obtain ⟨I1, hperm, _⟩ := insert_result_spec L I p
  rw [subscript_eq_of_perm L (insert_entry_WF L I.wf p) I1.wf hperm k1,
    insert_entry_subscript L I.wf p k1]

theorem insert_result_count {hash : K → Nat} {key_equal : K → K → Bool}
    (L : Lawful hash key_equal) {m : unordered_map K V} (I : Inv hash key_equal m)
    (p : K × V) :
    (entries (insert_result hash key_equal m p)).length =
      (entries m).length + (if contains hash key_equal m p.1 = true then 0 else 1) := by
  obtain ⟨_, hperm, _⟩ := insert_result_spec L I p
  rw [hperm.length_eq, insert_entry_count hash key_equal I.wf.pos p]

/-- Whatever fuel makes `insert` return, it returns `insert_result`. -/
theorem insert_some_eq_result {hash : K → Nat} {key_equal : K → K → Bool}
    (L : Lawful hash key_equal) {m m1 : unordered_map K V} (I : Inv hash key_equal m)
    (p : K × V) (fuel : Nat) (h : insert hash key_equal fuel m p = some m1) :
    m1 = insert_result hash key_equal m p := by
  have h1 := insert_mono hash key_equal fuel (fuel + ((entries m).length + 3)) m p m1
    (by omega) h
  rw [insert_eq_result L I p _ (by omega)] at h1
  exact (Option.some.inj h1).symm

/-! ## `erase` -/

/-- Searching a chain after the removal of the entry found for `k`. -/
theorem assoc_eraseIdx {hash : K → Nat} {key_equal : K → K → Bool}
    (L : Lawful hash key_equal) (k k1 : K) (c : Chain K V) (t : Nat) (e : K × V)
    (hu : c.Pairwise (fun a b => key_equal a.1 b.1 = false))
    (hget : c.get? t = some e) (hke : key_equal e.1 k = true) :
    assoc key_equal k1 (c.eraseIdx t) =
      if key_equal k k1 = true then none else assoc key_equal k1 c := by
  induction c generalizing t with
  | nil => simp at hget
  | cons x rest ih =>
    rw [List.pairwise_cons] at hu
    cases t with
    | zero =>
      simp only [List.get?_cons_zero, Option.some.injEq] at hget
      subst hget
      simp only [List.eraseIdx_cons_zero, assoc_cons]
      by_cases hkk : key_equal k k1 = true
      · rw [if_pos hkk, assoc_eq_none]
        intro y hy
        rw [← key_equal_congr L hkk]
        cases hyk : key_equal y.1 k with
        | false => rfl
        | true =>
          have h2 : key_equal x.1 y.1 = true := L.trans _ _ _ hke (L.symm _ _ hyk)
          rw [hu.1 y hy] at h2
          cases h2
      · have : key_equal x.1 k1 = false := by
          cases hx : key_equal x.1 k1 with
          | false => rfl
          | true => exact absurd (L.trans _ _ _ (L.symm _ _ hke) hx) hkk
        simp [hkk, this]
    | succ t =>
      simp only [List.get?_cons_succ] at hget
      have hmem : e ∈ rest := List.get?_mem hget
      simp only [List.eraseIdx_cons_succ, assoc_cons, ih t hu.2 hget]
      by_cases hx : key_equal x.1 k1 = true
      · have hkk : ¬ key_equal k k1 = true := by
          intro hkk
          have h1 : key_equal x.1 k = true := L.trans _ _ _ hx (L.symm _ _ hkk)
          have h2 : key_equal x.1 e.1 = true := L.trans _ _ _ h1 (L.symm _ _ hke)
          rw [hu.1 e hmem] at h2
          cases h2
        simp [hx, hkk]
      · simp [hx]

theorem pred_mod_uint (n : Nat) (hn : 0 < n) :
    (n % UINT_RANGE + UINT_RANGE - 1) % UINT_RANGE = (n - 1) % UINT_RANGE := by
  have hR : 0 < UINT_RANGE := by decide
  generalize UINT_RANGE = R at hR
  obtain ⟨a, rfl⟩ : ∃ a, n = a + 1 := ⟨n - 1, by omega⟩
  have h1 : (a + 1) % R + R - 1 = (a + 1) % R + (R - 1) := by omega
  rw [h1, Nat.add_sub_cancel, Nat.add_mod, Nat.mod_mod, ← Nat.add_mod]
  have h2 : a + 1 + (R - 1) = a + R := by omega
  rw [h2, Nat.add_mod_right]

/-- The slot `erase` leaves behind: the shortened chain, or no chain when the
chain became empty. -/
theorem erase_find {hash : K → Nat} {key_equal : K → K → Bool} {m : unordered_map K V}
    (k : K) (h : contains hash key_equal m k = true) :
    ∃ c t e m1, slot m.buckets (hash k % m.buckets.length) = some c ∧
      c.get? t = some e ∧ key_equal e.1 k = true ∧
      erase m (find hash key_equal m k) = some m1 ∧
      m1.buckets = m.buckets.set (hash k % m.buckets.length)
        (if (c.eraseIdx t).isEmpty then none else some (c.eraseIdx t)) ∧
      m1.__size = (m.__size + UINT_RANGE - 1) % UINT_RANGE ∧
      m1.end_iterator = m.end_iterator := by
  have h1 : iter_eq m (find hash key_equal m k) m.end_ = false := by
    simpa [contains] using h
  rcases find_cases hash key_equal m k with ⟨hs, hf⟩ | ⟨c, hs, hc, hf⟩ | ⟨c, t, hs, hc, hf⟩
  · rw [hf, iter_eq_self] at h1; cases h1
  · rw [hf, iter_eq_self] at h1; cases h1
  · obtain ⟨t1, e, ht, hget, hke, _, _⟩ := chain_find_some hc
    have ht1 : t1 = t := by omega
    subst ht1
    have hlt : t1 < c.length := by
      rw [List.get?_eq_getElem?] at hget
      exact (List.getElem?_eq_some_iff.mp hget).1
    refine ⟨c, t1, e,
      { m with
        buckets := if (c.eraseIdx t1).isEmpty then
            (m.buckets.set (hash k % m.buckets.length) (some (c.eraseIdx t1))).set
              (hash k % m.buckets.length) none
          else m.buckets.set (hash k % m.buckets.length) (some (c.eraseIdx t1))
        __size := (m.__size + UINT_RANGE - 1) % UINT_RANGE },
      hs, hget, hke, ?_, ?_, ?_, ?_⟩
    · rw [hf]
      simp only [erase, hs, hlt, if_true, list_erase]
    · cases hnil : (c.eraseIdx t1).isEmpty
      · simp
      · simp [List.set_set]
    · simp only
    · simp only

/-- `erase(find(k))` for a present key: it returns, the invariant holds again,
`k` is gone and every other key reads what it read before. -/
theorem erase_spec {hash : K → Nat} {key_equal : K → K → Bool}
    (L : Lawful hash key_equal) {m : unordered_map K V} (I : Inv hash key_equal m)
    (k : K) (h : contains hash key_equal m k = true) :
    ∃ m1, erase m (find hash key_equal m k) = some m1 ∧ Inv hash key_equal m1 ∧
      m1.buckets.length = m.buckets.length ∧
      (entries m1).length + 1 = (entries m).length ∧
      m1.__size = (m.__size + UINT_RANGE - 1) % UINT_RANGE ∧
      ∀ k1, subscript hash key_equal m1 k1 =
        if key_equal k k1 = true then none else subscript hash key_equal m k1 := by
  obtain ⟨c, t, e, m1, hs, hget, hke, her, hb, hsz, hend⟩ := erase_find k h
  have W := I.wf
  have hidx : hash k % m.buckets.length < m.buckets.length := Nat.mod_lt _ W.pos
  have hlt : t < c.length := by
    rw [List.get?_eq_getElem?] at hget
    exact (List.getElem?_eq_some_iff.mp hget).1
  have hlen : m1.buckets.length = m.buckets.length := by rw [hb, List.length_set]
  have hchain : chain_of (if (c.eraseIdx t).isEmpty then none else some (c.eraseIdx t)) =
      c.eraseIdx t := by
    cases hnil : (c.eraseIdx t).isEmpty
    · simp [chain_of]
    · simp [chain_of, List.isEmpty_iff.mp hnil]
  have hsome : ∀ c1, (if (c.eraseIdx t).isEmpty then none else some (c.eraseIdx t)) = some c1 →
      c1 = c.eraseIdx t ∧ c1 ≠ [] := by
    intro c1 h1
    cases hnil : (c.eraseIdx t).isEmpty
    · rw [hnil] at h1
      simp only [Bool.false_eq_true, if_false, Option.some.injEq] at h1
      refine ⟨h1.symm, ?_⟩
      rw [← h1]
      intro h0
      rw [List.isEmpty_iff.mpr h0] at hnil
      cases hnil
    · rw [hnil] at h1
      simp at h1
  have hcount : (entries m1).length + 1 = (entries m).length := by
    unfold entries
    rw [hb, entries_of_set _ _ _ hidx, entries_of_split m.buckets _ hidx, hs, hchain]
    simp only [chain_of, Option.getD_some, List.length_append, List.length_eraseIdx, hlt,
      if_true]
    omega
  have W1 : WF hash key_equal m1 := by
    refine ⟨by rw [hlen]; exact W.pos, by rw [hend, hlen]; exact W.end_it, ?_, ?_, ?_, ?_⟩
    · intro i c1 hs1
      rw [hb, slot_set _ _ _ _ hidx] at hs1
      split at hs1
      · exact (hsome c1 hs1).2
      · exact W.nonempty i c1 hs1
    · intro i c1 hs1 x hx
      rw [hlen]
      rw [hb, slot_set _ _ _ _ hidx] at hs1
      split at hs1
      · next hi =>
        rw [(hsome c1 hs1).1] at hx
        rw [← hi]
        exact W.place _ c hs x (List.mem_of_mem_eraseIdx hx)
      · exact W.place i c1 hs1 x hx
    · intro i c1 hs1
      rw [hb, slot_set _ _ _ _ hidx] at hs1
      split at hs1
      · rw [(hsome c1 hs1).1]
        exact (W.uniq _ c hs).sublist (List.eraseIdx_sublist c t)
      · exact W.uniq i c1 hs1
    · rw [hsz, W.count, pred_mod_uint _ (by omega)]
      congr 1
      omega
  refine ⟨m1, her, ⟨W1, by rw [hlen]; exact I.prime, fun hB => ?_⟩, hlen, hcount, hsz, ?_⟩
  · rw [hlen] at hB ⊢
    have := I.load hB
    omega
  · intro k1
    rw [subscript_eq hash key_equal m1 k1 (by rw [W1.end_it]),
      subscript_eq hash key_equal m k1 (by rw [W.end_it]), hlen, hb, slot_set _ _ _ _ hidx]
    split
    · next hi =>
      rw [hchain, ← hi, hs]
      simp only [chain_of, Option.getD_some]
      exact assoc_eraseIdx L k k1 c t e (W.uniq _ c hs) hget hke
    · next hi =>
      have : ¬ key_equal k k1 = true := fun hk => hi (by rw [L.hash_eq _ _ hk])
      rw [if_neg this]

/-! ## `clear` -/

theorem clear_buckets (m : unordered_map K V) :
    (clear m).buckets = List.replicate m.buckets.length none := by
  unfold clear
  simp only
  apply List.ext_getElem?
  intro i
  rw [List.getElem?_map, List.getElem?_replicate]
  by_cases hi : i < m.buckets.length
  · rw [List.getElem?_eq_getElem hi, if_pos hi]
    cases m.buckets[i] <;> rfl
  · rw [List.getElem?_eq_none (by omega), if_neg hi]
    rfl

theorem clear_entries (m : unordered_map K V) : entries (clear m) = [] := by
  rw [entries, clear_buckets, entries_of_replicate]

theorem clear_Inv {hash : K → Nat} {key_equal : K → K → Bool} {m : unordered_map K V}
    (I : Inv hash key_equal m) : Inv hash key_equal (clear m) := by
  have hlen : (clear m).buckets.length = m.buckets.length := by
    rw [clear_buckets, List.length_replicate]
  refine ⟨⟨by rw [hlen]; exact I.wf.pos, ?_, ?_, ?_, ?_, ?_⟩, by rw [hlen]; exact I.prime,
    fun _ => by rw [clear_entries]; simp⟩
  · rw [hlen]; exact I.wf.end_it
  · intro i c hs; rw [clear_buckets, slot_replicate] at hs; cases hs
  · intro i c hs; rw [clear_buckets, slot_replicate] at hs; cases hs
  · intro i c hs; rw [clear_buckets, slot_replicate] at hs; cases hs
  · rw [clear_entries]; rfl

/-! ## Reachable tables -/

theorem ctor_Inv (hash : K → Nat) (key_equal : K → K → Bool) :
    Inv hash key_equal (ctor : unordered_map K V) := by
  have hb : (ctor : unordered_map K V).buckets = List.replicate 53 none := rfl
  have hlen : (ctor : unordered_map K V).buckets.length = 53 := by
    rw [hb, List.length_replicate]
  have hent : entries (ctor : unordered_map K V) = [] := by
    rw [entries, hb, entries_of_replicate]
  refine ⟨⟨by rw [hlen]; omega, ?_, ?_, ?_, ?_, ?_⟩, by rw [hlen]; decide,
    fun _ => by rw [hent]; simp⟩
  · rw [hlen]; simp [ctor, prime_at, prime_list]
  · intro i c hs; rw [hb, slot_replicate] at hs; cases hs
  · intro i c hs; rw [hb, slot_replicate] at hs; cases hs
  · intro i c hs; rw [hb, slot_replicate] at hs; cases hs
  · rw [hent]; rfl

/-- Every reachable table satisfies the invariant. -/
theorem Reachable.inv {hash : K → Nat} {key_equal : K → K → Bool}
    (L : Lawful hash key_equal) {m : unordered_map K V} (R : Reachable hash key_equal m) :
    Inv hash key_equal m := by
  induction R with
  | ctor => exact ctor_Inv hash key_equal
  | insert m m1 p fuel _ h ih =>
    rw [insert_some_eq_result L ih p fuel h]
    exact (insert_result_spec L ih p).1
  | erase m m1 k _ hc h ih =>
    obtain ⟨m2, h2, I2, _⟩ := erase_spec L ih k hc
    rw [h] at h2
    cases h2
    exact I2
  | clear m _ ih => exact clear_Inv ih

theorem Reachable.insert_result {hash : K → Nat} {key_equal : K → K → Bool}
    (L : Lawful hash key_equal) {m : unordered_map K V} (R : Reachable hash key_equal m)
    (p : K × V) : Reachable hash key_equal (insert_result hash key_equal m p) :=
  Reachable.insert m _ p ((entries m).length + 3) R
    (insert_eq_result L (R.inv L) p _ (Nat.le_refl _))

/-- Structural equality of keys is lawful for every hash function. -/
theorem lawful_of_eq [DecidableEq K] (hash : K → Nat) :
    Lawful hash (fun a b : K => decide (a = b)) := by
  refine ⟨?_, ?_, ?_, ?_⟩
  · intro a; simp
  · intro a b h; simp only [decide_eq_true_eq] at h ⊢; exact h.symm
  · intro a b c h1 h2; simp only [decide_eq_true_eq] at h1 h2 ⊢; exact h1.trans h2
  · intro a b h; simp only [decide_eq_true_eq] at h; rw [h]

theorem contains_of_subscript {hash : K → Nat} {key_equal : K → K → Bool}
    {m : unordered_map K V} (W : WF hash key_equal m) {k : K} {v : V}
    (h : subscript hash key_equal m k = some v) : contains hash key_equal m k = true := by
  rw [contains_eq_isSome_subscript W, h]; rfl

/-! ## Sequences of inserts of new keys -/

theorem next_prime_least :
    ∀ B ∈ prime_list, ∀ q ∈ prime_list, B < q → next_prime B ≤ q := by
  decide

theorem smallestCandidate_zero : SmallestCandidate 53 0 := by
  refine ⟨by decide, by omega, ?_⟩
  have : ∀ q ∈ prime_list, 53 ≤ q := by decide
  exact fun q hq _ => this q hq

/-- One more entry: the smallest candidate holding twice the entries is the
current one, or the next one when the current one is exceeded. -/
theorem smallestCandidate_step {B j : Nat} (h : SmallestCandidate B (2 * j))
    (hj : 2 * (j + 1) ≤ 4294967291) :
    SmallestCandidate (if 2 * (j + 1) > B then next_prime B else B) (2 * (j + 1)) := by
  obtain ⟨hB, hle, hmin⟩ := h
  obtain ⟨_, _, hodd, hnp, hgrow, _⟩ := prime_list_facts B hB
  by_cases hc : 2 * (j + 1) > B
  · rw [if_pos hc]
    have hne : B ≠ 4294967291 := by omega
    have := hgrow hne
    refine ⟨hnp, by omega, fun q hq hq2 => next_prime_least B hB q hq (by omega)⟩
  · rw [if_neg hc]
    exact ⟨hB, by omega, fun q hq hq2 => hmin q hq (by omega)⟩

/-- Inserting pairs whose keys are new and pairwise different: every insert
returns, all pairs are stored, and the bucket count follows the number of
entries. -/
theorem insert_all_fresh {hash : K → Nat} {key_equal : K → K → Bool}
    (L : Lawful hash key_equal) :
    ∀ (l : List (K × V)) (m : unordered_map K V), Reachable hash key_equal m →
      (∀ x ∈ entries m, ∀ e ∈ l, key_equal x.1 e.1 = false) →
      l.Pairwise (fun a b => key_equal a.1 b.1 = false) →
      (∀ fuel, (entries m).length + l.length + 3 ≤ fuel →
          insert_all hash key_equal fuel m l =
            some (l.foldl (insert_result hash key_equal) m)) ∧
        Reachable hash key_equal (l.foldl (insert_result hash key_equal) m) ∧
        (entries (l.foldl (insert_result hash key_equal) m)).Perm (l ++ entries m) ∧
        (SmallestCandidate m.buckets.length (2 * (entries m).length) →
          2 * ((entries m).length + l.length) ≤ 4294967291 →
          SmallestCandidate (l.foldl (insert_result hash key_equal) m).buckets.length
            (2 * ((entries m).length + l.length))) := by
  intro l
  induction l with
  | nil =>
    intro m R _ _
    exact ⟨fun fuel _ => rfl, R, List.Perm.refl _, fun h _ => by simpa using h⟩
  | cons e l ih =>
    intro m R hfresh hpw
    rw [List.pairwise_cons] at hpw
    have I := R.inv L
    have hcon : contains hash key_equal m e.1 = false := by
      rw [contains_eq_isSome_subscript I.wf, (subscript_eq_none_iff L I.wf e.1).mpr]
      · rfl
      · intro x hx; exact hfresh x hx e (by simp)
    obtain ⟨I1, hperm, hlen⟩ := insert_result_spec L I e
    have hperm1 : (entries (insert_result hash key_equal m e)).Perm (e :: entries m) :=
      hperm.trans (insert_entry_perm I.wf.pos e hcon)
    have hcount : (entries (insert_result hash key_equal m e)).length =
        (entries m).length + 1 := by simp [hperm1.length_eq]
    have hcount0 : (entries (insert_entry hash key_equal m e)).length =
        (entries m).length + 1 := by rw [← hperm.length_eq, hcount]
    obtain ⟨h1, h2, h3, h4⟩ := ih (insert_result hash key_equal m e) (R.insert_result L e)
      (by
        intro x hx y hy
        rcases List.mem_cons.mp (hperm1.mem_iff.mp hx) with rfl | hx1
        · exact hpw.1 y hy
        · exact hfresh x hx1 y (by simp [hy]))
      hpw.2
    refine ⟨?_, h2, ?_, ?_⟩
    · intro fuel hf
      simp only [List.length_cons] at hf
      unfold insert_all
      rw [List.foldlM_cons, insert_eq_result L I e fuel (by omega)]
      exact h1 fuel (by rw [hcount]; omega)
    · exact h3.trans ((List.Perm.append_left l hperm1).trans List.perm_middle)
    · intro hs hn
      simp only [List.length_cons] at hn
      have hstep := smallestCandidate_step hs (by omega)
      rw [hcount0] at hlen
      rw [← hlen] at hstep
      have := h4 (by rw [hcount]; exact hstep) (by rw [hcount]; omega)
      rw [hcount] at this
      simpa [Nat.add_assoc, Nat.add_comm 1] using this

theorem smallestCandidate_unique {B p x : Nat} (h1 : SmallestCandidate B x)
    (h2 : SmallestCandidate p x) : B = p :=
  Nat.le_antisymm (h1.2.2 p h2.1 h2.2.1) (h2.2.2 B h1.1 h1.2.1)

theorem pairwise_range_keys (n : Nat) (f : Nat → V) :
    ((List.range n).map (fun k => (k, f k))).Pairwise
      (fun a b => decide (a.1 = b.1) = false) := by
  rw [List.pairwise_map]
  exact (List.nodup_range n).imp (fun h => by simpa using h)

/-! ## Sequences of operations against the reference key set -/

theorem any_congr_key {hash : K → Nat} {key_equal : K → K → Bool}
    (L : Lawful hash key_equal) {k k1 : K} (h : key_equal k k1 = true) (r : List K) :
    r.any (fun a => key_equal a k) = r.any (fun a => key_equal a k1) := by
  induction r with
  | nil => rfl
  | cons a r ih => simp only [List.any_cons, ih, key_equal_congr L h a]

/-- Erasing a present key from a list of pairwise different keys removes
exactly one key. -/
theorem length_filter_erase {hash : K → Nat} {key_equal : K → K → Bool}
    (L : Lawful hash key_equal) (k : K) (r : List K)
    (hu : r.Pairwise (fun a b => key_equal a b = false))
    (hk : r.any (fun a => key_equal a k) = true) :
    (r.filter (fun a => !key_equal a k)).length + 1 = r.length := by
  induction r with
  | nil => simp at hk
  | cons a r ih =>
    rw [List.pairwise_cons] at hu
    by_cases ha : key_equal a k = true
    · have hnone : ∀ b ∈ r, key_equal b k = false := by
        intro b hb
        cases hbk : key_equal b k with
        | false => rfl
        | true =>
          have h2 : key_equal a b = true := L.trans _ _ _ ha (L.symm _ _ hbk)
          rw [hu.1 b hb] at h2
          cases h2
      have hfil : r.filter (fun a => !key_equal a k) = r := by
        rw [List.filter_eq_self]
        intro b hb
        simp [hnone b hb]
      simp [List.filter_cons, ha, hfil]
    · have ha2 : key_equal a k = false := by simpa using ha
      have hk2 : r.any (fun a => key_equal a k) = true := by
        simpa [List.any_cons, ha2] using hk
      simp [List.filter_cons, ha2, ih hu.2 hk2]

theorem ctor_entries : entries (ctor : unordered_map K V) = [] := by
  have hb : (ctor : unordered_map K V).buckets = List.replicate 53 none := rfl
  rw [entries, hb, entries_of_replicate]

theorem ctor_Refines (hash : K → Nat) (key_equal : K → K → Bool) :
    Refines hash key_equal (ctor : unordered_map K V) [] := by
  refine ⟨fun k => ?_, by rw [ctor_entries]; rfl, List.Pairwise.nil⟩
  rw [contains_eq_isSome_subscript (ctor_Inv hash key_equal).wf,
    subscript_eq hash key_equal _ k (by rw [(ctor_Inv hash key_equal).wf.end_it])]
  have hb : (ctor : unordered_map K V).buckets = List.replicate 53 none := rfl
  rw [hb, slot_replicate]
  rfl

/-- `insert` keeps the table in step with the reference key set. -/
theorem insert_Refines {hash : K → Nat} {key_equal : K → K → Bool}
    (L : Lawful hash key_equal) {m : unordered_map K V} (I : Inv hash key_equal m)
    {r : List K} (hr : Refines hash key_equal m r) (p : K × V) :
    Refines hash key_equal (insert_result hash key_equal m p)
      (ref_step key_equal r (Op.insert p)) := by
  obtain ⟨hcon, hlen, hpw⟩ := hr
  obtain ⟨I1, _, _⟩ := insert_result_spec L I p
  have hc1 : ∀ k1, contains hash key_equal (insert_result hash key_equal m p) k1 =
      if key_equal p.1 k1 = true then true else contains hash key_equal m k1 := by
    intro k1
    rw [contains_eq_isSome_subscript I1.wf, insert_result_subscript L I p k1,
      contains_eq_isSome_subscript I.wf]
    split <;> rfl
  have hcount := insert_result_count L I p
  cases hp : r.any (fun a => key_equal a p.1) with
  | true =>
    have hpres : contains hash key_equal m p.1 = true := by rw [hcon, hp]
    simp only [ref_step, hp, if_true]
    refine ⟨fun k1 => ?_, by rw [hcount, hpres]; simpa using hlen, hpw⟩
    rw [hc1 k1]
    split
    · next hk => rw [← any_congr_key L hk r, hp]
    · exact hcon k1
  | false =>
    have habs : contains hash key_equal m p.1 = false := by rw [hcon, hp]
    simp only [ref_step, hp, Bool.false_eq_true, if_false]
    refine ⟨fun k1 => ?_, by rw [hcount, habs]; simp [hlen], ?_⟩
    · rw [hc1 k1, List.any_cons, ← hcon k1]
      cases key_equal p.1 k1 <;> simp
    · rw [List.pairwise_cons]
      refine ⟨fun a ha => ?_, hpw⟩
      apply key_equal_false_symm L
      have := List.any_eq_false.mp hp a ha
      simpa using this

/-- Presence of a key in the reference key set after an erase. -/
theorem any_filter_erase {hash : K → Nat} {key_equal : K → K → Bool}
    (L : Lawful hash key_equal) (k k1 : K) (r : List K) :
    (r.filter (fun a => !key_equal a k)).any (fun a => key_equal a k1) =
      if key_equal k k1 = true then false else r.any (fun a => key_equal a k1) := by
  induction r with
  | nil => simp
  | cons a r ih =>
    by_cases hak : key_equal a k = true
    · have hstep : (a :: r).filter (fun a => !key_equal a k) =
          r.filter (fun a => !key_equal a k) := by
        simp [List.filter_cons, hak]
      rw [hstep, ih, List.any_cons]
      by_cases hkk : key_equal k k1 = true
      · simp [hkk]
      · have hak1 : key_equal a k1 = false := by
          cases hx : key_equal a k1 with
          | false => rfl
          | true => exact absurd (L.trans _ _ _ (L.symm _ _ hak) hx) hkk
        simp [hkk, hak1]
    · have hak2 : key_equal a k = false := by simpa using hak
      have hstep : (a :: r).filter (fun a => !key_equal a k) =
          a :: r.filter (fun a => !key_equal a k) := by
        simp [List.filter_cons, hak2]
      rw [hstep, List.any_cons, ih, List.any_cons]
      by_cases hkk : key_equal k k1 = true
      · have hak1 : key_equal a k1 = false := by
          rw [← key_equal_congr L hkk a]; exact hak2
        simp [hkk, hak1]
      · simp [hkk]

/-- `erase(find(k))` keeps the table in step with the reference key set. -/
theorem erase_Refines {hash : K → Nat} {key_equal : K → K → Bool}
    (L : Lawful hash key_equal) {m m1 : unordered_map K V} (I : Inv hash key_equal m)
    {r : List K} (hr : Refines hash key_equal m r) (k : K)
    (hk : contains hash key_equal m k = true)
    (h : erase m (find hash key_equal m k) = some m1) :
    Refines hash key_equal m1 (ref_step key_equal r (Op.erase k : Op K V)) := by
  obtain ⟨hcon, hlen, hpw⟩ := hr
  obtain ⟨m2, h2, I2, _, hcount, _, hsub⟩ := erase_spec L I k hk
  rw [h] at h2
  cases h2
  have hany : r.any (fun a => key_equal a k) = true := by rw [← hcon, hk]
  have hfl := length_filter_erase L k r hpw hany
  simp only [ref_step]
  refine ⟨fun k1 => ?_, by omega, hpw.sublist (List.filter_sublist r)⟩
  rw [contains_eq_isSome_subscript I2.wf, hsub k1, any_filter_erase L k k1 r]
  by_cases hkk : key_equal k k1 = true
  · simp [hkk]
  · rw [if_neg hkk, if_neg hkk, ← contains_eq_isSome_subscript I.wf, hcon k1]

/-- An admissible sequence runs to the end, given enough fuel, and the table
stays in step with the reference key set. -/
theorem run_spec {hash : K → Nat} {key_equal : K → K → Bool}
    (L : Lawful hash key_equal) :
    ∀ (ops : List (Op K V)) (m : unordered_map K V) (r : List K),
      Reachable hash key_equal m → Refines hash key_equal m r →
      admissible key_equal r ops = true →
      ∃ m1, (∀ fuel, (entries m).length + ops.length + 3 ≤ fuel →
          run hash key_equal fuel m ops = some m1) ∧
        Reachable hash key_equal m1 ∧ Refines hash key_equal m1 (ref_run key_equal r ops) := by
  intro ops
  induction ops with
  | nil =>
    intro m r R hr _
    exact ⟨m, fun _ _ => rfl, R, hr⟩
  | cons op ops ih =>
    intro m r R hr hadm
    have I := R.inv L
    cases op with
    | insert p =>
      simp only [admissible] at hadm
      obtain ⟨m1, h1, R1, hr1⟩ := ih (insert_result hash key_equal m p)
        (ref_step key_equal r (Op.insert p)) (R.insert_result L p) (insert_Refines L I hr p) hadm
      refine ⟨m1, fun fuel hf => ?_, R1, hr1⟩
      simp only [List.length_cons] at hf
      have hcount := insert_result_count L I p
      have hle : (entries (insert_result hash key_equal m p)).length ≤ (entries m).length + 1 := by
        rw [hcount]; split <;> omega
      unfold run
      rw [List.foldlM_cons]
      simp only [step]
      rw [insert_eq_result L I p fuel (by omega)]
      exact h1 fuel (by omega)
    | erase k =>
      simp only [admissible, Bool.and_eq_true] at hadm
      have hk : contains hash key_equal m k = true := by rw [hr.1 k]; exact hadm.1
      obtain ⟨m2, h2, I2, _, hcount, _, _⟩ := erase_spec L I k hk
      obtain ⟨m1, h1, R1, hr1⟩ := ih m2 (ref_step key_equal r (Op.erase k : Op K V))
        (Reachable.erase m m2 k R hk h2) (erase_Refines L I hr k hk h2) hadm.2
      refine ⟨m1, fun fuel hf => ?_, R1, hr1⟩
      simp only [List.length_cons] at hf
      unfold run
      rw [List.foldlM_cons]
      simp only [step, hk, if_true, h2]
      exact h1 fuel (by omega)

theorem admissible_take (key_equal : K → K → Bool) :
    ∀ (ops : List (Op K V)) (r : List K) (n : Nat),
      admissible key_equal r ops = true → admissible key_equal r (ops.take n) = true := by
  intro ops
  induction ops with
  | nil => intro r n h; simpa using h
  | cons op ops ih =>
    intro r n h
    cases n with
    | zero => rfl
    | succ n =>
      cases op with
      | insert p =>
        simp only [admissible, List.take_succ_cons] at h ⊢
        exact ih _ n h
      | erase k =>
        simp only [admissible, List.take_succ_cons, Bool.and_eq_true] at h ⊢
        exact ⟨h.1, ih _ n h.2⟩

theorem admissible_inserts (key_equal : K → K → Bool) :
    ∀ (l : List (K × V)) (r : List K), admissible key_equal r (l.map Op.insert) = true := by
  intro l
  induction l with
  | nil => intro r; rfl
  | cons p l ih => intro r; simp only [List.map_cons, admissible]; exact ih _

theorem run_inserts (hash : K → Nat) (key_equal : K → K → Bool) (fuel : Nat) :
    ∀ (l : List (K × V)) (m : unordered_map K V),
      run hash key_equal fuel m (l.map Op.insert) = insert_all hash key_equal fuel m l := by
  intro l
  induction l with
  | nil => intro m; rfl
  | cons p l ih =>
    intro m
    unfold run insert_all
    simp only [List.map_cons, List.foldlM_cons, step]
    cases h : insert hash key_equal fuel m p with
    | none => rfl
    | some m1 => exact ih m1

/-- The table built by inserting the keys `0 .. n - 1` under the identity hash
is reachable, holds `n` entries, and its 32-bit counter reads `n` modulo
`2 ^ 32`. -/
theorem range_table_facts (n : Nat) :
    Reachable id (fun a b => decide (a = b))
        (((List.range n).map (fun k => (k, 0))).foldl
          (insert_result id (fun a b : Nat => decide (a = b))) (ctor : unordered_map Nat Nat)) ∧
      (entries (((List.range n).map (fun k => (k, 0))).foldl
          (insert_result id (fun a b : Nat => decide (a = b)))
          (ctor : unordered_map Nat Nat))).length = n ∧
      (((List.range n).map (fun k => (k, 0))).foldl
          (insert_result id (fun a b : Nat => decide (a = b)))
          (ctor : unordered_map Nat Nat)).size = n % UINT_RANGE ∧
      (∀ fuel, n + 3 ≤ fuel →
        insert_all id (fun a b => decide (a = b)) fuel ctor
          ((List.range n).map (fun k => (k, 0))) =
          some (((List.range n).map (fun k => (k, 0))).foldl
            (insert_result id (fun a b : Nat => decide (a = b)))
            (ctor : unordered_map Nat Nat))) ∧
      (0 < n → contains id (fun a b => decide (a = b))
        (((List.range n).map (fun k => (k, 0))).foldl
          (insert_result id (fun a b : Nat => decide (a = b)))
          (ctor : unordered_map Nat Nat)) 0 = true) := by
  obtain ⟨h1, h2, h3, _⟩ := insert_all_fresh (lawful_of_eq id)
    ((List.range n).map (fun k => (k, 0))) (ctor : unordered_map Nat Nat)
    Reachable.ctor (by rw [ctor_entries]; intro x hx; simp at hx)
    (pairwise_range_keys n (fun _ => 0))
  rw [ctor_entries, List.append_nil] at h3
  have hlen := h3.length_eq
  rw [List.length_map, List.length_range] at hlen
  have I := Reachable.inv (lawful_of_eq id) h2
  refine ⟨h2, hlen, ?_, ?_, ?_⟩
  · unfold size
    rw [I.wf.count, hlen]
  · intro fuel hf
    apply h1 fuel
    rw [ctor_entries, List.length_map, List.length_range]
    simpa using hf
  · intro hn
    rw [contains_eq_isSome_subscript I.wf]
    have hmem : ((0 : Nat), (0 : Nat)) ∈ entries (((List.range n).map (fun k => (k, 0))).foldl
        (insert_result id (fun a b : Nat => decide (a = b))) (ctor : unordered_map Nat Nat)) := by
      rw [h3.mem_iff, List.mem_map]
      exact ⟨0, List.mem_range.mpr hn, rfl⟩
    rw [(subscript_eq_some_iff (lawful_of_eq id) I.wf 0 0).mpr ⟨(0, 0), hmem, by simp, rfl⟩]
    rfl

theorem size_def (m : unordered_map K V) : m.size = m.__size := rfl

theorem uint_range_mod_self : 4294967296 % UINT_RANGE = 0 :=
  Nat.mod_self 4294967296

/-- `big_table` is reachable, holds `4294967296` entries, and its 32-bit
counter has wrapped around to `0`. -/
theorem big_table_facts :
    Reachable id (fun a b => decide (a = b)) big_table ∧
      (entries big_table).length = 4294967296 ∧ big_table.size = 0 ∧
      (∀ fuel, 4294967299 ≤ fuel →
        insert_all id (fun a b => decide (a = b)) fuel ctor
          ((List.range 4294967296).map (fun k => (k, 0))) = some big_table) ∧
      contains id (fun a b => decide (a = b)) big_table 0 = true := by
  obtain ⟨h1, h2, h3, h4, h5⟩ := range_table_facts 4294967296
  unfold big_table
  exact ⟨h1, h2, h3.trans uint_range_mod_self, h4, h5 (by omega)⟩

/-! ## Present keys, occupied slots, and the traversal loop -/

/-- The iterator `find` returns for a present key. -/
theorem find_found {hash : K → Nat} {key_equal : K → K → Bool} {m : unordered_map K V}
    (k : K) (h : contains hash key_equal m k = true) :
    ∃ c t e, slot m.buckets (hash k % m.buckets.length) = some c ∧
      c.get? t = some e ∧ key_equal e.1 k = true ∧
      find hash key_equal m k =
        ⟨some t, some (hash k % m.buckets.length), hash k % m.buckets.length⟩ := by
  have h1 : iter_eq m (find hash key_equal m k) m.end_ = false := by
    simpa [contains] using h
  rcases find_cases hash key_equal m k with ⟨hs, hf⟩ | ⟨c, hs, hc, hf⟩ | ⟨c, t, hs, hc, hf⟩
  · rw [hf, iter_eq_self] at h1; cases h1
  · rw [hf, iter_eq_self] at h1; cases h1
  · obtain ⟨t1, e, ht, hget, hke, _, _⟩ := chain_find_some hc
    have ht1 : t1 = t := by omega
    subst ht1
    exact ⟨c, t1, e, hs, hget, hke, hf⟩

/-- A stored key is present. -/
theorem contains_of_mem {hash : K → Nat} {key_equal : K → K → Bool}
    (L : Lawful hash key_equal) {m : unordered_map K V} (W : WF hash key_equal m)
    {e : K × V} (he : e ∈ entries m) : contains hash key_equal m e.1 = true :=
  contains_of_subscript W
    ((subscript_eq_some_iff L W e.1 e.2).mpr ⟨e, he, L.refl e.1, rfl⟩)

/-- A slot holds no chain exactly when no present key hashes to it. -/
theorem slot_none_iff {hash : K → Nat} {key_equal : K → K → Bool}
    (L : Lawful hash key_equal) {m : unordered_map K V} (W : WF hash key_equal m)
    (i : Nat) :
    slot m.buckets i = none ↔
      ∀ k, contains hash key_equal m k = true → hash k % m.buckets.length ≠ i := by
  constructor
  · intro hs k hk hi
    rw [contains_eq hash key_equal m k W.pos (by rw [W.end_it]), hi, hs] at hk
    simp [chain_of, assoc_nil] at hk
  · intro h
    cases hs : slot m.buckets i with
    | none => rfl
    | some c =>
      exfalso
      obtain ⟨e, rest, hc⟩ := List.exists_cons_of_ne_nil (W.nonempty i c hs)
      have hec : e ∈ c := by rw [hc]; simp
      have hmem : e ∈ entries m := mem_entries_of.mpr ⟨i, c, hs, hec⟩
      exact h e.1 (contains_of_mem L W hmem) (W.place i c hs e hec)

theorem begin_loop_all_none (m : unordered_map K V)
    (h : ∀ i, slot m.buckets i = none) (fuel i : Nat) : begin_loop m fuel i = m.end_ := by
  induction fuel generalizing i with
  | zero => rfl
  | succ fuel ih => simp [begin_loop, h i, ih]

/-- The traversal loop visits what is left to visit, and stops. -/
theorem traverse_eq {hash : K → Nat} {key_equal : K → K → Bool} {m : unordered_map K V}
    (W : WF hash key_equal m) (l : List (K × V)) :
    ∀ (fuel : Nat) (ite : __unordered_map_iterator), IterAt m ite l → l.length < fuel →
      traverse m fuel ite = some l := by
  induction l with
  | nil =>
    intro fuel ite h hf
    cases fuel with
    | zero => simp at hf
    | succ fuel => simp [traverse, (iter_eq_end_iff W h).mpr rfl]
  | cons e l ih =>
    intro fuel ite h hf
    cases fuel with
    | zero => simp at hf
    | succ fuel =>
      have hne : iter_eq m ite m.end_ = false := by
        cases hx : iter_eq m ite m.end_ with
        | false => rfl
        | true => exact absurd ((iter_eq_end_iff W h).mp hx) (by simp)
      obtain ⟨hentry, next, hnext, hat⟩ := incr_IterAt W.nonempty h
      simp only [traverse, hne, Bool.false_eq_true, if_false, hentry, hnext]
      rw [ih fuel next hat (by simpa using hf)]
      rfl

/-- Whatever fuel makes the traversal loop return, it has visited exactly what
was left to visit. -/
theorem traverse_some {hash : K → Nat} {key_equal : K → K → Bool} {m : unordered_map K V}
    (W : WF hash key_equal m) (l : List (K × V)) :
    ∀ (fuel : Nat) (ite : __unordered_map_iterator) (l1 : List (K × V)), IterAt m ite l →
      traverse m fuel ite = some l1 → l1 = l := by
  induction l with
  | nil =>
    intro fuel ite l1 h ht
    cases fuel with
    | zero => simp [traverse] at ht
    | succ fuel =>
      simp only [traverse, (iter_eq_end_iff W h).mpr rfl, if_true, Option.some.injEq] at ht
      exact ht.symm
  | cons e l ih =>
    intro fuel ite l1 h ht
    cases fuel with
    | zero => simp [traverse] at ht
    | succ fuel =>
      have hne : iter_eq m ite m.end_ = false := by
        cases hx : iter_eq m ite m.end_ with
        | false => rfl
        | true => exact absurd ((iter_eq_end_iff W h).mp hx) (by simp)
      obtain ⟨hentry, next, hnext, hat⟩ := incr_IterAt W.nonempty h
      simp only [traverse, hne, Bool.false_eq_true, if_false, hentry, hnext] at ht
      cases htr : traverse m fuel next with
      | none => rw [htr] at ht; cases ht
      | some l2 =>
        rw [htr] at ht
        simp only [Option.map_some', Option.some.injEq] at ht
        rw [← ht, ih fuel next l2 hat htr]

/-- The second test scenario: the table is reachable, holds two entries, and
reads `1` for `"a"` and `2` for `"b"`. -/
theorem scenario_ab_facts :
    Reachable String.length (fun a b => decide (a = b)) scenario_ab ∧
      (entries scenario_ab).length = 2 ∧ scenario_ab.size = 2 ∧
      subscript String.length (fun a b => decide (a = b)) scenario_ab "a" = some 1 ∧
      subscript String.length (fun a b => decide (a = b)) scenario_ab "b" = some 2 := by
  have L := lawful_of_eq String.length
  have R0 : Reachable String.length (fun a b => decide (a = b))
      (ctor : unordered_map String Nat) := Reachable.ctor
  have R1 := R0.insert_result L ("a", 1)
  have R2 := R1.insert_result L ("b", 2)
  have I0 := R0.inv L
  have I1 := R1.inv L
  have I2 := R2.inv L
  have c0 : ∀ k, contains String.length (fun a b => decide (a = b))
      (ctor : unordered_map String Nat) k = false := fun k => (ctor_Refines _ _).1 k
  have s0 : ∀ k, subscript String.length (fun a b => decide (a = b))
      (ctor : unordered_map String Nat) k = none := by
    intro k
    have := c0 k
    rw [contains_eq_isSome_subscript I0.wf] at this
    cases hs : subscript String.length (fun a b => decide (a = b))
        (ctor : unordered_map String Nat) k with
    | none => rfl
    | some v => rw [hs] at this; cases this
  have s1b : subscript String.length (fun a b => decide (a = b))
      (insert_result String.length (fun a b => decide (a = b)) ctor ("a", 1)) "b" = none := by
    rw [insert_result_subscript L I0 ("a", 1) "b", s0]
    simp
  have s1a : subscript String.length (fun a b => decide (a = b))
      (insert_result String.length (fun a b => decide (a = b)) ctor ("a", 1)) "a" = some 1 := by
    rw [insert_result_subscript L I0 ("a", 1) "a"]
    simp
  have c1b : contains String.length (fun a b => decide (a = b))
      (insert_result String.length (fun a b => decide (a = b)) ctor ("a", 1)) "b" = false := by
    rw [contains_eq_isSome_subscript I1.wf, s1b]; rfl
  have n1 := insert_result_count L I0 ("a", 1)
  rw [c0 "a", ctor_entries] at n1
  have n2 := insert_result_count L I1 ("b", 2)
  rw [c1b, n1] at n2
  simp only [Bool.false_eq_true, if_false, List.length_nil] at n2
  unfold scenario_ab
  refine ⟨R2, n2, ?_, ?_, ?_⟩
  · unfold size
    rw [I2.wf.count, n2]
    norm_num [UINT_RANGE]
  · rw [insert_result_subscript L I1 ("b", 2) "a", s1a]
    simp
  · rw [insert_result_subscript L I1 ("b", 2) "b"]
    simp

/-! ## The test scenarios, evaluated -/

/-- The first insert into the default-constructed table, evaluated. -/
theorem eval_insert_find :
    (insert id (fun a b : Nat => decide (a = b)) 3 (ctor : unordered_map Nat Nat) (7, 40)).map
        (fun m => (m.size, m.bucket_size, deref m (find id (fun a b => decide (a = b)) m 7),
          deref m (find id (fun a b => decide (a = b)) m 60))) =
      some (1, 53, some 40, none) := by
  decide

set_option maxRecDepth 1000000 in
/-- Keys `0 .. 25`, then key `26`, inserted with the identity hash, evaluated:
53 buckets after 26 inserts, 97 after the 27th, every key still found, and a
traversal of 27 steps. -/
theorem eval_growth :
    (insert_all id (fun a b : Nat => decide (a = b)) 30 (ctor : unordered_map Nat Nat)
        ((List.range 26).map (fun k => (k, k + 100)))).map
        (fun m => (m.size, m.bucket_size)) = some (26, 53) ∧
    (insert_all id (fun a b : Nat => decide (a = b)) 30 (ctor : unordered_map Nat Nat)
        ((List.range 27).map (fun k => (k, k + 100)))).map
        (fun m => (m.size, m.bucket_size, deref m (find id (fun a b => decide (a = b)) m 26),
          deref m (find id (fun a b => decide (a = b)) m 0),
          (traverse m 30 m.begin_).map List.length)) =
      some (27, 97, some 126, some 100, some 27) := by
  decide

set_option maxRecDepth 1000000 in
/-- The second scenario, evaluated: `"a" -> 1`, `"b" -> 2`, then the iterator
for `"a"` erased. -/
theorem eval_scenario_ab :
    (scenario_ab.size, scenario_ab.bucket_size,
        deref scenario_ab (find String.length (fun a b => decide (a = b)) scenario_ab "a"),
        deref scenario_ab (find String.length (fun a b => decide (a = b)) scenario_ab "b")) =
      (2, 53, some 1, some 2) ∧
    (erase scenario_ab (find String.length (fun a b => decide (a = b)) scenario_ab "a")).map
        (fun m1 => (iter_eq m1 (find String.length (fun a b => decide (a = b)) m1 "a") m1.end_,
          deref m1 (find String.length (fun a b => decide (a = b)) m1 "b"), m1.size,
          (slot m1.buckets 1).isSome)) =
      some (true, some 2, 1, true) := by
  decide

set_option maxRecDepth 1000000 in
/-- The third scenario, evaluated: keys `1` and `54` share slot `1` of the 53
slots; erasing `1` leaves `54` in place and the slot occupied, erasing both
leaves the slot null. -/
theorem eval_collision :
    (insert_all id (fun a b : Nat => decide (a = b)) 5 (ctor : unordered_map Nat Nat)
        [(1, 10), (54, 20)]).map
      (fun m =>
        ((1 : Nat) % m.bucket_size, (54 : Nat) % m.bucket_size,
          deref m (find id (fun a b => decide (a = b)) m 1),
          deref m (find id (fun a b => decide (a = b)) m 54))) =
      some (1, 1, some 10, some 20) ∧
    (insert_all id (fun a b : Nat => decide (a = b)) 5 (ctor : unordered_map Nat Nat)
        [(1, 10), (54, 20)]).bind
      (fun m =>
        (erase m (find id (fun a b => decide (a = b)) m 1)).bind (fun m1 =>
          (erase m1 (find id (fun a b => decide (a = b)) m1 54)).map (fun m2 =>
            (deref m1 (find id (fun a b => decide (a = b)) m1 54),
              (slot m1.buckets 1).isSome, (slot m2.buckets 1).isSome, m2.size)))) =
      some (some 20, true, false, 0) := by
  decide

/-! ## The properties of the specification, C1 to C10 -/

/-- C1: on every reachable table, with a lawful hash and key equality,
`insert((k, v))` returns (for every fuel from `size + 3` on, always with the
same table), and in the table it returns `find(k)` is not `end()` and
dereferences to `v`; this includes the inserts that grow the table to
`next_prime(bucket_size())` and rehash it, which are exactly those that bring
the number of entries over half the bucket count. -/
theorem C1_insert_then_find {hash : K → Nat} {key_equal : K → K → Bool}
    (L : Lawful hash key_equal) {m : unordered_map K V} (R : Reachable hash key_equal m)
    (k : K) (v : V) :
    ∃ m1, (∀ fuel, (entries m).length + 3 ≤ fuel →
        insert hash key_equal fuel m (k, v) = some m1) ∧
      (∀ fuel m2, insert hash key_equal fuel m (k, v) = some m2 → m2 = m1) ∧
      iter_eq m1 (find hash key_equal m1 k) m1.end_ = false ∧
      deref m1 (find hash key_equal m1 k) = some v ∧
      m1.bucket_size =
        (if 2 * (entries (insert_entry hash key_equal m (k, v))).length > m.bucket_size then
          next_prime m.bucket_size else m.bucket_size) := by
  have I := R.inv L
  obtain ⟨I1, _, hlen⟩ := insert_result_spec L I (k, v)
  have hsub : subscript hash key_equal (insert_result hash key_equal m (k, v)) k = some v := by
    rw [insert_result_subscript L I (k, v) k]
    simp [L.refl k]
  refine ⟨insert_result hash key_equal m (k, v), fun fuel hf => insert_eq_result L I _ fuel hf,
    fun fuel m2 h => insert_some_eq_result L I _ fuel h, ?_, hsub, hlen⟩
  have := contains_of_subscript I1.wf hsub
  simpa [contains] using this

/-- C1 (witness): the first insert into the default-constructed table of
natural-number keys hashed by the identity. -/
theorem C1_insert_then_find_witness :
    ∃ m1 : unordered_map Nat Nat,
      (∀ fuel, (entries (ctor : unordered_map Nat Nat)).length + 3 ≤ fuel →
        insert id (fun a b => decide (a = b)) fuel ctor (7, 40) = some m1) ∧
      (∀ fuel m2, insert id (fun a b => decide (a = b)) fuel ctor (7, 40) = some m2 → m2 = m1) ∧
      iter_eq m1 (find id (fun a b => decide (a = b)) m1 7) m1.end_ = false ∧
      deref m1 (find id (fun a b => decide (a = b)) m1 7) = some 40 ∧
      m1.bucket_size =
        (if 2 * (entries (insert_entry id (fun a b => decide (a = b))
            (ctor : unordered_map Nat Nat) (7, 40))).length >
            (ctor : unordered_map Nat Nat).bucket_size then
          next_prime (ctor : unordered_map Nat Nat).bucket_size
        else (ctor : unordered_map Nat Nat).bucket_size) :=
  C1_insert_then_find (lawful_of_eq id) Reachable.ctor 7 40

/-- C2: on every reachable table, for a key `k1` that does not compare equal
to `k`, `find(k1)` after `insert((k, v))` is `end()` exactly when it was before
and dereferences to the same value as before; the table `insert` returns,
grown or not, holds exactly the entries present after the insertion step (no
entry lost, none duplicated). -/
theorem C2_insert_frame {hash : K → Nat} {key_equal : K → K → Bool}
    (L : Lawful hash key_equal) {m : unordered_map K V} (R : Reachable hash key_equal m)
    (k : K) (v : V) (k1 : K) (hk : key_equal k k1 = false) :
    ∃ m1, (∀ fuel, (entries m).length + 3 ≤ fuel →
        insert hash key_equal fuel m (k, v) = some m1) ∧
      (∀ fuel m2, insert hash key_equal fuel m (k, v) = some m2 → m2 = m1) ∧
      iter_eq m1 (find hash key_equal m1 k1) m1.end_ =
        iter_eq m (find hash key_equal m k1) m.end_ ∧
      deref m1 (find hash key_equal m1 k1) = deref m (find hash key_equal m k1) ∧
      (entries m1).Perm (entries (insert_entry hash key_equal m (k, v))) ∧
      (entries m1).Pairwise (fun a b => key_equal a.1 b.1 = false) := by
  have I := R.inv L
  obtain ⟨I1, hperm, _⟩ := insert_result_spec L I (k, v)
  have hsub : subscript hash key_equal (insert_result hash key_equal m (k, v)) k1 =
      subscript hash key_equal m k1 := by
    rw [insert_result_subscript L I (k, v) k1]
    simp [hk]
  refine ⟨insert_result hash key_equal m (k, v), fun fuel hf => insert_eq_result L I _ fuel hf,
    fun fuel m2 h => insert_some_eq_result L I _ fuel h, ?_, hsub, hperm,
    entries_pairwise L I1.wf⟩
  have h1 := contains_eq_isSome_subscript I1.wf k1
  have h2 := contains_eq_isSome_subscript I.wf k1
  rw [hsub, ← h2] at h1
  simpa [contains] using h1

/-- C2 (witness): inserting key 7 into the default-constructed table leaves
key 8 as it was. -/
theorem C2_insert_frame_witness :
    ∃ m1 : unordered_map Nat Nat,
      (∀ fuel, (entries (ctor : unordered_map Nat Nat)).length + 3 ≤ fuel →
        insert id (fun a b => decide (a = b)) fuel ctor (7, 40) = some m1) ∧
      (∀ fuel m2, insert id (fun a b => decide (a = b)) fuel ctor (7, 40) = some m2 → m2 = m1) ∧
      iter_eq m1 (find id (fun a b => decide (a = b)) m1 8) m1.end_ =
        iter_eq (ctor : unordered_map Nat Nat)
          (find id (fun a b => decide (a = b)) (ctor : unordered_map Nat Nat) 8)
          (ctor : unordered_map Nat Nat).end_ ∧
      deref m1 (find id (fun a b => decide (a = b)) m1 8) =
        deref (ctor : unordered_map Nat Nat)
          (find id (fun a b => decide (a = b)) (ctor : unordered_map Nat Nat) 8) ∧
      (entries m1).Perm (entries (insert_entry id (fun a b => decide (a = b))
        (ctor : unordered_map Nat Nat) (7, 40))) ∧
      (entries m1).Pairwise (fun a b => decide (a.1 = b.1) = false) :=
  C2_insert_frame (lawful_of_eq id) Reachable.ctor 7 40 8 (by decide)

/-- C3: on every reachable table, `insert((k, v1))` followed by
`insert((k, v2))` both return, `find(k)` then dereferences to `v2`, and
`size()` after the second insert equals `size()` after the first. -/
theorem C3_insert_overwrite {hash : K → Nat} {key_equal : K → K → Bool}
    (L : Lawful hash key_equal) {m : unordered_map K V} (R : Reachable hash key_equal m)
    (k : K) (v1 v2 : V) :
    ∃ m1 m2, (∀ fuel, (entries m).length + 3 ≤ fuel →
        insert hash key_equal fuel m (k, v1) = some m1) ∧
      (∀ fuel, (entries m1).length + 3 ≤ fuel →
        insert hash key_equal fuel m1 (k, v2) = some m2) ∧
      iter_eq m2 (find hash key_equal m2 k) m2.end_ = false ∧
      deref m2 (find hash key_equal m2 k) = some v2 ∧
      m2.size = m1.size ∧ (entries m2).length = (entries m1).length := by
  have I := R.inv L
  obtain ⟨I1, _, _⟩ := insert_result_spec L I (k, v1)
  obtain ⟨I2, _, _⟩ := insert_result_spec L I1 (k, v2)
  have hsub1 : subscript hash key_equal (insert_result hash key_equal m (k, v1)) k = some v1 := by
    rw [insert_result_subscript L I (k, v1) k]
    simp [L.refl k]
  have hsub2 : subscript hash key_equal
      (insert_result hash key_equal (insert_result hash key_equal m (k, v1)) (k, v2)) k =
      some v2 := by
    rw [insert_result_subscript L I1 (k, v2) k]
    simp [L.refl k]
  have hcon1 := contains_of_subscript I1.wf hsub1
  have hcon2 := contains_of_subscript I2.wf hsub2
  have hcount := insert_result_count L I1 (k, v2)
  simp only [hcon1, if_true, Nat.add_zero] at hcount
  refine ⟨_, _, fun fuel hf => insert_eq_result L I _ fuel hf,
    fun fuel hf => insert_eq_result L I1 _ fuel hf, ?_, hsub2, ?_, hcount⟩
  · simpa [contains] using hcon2
  · unfold size
    rw [I2.wf.count, I1.wf.count, hcount]

/-- C3 (witness): key 7 inserted twice into the default-constructed table. -/
theorem C3_insert_overwrite_witness :
    ∃ m1 m2 : unordered_map Nat Nat,
      (∀ fuel, (entries (ctor : unordered_map Nat Nat)).length + 3 ≤ fuel →
        insert id (fun a b => decide (a = b)) fuel ctor (7, 40) = some m1) ∧
      (∀ fuel, (entries m1).length + 3 ≤ fuel →
        insert id (fun a b => decide (a = b)) fuel m1 (7, 41) = some m2) ∧
      iter_eq m2 (find id (fun a b => decide (a = b)) m2 7) m2.end_ = false ∧
      deref m2 (find id (fun a b => decide (a = b)) m2 7) = some 41 ∧
      m2.size = m1.size ∧ (entries m2).length = (entries m1).length :=
  C3_insert_overwrite (lawful_of_eq id) Reachable.ctor 7 40 41

/-- C4 (amended): for every sequence of `insert` and `erase(find(k))`
operations on the default-constructed table in which every erased key is
present, every prefix of the sequence runs to its end and leaves `size()` equal
to the number of keys of the reference key set modulo `2 ^ 32` (the range of
the `unsigned int` counter), hence equal to that number whenever it is below
`2 ^ 32`. -/
theorem C4_size_refinement {hash : K → Nat} {key_equal : K → K → Bool}
    (L : Lawful hash key_equal) (ops : List (Op K V))
    (h : admissible key_equal [] ops = true) (n : Nat) :
    ∃ m, (∀ fuel, ops.length + 3 ≤ fuel →
        run hash key_equal fuel ctor (ops.take n) = some m) ∧
      m.size = (ref_run key_equal [] (ops.take n)).length % UINT_RANGE ∧
      ((ref_run key_equal [] (ops.take n)).length < UINT_RANGE →
        m.size = (ref_run key_equal [] (ops.take n)).length) := by
  obtain ⟨m, h1, R, hr⟩ := run_spec L (ops.take n) (ctor : unordered_map K V) []
    Reachable.ctor (ctor_Refines hash key_equal) (admissible_take key_equal ops [] n h)
  have hsize : m.size = (ref_run key_equal [] (ops.take n)).length % UINT_RANGE := by
    unfold size
    rw [(R.inv L).wf.count, hr.2.1]
  refine ⟨m, fun fuel hf => h1 fuel ?_, hsize, fun hlt => ?_⟩
  · rw [ctor_entries, List.length_take]
    simp only [List.length_nil, Nat.zero_add]
    have := Nat.min_le_right n ops.length
    omega
  · rw [hsize]; exact Nat.mod_eq_of_lt hlt

/-- C4 (witness): insert 1, insert 2, insert 1 again, erase 1: one key is
left. -/
theorem C4_size_refinement_witness :
    ∃ m : unordered_map Nat Nat,
      (∀ fuel, [Op.insert (1, 10), Op.insert (2, 20), Op.insert (1, 11), Op.erase 1].length + 3
          ≤ fuel →
        run id (fun a b => decide (a = b)) fuel ctor
          ([Op.insert (1, 10), Op.insert (2, 20), Op.insert (1, 11), Op.erase 1].take 4) =
          some m) ∧
      m.size = (ref_run (fun a b => decide (a = b)) []
        (([Op.insert (1, 10), Op.insert (2, 20), Op.insert (1, 11), Op.erase 1] :
          List (Op Nat Nat)).take 4)).length % UINT_RANGE ∧
      ((ref_run (fun a b => decide (a = b)) []
        (([Op.insert (1, 10), Op.insert (2, 20), Op.insert (1, 11), Op.erase 1] :
          List (Op Nat Nat)).take 4)).length < UINT_RANGE →
        m.size = (ref_run (fun a b => decide (a = b)) []
          (([Op.insert (1, 10), Op.insert (2, 20), Op.insert (1, 11), Op.erase 1] :
            List (Op Nat Nat)).take 4)).length) :=
  C4_size_refinement (lawful_of_eq id)
    [Op.insert (1, 10), Op.insert (2, 20), Op.insert (1, 11), Op.erase 1] (by decide) 4

/-- C4 (counterexample): after the `4294967296` inserts of the pairwise
different keys `0 .. 4294967295` into the default-constructed table (identity
hash), `4294967296` keys are present but `size()` is `0`. -/
theorem C4_size_counterexample :
    admissible (fun a b => decide (a = b)) [] big_ops = true ∧
      ∃ m : unordered_map Nat Nat,
        (∀ fuel, 4294967299 ≤ fuel →
          run id (fun a b => decide (a = b)) fuel ctor big_ops = some m) ∧
        m.size = 0 ∧
        (ref_run (fun a b => decide (a = b)) [] big_ops).length = 4294967296 ∧
        m.size ≠ (ref_run (fun a b => decide (a = b)) [] big_ops).length := by
  obtain ⟨hR, hlen, hsize, hrun, _⟩ := big_table_facts
  have hops : big_ops = ((List.range 4294967296).map (fun k => (k, 0))).map Op.insert := by
    unfold big_ops
    rfl
  have hadm : admissible (fun a b => decide (a = b)) [] big_ops = true := by
    rw [hops]
    exact admissible_inserts _ _ _
  have hrun2 : ∀ fuel, 4294967299 ≤ fuel →
      run id (fun a b => decide (a = b)) fuel ctor big_ops = some big_table := by
    intro fuel hf
    rw [hops, run_inserts]
    exact hrun fuel hf
  obtain ⟨m1, h1, _, hr⟩ := run_spec (lawful_of_eq id) big_ops (ctor : unordered_map Nat Nat) []
    Reachable.ctor (ctor_Refines _ _) hadm
  have hopslen : big_ops.length = 4294967296 := by
    rw [hops, List.length_map, List.length_map, List.length_range]
  have hm1 : m1 = big_table := by
    have e1 := h1 4294967299 (by rw [ctor_entries, hopslen]; exact Nat.le_refl _)
    rw [hrun2 4294967299 (Nat.le_refl _)] at e1
    exact (Option.some.inj e1).symm
  rw [hm1] at hr
  have href : (ref_run (fun a b => decide (a = b)) [] big_ops).length = 4294967296 := by
    rw [← hr.2.1, hlen]
  refine ⟨hadm, big_table, hrun2, hsize, href, ?_⟩
  rw [hsize, href]
  exact Nat.ne_of_lt (Nat.lt_of_sub_eq_succ (rfl : 4294967296 - 0 = 4294967295 + 1))

/-- C5: on every reachable table `insert((k, v))` returns a table in which
either `2 * size() <= bucket_size()` or `bucket_size()` is the largest growth
candidate 4294967291. -/
theorem C5_load_factor {hash : K → Nat} {key_equal : K → K → Bool}
    (L : Lawful hash key_equal) {m : unordered_map K V} (R : Reachable hash key_equal m)
    (k : K) (v : V) :
    ∃ m1, (∀ fuel, (entries m).length + 3 ≤ fuel →
        insert hash key_equal fuel m (k, v) = some m1) ∧
      (∀ fuel m2, insert hash key_equal fuel m (k, v) = some m2 → m2 = m1) ∧
      (2 * m1.size ≤ m1.bucket_size ∨ m1.bucket_size = 4294967291) := by
  have I := R.inv L
  obtain ⟨I1, _, _⟩ := insert_result_spec L I (k, v)
  refine ⟨insert_result hash key_equal m (k, v), fun fuel hf => insert_eq_result L I _ fuel hf,
    fun fuel m2 h => insert_some_eq_result L I _ fuel h, ?_⟩
  by_cases hB : (insert_result hash key_equal m (k, v)).buckets.length = 4294967291
  · exact Or.inr hB
  · left
    have h1 := I1.load hB
    have h2 : (insert_result hash key_equal m (k, v)).size ≤
        (entries (insert_result hash key_equal m (k, v))).length := by
      unfold size
      rw [I1.wf.count]
      exact Nat.mod_le _ _
    unfold bucket_size
    omega

/-- C5 (witness): the first insert into the default-constructed table. -/
theorem C5_load_factor_witness :
    ∃ m1 : unordered_map Nat Nat,
      (∀ fuel, (entries (ctor : unordered_map Nat Nat)).length + 3 ≤ fuel →
        insert id (fun a b => decide (a = b)) fuel ctor (7, 40) = some m1) ∧
      (∀ fuel m2, insert id (fun a b => decide (a = b)) fuel ctor (7, 40) = some m2 → m2 = m1) ∧
      (2 * m1.size ≤ m1.bucket_size ∨ m1.bucket_size = 4294967291) :=
  C5_load_factor (lawful_of_eq id) Reachable.ctor 7 40

/-- C6: inserting `n` pairs with pairwise different keys, `2 * n <= 4294967291`,
into the default-constructed table returns at every insert and leaves
`size() == n` and `bucket_size()` equal to the smallest entry `B` of
`prime_list` with `2 * n <= B`. -/
theorem C6_distinct_inserts {hash : K → Nat} {key_equal : K → K → Bool}
    (L : Lawful hash key_equal) (l : List (K × V))
    (hd : l.Pairwise (fun a b => key_equal a.1 b.1 = false))
    (hn : 2 * l.length ≤ 4294967291) :
    ∃ m, (∀ fuel, l.length + 3 ≤ fuel →
        insert_all hash key_equal fuel ctor l = some m) ∧
      m.size = l.length ∧
      m.bucket_size ∈ prime_list ∧ 2 * l.length ≤ m.bucket_size ∧
      ∀ q ∈ prime_list, 2 * l.length ≤ q → m.bucket_size ≤ q := by
  have hent : entries (ctor : unordered_map K V) = [] := by
    have hb : (ctor : unordered_map K V).buckets = List.replicate 53 none := rfl
    rw [entries, hb, entries_of_replicate]
  have hlen0 : (ctor : unordered_map K V).buckets.length = 53 := by
    have hb : (ctor : unordered_map K V).buckets = List.replicate 53 none := rfl
    rw [hb, List.length_replicate]
  obtain ⟨h1, h2, h3, h4⟩ := insert_all_fresh L l (ctor : unordered_map K V) Reachable.ctor
    (by rw [hent]; intro x hx; simp at hx) hd
  rw [hent] at h1 h3 h4
  simp only [List.length_nil, Nat.zero_add, Nat.mul_zero, List.append_nil] at h1 h3 h4
  have hs := h4 (by rw [hlen0]; exact smallestCandidate_zero) hn
  refine ⟨_, h1, ?_, hs.1, hs.2.1, hs.2.2⟩
  unfold size
  rw [(h2.inv L).wf.count, h3.length_eq]
  apply Nat.mod_eq_of_lt
  unfold UINT_RANGE
  omega

/-- C6 (witness): keys 0..999 hashed by the identity: 53 buckets after 26
inserts, 97 after the 27th, and `size() == 1000`, `bucket_size() == 3079` after
all 1000. -/
theorem C6_distinct_inserts_witness :
    ∃ m26 m27 m1000 : unordered_map Nat Nat,
      (∀ fuel, 29 ≤ fuel → insert_all id (fun a b => decide (a = b)) fuel ctor
        ((List.range 26).map (fun k => (k, k))) = some m26) ∧
      m26.size = 26 ∧ m26.bucket_size = 53 ∧
      (∀ fuel, 30 ≤ fuel → insert_all id (fun a b => decide (a = b)) fuel ctor
        ((List.range 27).map (fun k => (k, k))) = some m27) ∧
      m27.size = 27 ∧ m27.bucket_size = 97 ∧
      (∀ fuel, 1003 ≤ fuel → insert_all id (fun a b => decide (a = b)) fuel ctor
        ((List.range 1000).map (fun k => (k, k))) = some m1000) ∧
      m1000.size = 1000 ∧ m1000.bucket_size = 3079 := by
  obtain ⟨m26, a1, a2, a3, a4, a5⟩ := C6_distinct_inserts (lawful_of_eq id)
    ((List.range 26).map (fun k => (k, k))) (pairwise_range_keys 26 _) (by simp)
  obtain ⟨m27, b1, b2, b3, b4, b5⟩ := C6_distinct_inserts (lawful_of_eq id)
    ((List.range 27).map (fun k => (k, k))) (pairwise_range_keys 27 _) (by simp)
  obtain ⟨m1000, c1, c2, c3, c4, c5⟩ := C6_distinct_inserts (lawful_of_eq id)
    ((List.range 1000).map (fun k => (k, k))) (pairwise_range_keys 1000 _) (by simp)
  simp only [List.length_map, List.length_range] at a1 a2 a4 a5 b1 b2 b4 b5 c1 c2 c4 c5
  refine ⟨m26, m27, m1000, a1, a2, ?_, b1, b2, ?_, c1, c2, ?_⟩
  · exact smallestCandidate_unique ⟨a3, a4, a5⟩
      ⟨by decide, by omega, by decide⟩
  · exact smallestCandidate_unique ⟨b3, b4, b5⟩
      ⟨by decide, by omega, by decide⟩
  · exact smallestCandidate_unique ⟨c3, c4, c5⟩
      ⟨by decide, by omega, by decide⟩

/-- C7 (amended): on every reachable table and for every present key `k`,
`erase(find(k))` returns, `find(k)` is then `end()`, the table holds exactly
one entry less, every other key reads what it read before, and `size()` is one
less than before modulo `2 ^ 32`: exactly one less whenever `size()` was not `0`
before, in particular whenever fewer than `2 ^ 32` entries are stored. -/
theorem C7_erase_find {hash : K → Nat} {key_equal : K → K → Bool}
    (L : Lawful hash key_equal) {m : unordered_map K V} (R : Reachable hash key_equal m)
    (k : K) (hk : contains hash key_equal m k = true) :
    ∃ m1, erase m (find hash key_equal m k) = some m1 ∧
      iter_eq m1 (find hash key_equal m1 k) m1.end_ = true ∧
      (entries m1).length + 1 = (entries m).length ∧
      m1.size = (m.size + UINT_RANGE - 1) % UINT_RANGE ∧
      (m.size ≠ 0 → m1.size + 1 = m.size) ∧
      ((entries m).length < UINT_RANGE → m1.size + 1 = m.size) ∧
      ∀ k1, key_equal k k1 = false →
        deref m1 (find hash key_equal m1 k1) = deref m (find hash key_equal m k1) := by
  have I := R.inv L
  obtain ⟨m1, h1, I1, _, hcount, hsz, hsub⟩ := erase_spec L I k hk
  have hlt : m.size < UINT_RANGE := by
    unfold size
    rw [I.wf.count]
    exact Nat.mod_lt _ (by decide)
  have hstep : m.size ≠ 0 → m1.size + 1 = m.size := by
    intro hne
    have hsz1 : m1.size = (m.size + UINT_RANGE - 1) % UINT_RANGE := hsz
    have hrw : m.size + UINT_RANGE - 1 = (m.size - 1) + UINT_RANGE := by
      generalize UINT_RANGE = r at hlt
      omega
    rw [hsz1, hrw, Nat.add_mod_right, Nat.mod_eq_of_lt (by omega)]
    omega
  refine ⟨m1, h1, ?_, hcount, hsz, hstep, ?_, ?_⟩
  · have hnone : subscript hash key_equal m1 k = none := by
      rw [hsub k, if_pos (L.refl k)]
    have hc := contains_eq_isSome_subscript I1.wf k
    rw [hnone] at hc
    simpa [contains] using hc
  · intro hlen
    apply hstep
    unfold size
    rw [I.wf.count, Nat.mod_eq_of_lt hlen]
    omega
  · intro k1 hk1
    have := hsub k1
    rw [hk1] at this
    simpa [subscript] using this

/-- C7 (witness): `"a" -> 1` and `"b" -> 2` inserted into the empty table, then
the iterator for `"a"` erased: `find("a") == end()`, `find("b")` dereferences to
`2` and `size() == 1`. -/
theorem C7_erase_find_witness :
    ∃ m1, erase scenario_ab
        (find String.length (fun a b => decide (a = b)) scenario_ab "a") = some m1 ∧
      iter_eq m1 (find String.length (fun a b => decide (a = b)) m1 "a") m1.end_ = true ∧
      deref m1 (find String.length (fun a b => decide (a = b)) m1 "b") = some 2 ∧
      m1.size = 1 := by
  obtain ⟨R, hlen, hsize, ha, hb⟩ := scenario_ab_facts
  have hcon : contains String.length (fun a b => decide (a = b)) scenario_ab "a" = true :=
    contains_of_subscript (R.inv (lawful_of_eq String.length)).wf ha
  obtain ⟨m1, h1, h2, _, _, h5, _, h7⟩ :=
    C7_erase_find (lawful_of_eq String.length) R "a" hcon
  refine ⟨m1, h1, h2, ?_, ?_⟩
  · rw [h7 "b" (by decide)]
    exact hb
  · have := h5 (by rw [hsize]; omega)
    rw [hsize] at this
    omega

/-- C7 (counterexample): `big_table` is reachable and holds key `0`; its
`size()` is `0`, and after `erase(find(0))` its `size()` is `4294967295`, which
is not one less. -/
theorem C7_erase_find_counterexample :
    Reachable id (fun a b => decide (a = b)) big_table ∧
      contains id (fun a b => decide (a = b)) big_table 0 = true ∧
      ∃ m1, erase big_table (find id (fun a b => decide (a = b)) big_table 0) = some m1 ∧
        big_table.size = 0 ∧ m1.size = 4294967295 ∧ m1.size + 1 ≠ big_table.size := by
  obtain ⟨hR, _, hsize, _, hcon⟩ := big_table_facts
  obtain ⟨m1, h1, _, _, _, hsz, _⟩ :=
    erase_spec (lawful_of_eq id) (hR.inv (lawful_of_eq id)) 0 hcon
  have hsize0 := hsize
  rw [size_def] at hsize0
  have hm1 : m1.size = 4294967295 := by
    rw [size_def, hsz, hsize0]
    norm_num [UINT_RANGE]
  refine ⟨hR, hcon, m1, h1, hsize, hm1, ?_⟩
  rw [hm1, hsize]
  exact Nat.succ_ne_zero 4294967295

/-- C8: on every reachable table, two present keys that do not compare equal
(whether or not they hash to the same slot) are found at different entries,
each with the value of its own entry; after `erase(find(k1))`, `k1` is gone and
`find(k2)` still dereferences to the same value; and, before as well as after
the erase, a slot holds no chain exactly when no present key hashes to it (so a
slot whose keys have all been erased is null, and a slot that still has a
present key keeps its chain). -/
theorem C8_erase_frame {hash : K → Nat} {key_equal : K → K → Bool}
    (L : Lawful hash key_equal) {m : unordered_map K V} (R : Reachable hash key_equal m)
    (k1 k2 : K) (h1 : contains hash key_equal m k1 = true)
    (h2 : contains hash key_equal m k2 = true) (hne : key_equal k1 k2 = false) :
    ∃ v1 v2 m1,
      deref m (find hash key_equal m k1) = some v1 ∧
      deref m (find hash key_equal m k2) = some v2 ∧
      (∃ e ∈ entries m, key_equal e.1 k1 = true ∧ e.2 = v1) ∧
      (∃ e ∈ entries m, key_equal e.1 k2 = true ∧ e.2 = v2) ∧
      iter_eq m (find hash key_equal m k1) (find hash key_equal m k2) = false ∧
      erase m (find hash key_equal m k1) = some m1 ∧
      iter_eq m1 (find hash key_equal m1 k1) m1.end_ = true ∧
      iter_eq m1 (find hash key_equal m1 k2) m1.end_ = false ∧
      deref m1 (find hash key_equal m1 k2) = some v2 ∧
      m1.bucket_size = m.bucket_size ∧
      (∀ i, slot m.buckets i = none ↔
        ∀ k, contains hash key_equal m k = true → hash k % m.bucket_size ≠ i) ∧
      (∀ i, slot m1.buckets i = none ↔
        ∀ k, contains hash key_equal m1 k = true → hash k % m1.bucket_size ≠ i) := by
  have I := R.inv L
  have hs1 := contains_eq_isSome_subscript I.wf k1
  have hs2 := contains_eq_isSome_subscript I.wf k2
  rw [h1] at hs1
  rw [h2] at hs2
  obtain ⟨v1, hv1⟩ := Option.isSome_iff_exists.mp hs1.symm
  obtain ⟨v2, hv2⟩ := Option.isSome_iff_exists.mp hs2.symm
  obtain ⟨m1, he, I1, hlen, _, _, hsub⟩ := erase_spec L I k1 h1
  have hsub1 : subscript hash key_equal m1 k1 = none := by
    rw [hsub k1, if_pos (L.refl k1)]
  have hsub2 : subscript hash key_equal m1 k2 = some v2 := by
    rw [hsub k2, hne]
    simpa using hv2
  have hc1 := contains_eq_isSome_subscript I1.wf k1
  have hc2 := contains_eq_isSome_subscript I1.wf k2
  rw [hsub1] at hc1
  rw [hsub2] at hc2
  refine ⟨v1, v2, m1, hv1, hv2, (subscript_eq_some_iff L I.wf k1 v1).mp hv1,
    (subscript_eq_some_iff L I.wf k2 v2).mp hv2, ?_, he, ?_, ?_, hsub2, hlen,
    fun i => slot_none_iff L I.wf i, fun i => slot_none_iff L I1.wf i⟩
  · obtain ⟨c1, t1, e1, hc1s, hg1, hk1, hf1⟩ := find_found k1 h1
    obtain ⟨c2, t2, e2, hc2s, hg2, hk2, hf2⟩ := find_found k2 h2
    have hb : ¬ m.buckets.length ≤ hash k1 % m.buckets.length :=
      Nat.not_le.mpr (Nat.mod_lt _ I.wf.pos)
    rw [hf1, hf2]
    by_cases hsame : t1 = t2 ∧ hash k1 % m.buckets.length = hash k2 % m.buckets.length
    · exfalso
      obtain ⟨ht, hi⟩ := hsame
      rw [← hi, hc1s] at hc2s
      cases hc2s
      rw [← ht, hg1] at hg2
      cases hg2
      have := L.trans _ _ _ (L.symm _ _ hk1) hk2
      rw [hne] at this
      cases this
    · simp only [iter_eq, hb, false_and, if_false, ge_iff_le, Bool.false_eq_true]
      cases hd : (some t1 == some t2 && hash k1 % m.buckets.length ==
          hash k2 % m.buckets.length) with
      | false => rfl
      | true =>
        exfalso
        apply hsame
        simpa using hd
  · simpa [contains] using hc1
  · simpa [contains] using hc2

/-- C8 (witness): in the table holding `"a" -> 1` and `"b" -> 2`, both keys
hashing to slot 1, erasing `"a"` leaves `"b"` in place. -/
theorem C8_erase_frame_witness :
    ∃ v1 v2 m1,
      deref scenario_ab (find String.length (fun a b => decide (a = b)) scenario_ab "a") =
        some v1 ∧
      deref scenario_ab (find String.length (fun a b => decide (a = b)) scenario_ab "b") =
        some v2 ∧
      (∃ e ∈ entries scenario_ab, decide (e.1 = "a") = true ∧ e.2 = v1) ∧
      (∃ e ∈ entries scenario_ab, decide (e.1 = "b") = true ∧ e.2 = v2) ∧
      iter_eq scenario_ab (find String.length (fun a b => decide (a = b)) scenario_ab "a")
        (find String.length (fun a b => decide (a = b)) scenario_ab "b") = false ∧
      erase scenario_ab (find String.length (fun a b => decide (a = b)) scenario_ab "a") =
        some m1 ∧
      iter_eq m1 (find String.length (fun a b => decide (a = b)) m1 "a") m1.end_ = true ∧
      iter_eq m1 (find String.length (fun a b => decide (a = b)) m1 "b") m1.end_ = false ∧
      deref m1 (find String.length (fun a b => decide (a = b)) m1 "b") = some v2 ∧
      m1.bucket_size = scenario_ab.bucket_size ∧
      (∀ i, slot scenario_ab.buckets i = none ↔
        ∀ k, contains String.length (fun a b => decide (a = b)) scenario_ab k = true →
          String.length k % scenario_ab.bucket_size ≠ i) ∧
      (∀ i, slot m1.buckets i = none ↔
        ∀ k, contains String.length (fun a b => decide (a = b)) m1 k = true →
          String.length k % m1.bucket_size ≠ i) :=
  C8_erase_frame (lawful_of_eq String.length) scenario_ab_facts.1 "a" "b"
    (contains_of_subscript (scenario_ab_facts.1.inv (lawful_of_eq String.length)).wf
      scenario_ab_facts.2.2.2.1)
    (contains_of_subscript (scenario_ab_facts.1.inv (lawful_of_eq String.length)).wf
      scenario_ab_facts.2.2.2.2)
    (by decide)

/-- C9: for every table (reachable or not), after `clear()` the size is `0`,
every slot holds no chain, `begin() == end()`, and the bucket count is the one
before the call; a second `clear()` yields the same state again. -/
theorem C9_clear (m : unordered_map K V) :
    (clear m).size = 0 ∧
      (∀ b ∈ (clear m).buckets, b = none) ∧
      (∀ i, slot (clear m).buckets i = none) ∧
      iter_eq (clear m) (clear m).begin_ (clear m).end_ = true ∧
      (clear m).bucket_size = m.bucket_size ∧
      clear (clear m) = clear m ∧
      (clear (clear m)).size = 0 ∧
      iter_eq (clear (clear m)) (clear (clear m)).begin_ (clear (clear m)).end_ = true := by
  have hnone : ∀ (m : unordered_map K V) (i : Nat), slot (clear m).buckets i = none := by
    intro m i
    rw [clear_buckets, slot_replicate]
  have hbegin : ∀ m : unordered_map K V,
      iter_eq (clear m) (clear m).begin_ (clear m).end_ = true := by
    intro m
    unfold begin_
    rw [begin_loop_all_none (clear m) (hnone m), iter_eq_self]
  have hidem : clear (clear m) = clear m := by
    have hb : (clear (clear m)).buckets = (clear m).buckets := by
      rw [clear_buckets (clear m), clear_buckets m, List.length_replicate]
    cases m with
    | mk bs sz e =>
      simp only [clear] at hb ⊢
      rw [hb]
  refine ⟨rfl, ?_, hnone m, hbegin m, ?_, hidem, rfl, hbegin (clear m)⟩
  · intro b hb
    rw [clear_buckets] at hb
    exact (List.mem_replicate.mp hb).2
  · unfold bucket_size
    rw [clear_buckets, List.length_replicate]

/-- C10 (amended): on every reachable table, starting at `begin()` and applying
`operator++` until the iterator compares equal to `end()` terminates, and the
entries visited are exactly the entries of the table, chain after chain, each
node once: the visited keys are pairwise non-equal and a key is visited iff
`find` of it is not `end()`. The number of steps is the number of entries, which
is `size()` modulo `2 ^ 32`, hence `size()` whenever fewer than `2 ^ 32` entries
are stored. `begin() == end()` holds exactly when the table has no entry. -/
theorem C10_traversal {hash : K → Nat} {key_equal : K → K → Bool}
    (L : Lawful hash key_equal) {m : unordered_map K V} (R : Reachable hash key_equal m) :
    (∀ fuel, (entries m).length < fuel → traverse m fuel m.begin_ = some (entries m)) ∧
      (∀ fuel l, traverse m fuel m.begin_ = some l → l = entries m) ∧
      (∀ e, e ∈ entries m ↔ ∃ i c, slot m.buckets i = some c ∧ e ∈ c) ∧
      (entries m).length % UINT_RANGE = m.size ∧
      ((entries m).length < UINT_RANGE → (entries m).length = m.size) ∧
      (entries m).Pairwise (fun a b => key_equal a.1 b.1 = false) ∧
      (∀ k, contains hash key_equal m k = true ↔ ∃ e ∈ entries m, key_equal e.1 k = true) ∧
      (iter_eq m m.begin_ m.end_ = true ↔ entries m = []) := by
  have I := R.inv L
  have W := I.wf
  have hat := begin_IterAt W
  refine ⟨fun fuel hf => traverse_eq W _ fuel _ hat hf,
    fun fuel l h => traverse_some W _ fuel _ l hat h,
    fun e => mem_entries_of, ?_, ?_, entries_pairwise L W, ?_, iter_eq_end_iff W hat⟩
  · unfold size
    rw [W.count]
  · intro hlt
    unfold size
    rw [W.count, Nat.mod_eq_of_lt hlt]
  · intro k
    rw [contains_eq_isSome_subscript W]
    constructor
    · intro h
      obtain ⟨v, hv⟩ := Option.isSome_iff_exists.mp h
      obtain ⟨e, he, hk, _⟩ := (subscript_eq_some_iff L W k v).mp hv
      exact ⟨e, he, hk⟩
    · rintro ⟨e, he, hk⟩
      rw [(subscript_eq_some_iff L W k e.2).mpr ⟨e, he, hk, rfl⟩]
      rfl

/-- C10 (witness): the traversal of the table holding `"a" -> 1` and
`"b" -> 2`. -/
theorem C10_traversal_witness :
    (∀ fuel, (entries scenario_ab).length < fuel →
        traverse scenario_ab fuel scenario_ab.begin_ = some (entries scenario_ab)) ∧
      (∀ fuel l, traverse scenario_ab fuel scenario_ab.begin_ = some l →
        l = entries scenario_ab) ∧
      (∀ e, e ∈ entries scenario_ab ↔ ∃ i c, slot scenario_ab.buckets i = some c ∧ e ∈ c) ∧
      (entries scenario_ab).length % UINT_RANGE = scenario_ab.size ∧
      ((entries scenario_ab).length < UINT_RANGE →
        (entries scenario_ab).length = scenario_ab.size) ∧
      (entries scenario_ab).Pairwise (fun a b => decide (a.1 = b.1) = false) ∧
      (∀ k, contains String.length (fun a b => decide (a = b)) scenario_ab k = true ↔
        ∃ e ∈ entries scenario_ab, decide (e.1 = k) = true) ∧
      (iter_eq scenario_ab scenario_ab.begin_ scenario_ab.end_ = true ↔
        entries scenario_ab = []) :=
  C10_traversal (lawful_of_eq String.length) scenario_ab_facts.1

/-- C10 (counterexample): the traversal of `big_table`, a reachable table,
visits `4294967296` entries, while its `size()` is `0`. -/
theorem C10_traversal_counterexample :
    Reachable id (fun a b => decide (a = b)) big_table ∧ big_table.size = 0 ∧
      ∃ l, (∀ fuel, 4294967296 < fuel →
          traverse big_table fuel big_table.begin_ = some l) ∧
        l.length = 4294967296 ∧ l.length ≠ big_table.size := by
  obtain ⟨hR, hlen, hsize, _, _⟩ := big_table_facts
  have W := (hR.inv (lawful_of_eq id)).wf
  refine ⟨hR, hsize, entries big_table, fun fuel hf => ?_, hlen, ?_⟩
  · exact traverse_eq W _ fuel _ (begin_IterAt W) (hlen.symm ▸ hf)
  · rw [hlen, hsize]
    exact Nat.succ_ne_zero 4294967295

/-! ## The properties of the specification, C11 to C20 -/

theorem prime_list_length : prime_list.length = num_primes := rfl

theorem prime_list_le_max : ∀ x ∈ prime_list, x ≤ 4294967291 := by decide

/-- The loop of `next_prime` returns the first entry from index `i` on that is
greater than `n`, and the last entry when there is none. -/
theorem next_prime_loop_eq (n : Nat) :
    ∀ fuel i, fuel + i = num_primes →
      next_prime_loop n fuel i =
        ((prime_list.drop i).find? (fun p => decide (p > n))).getD (prime_at (num_primes - 1)) := by
  intro fuel
  induction fuel with
  | zero =>
    intro i hi
    have hdrop : prime_list.drop i = [] :=
      List.drop_eq_nil_of_le (by rw [prime_list_length]; omega)
    rw [hdrop]
    rfl
  | succ fuel ih =>
    intro i hi
    have hlt : i < prime_list.length := by rw [prime_list_length]; omega
    have hat : prime_at i = prime_list[i] := by
      unfold prime_at
      rw [List.getD_eq_getElem?_getD, List.getElem?_eq_getElem hlt]
      rfl
    rw [List.drop_eq_getElem_cons hlt, List.find?_cons]
    simp only [next_prime_loop, hat]
    by_cases h : prime_list[i] > n
    · simp [h]
    · simp only [h, if_false, decide_False]
      exact ih (i + 1) (by omega)

theorem next_prime_eq_find (n : Nat) :
    next_prime n = (prime_list.find? (fun p => decide (p > n))).getD 4294967291 := by
  unfold next_prime
  rw [next_prime_loop_eq n num_primes 0 rfl]
  rfl

/-- C11: for every `n` (in particular every 32-bit unsigned `n`), below the
largest entry `next_prime(n)` is the first entry of `prime_list` that is
strictly greater than `n` (every entry before it is at most `n`), and from the
largest entry on no entry is greater than `n` and `next_prime(n)` is the largest
entry 4294967291. -/
theorem C11_next_prime (n : Nat) :
    (n < 4294967291 →
      n < next_prime n ∧
      ∃ before after, prime_list = before ++ next_prime n :: after ∧ ∀ x ∈ before, x ≤ n) ∧
    (4294967291 ≤ n → next_prime n = 4294967291 ∧ ∀ x ∈ prime_list, x ≤ n) := by
  rw [next_prime_eq_find]
  cases hf : prime_list.find? (fun p => decide (p > n)) with
  | none =>
    rw [List.find?_eq_none] at hf
    have hall : ∀ x ∈ prime_list, x ≤ n := by
      intro x hx
      have := hf x hx
      simpa using this
    constructor
    · intro hn
      have := hall 4294967291 (by decide)
      omega
    · intro _
      exact ⟨rfl, hall⟩
  | some p =>
    obtain ⟨hp, before, after, hlist, hbefore⟩ := List.find?_eq_some.mp hf
    have hpn : n < p := by simpa using hp
    have hmem : p ∈ prime_list := by rw [hlist]; simp
    constructor
    · intro _
      refine ⟨hpn, before, after, hlist, fun x hx => ?_⟩
      have := hbefore x hx
      simpa using this
    · intro hn
      have := prime_list_le_max p hmem
      simp only [Option.getD_some]
      omega

/-- Values of `next_prime`, evaluated. -/
theorem eval_next_prime :
    next_prime 0 = 53 ∧ next_prime 52 = 53 ∧ next_prime 53 = 97 ∧ next_prime 96 = 97 ∧
      next_prime 4294967290 = 4294967291 ∧ next_prime 4294967291 = 4294967291 ∧
      next_prime 4294967295 = 4294967291 := by
  decide

theorem find_of_slot_none (hash : K → Nat) (key_equal : K → K → Bool)
    (m : unordered_map K V) (k : K)
    (h : slot m.buckets (hash k % m.bucket_size) = none) :
    find hash key_equal m k = m.end_ := by
  unfold bucket_size at h
  simp [find, h]

/-- C12: on every reachable table, `find(k)` is `end()` if and only if no entry
of the table has a key comparing equal to `k`; when it is not `end()`, the entry
it designates has a key comparing equal to `k` and lies in the chain of slot
`hash(k) mod bucket_size()`, which is the bucket index of the iterator. `find(k)`
is `end()` when the selected slot holds no chain, and for every `k` on the
default-constructed table. -/
theorem C12_find {hash : K → Nat} {key_equal : K → K → Bool}
    (L : Lawful hash key_equal) {m : unordered_map K V} (R : Reachable hash key_equal m)
    (k : K) :
    (iter_eq m (find hash key_equal m k) m.end_ = true ↔
        ∀ e ∈ entries m, key_equal e.1 k = false) ∧
      (iter_eq m (find hash key_equal m k) m.end_ = false →
        ∃ e c, entry_at m (find hash key_equal m k) = some e ∧ key_equal e.1 k = true ∧
          (find hash key_equal m k).bucket = hash k % m.bucket_size ∧
          slot m.buckets (hash k % m.bucket_size) = some c ∧ e ∈ c) ∧
      (slot m.buckets (hash k % m.bucket_size) = none →
        find hash key_equal m k = m.end_) ∧
      (∀ k1, find hash key_equal (ctor : unordered_map K V) k1 =
        (ctor : unordered_map K V).end_) := by
  have W := (R.inv L).wf
  refine ⟨?_, ?_, find_of_slot_none hash key_equal m k, fun k1 => ?_⟩
  · rw [← subscript_eq_none_iff L W k]
    have hc := contains_eq_isSome_subscript W k
    unfold contains at hc
    cases hs : subscript hash key_equal m k with
    | none =>
      rw [hs] at hc
      simp only [Option.isSome_none, Bool.not_eq_false'] at hc
      simp [hc]
    | some v =>
      rw [hs] at hc
      simp only [Option.isSome_some, Bool.not_eq_true'] at hc
      simp [hc]
  · intro h
    have hcon : contains hash key_equal m k = true := by simp [contains, h]
    obtain ⟨c, t, e, hs, hget, hk, hf⟩ := find_found k hcon
    refine ⟨e, c, ?_, hk, ?_, hs, List.get?_mem hget⟩
    · rw [hf]
      simp only [entry_at, hs, hget]
    · rw [hf]
      rfl
  · apply find_of_slot_none
    have hb : (ctor : unordered_map K V).buckets = List.replicate 53 none := rfl
    rw [hb, slot_replicate]

/-- C12 (witness): in the table holding `"a" -> 1` and `"b" -> 2`, key `"a"`. -/
theorem C12_find_witness :
    (iter_eq scenario_ab (find String.length (fun a b => decide (a = b)) scenario_ab "a")
          scenario_ab.end_ = true ↔
        ∀ e ∈ entries scenario_ab, decide (e.1 = "a") = false) ∧
      (iter_eq scenario_ab (find String.length (fun a b => decide (a = b)) scenario_ab "a")
          scenario_ab.end_ = false →
        ∃ e c, entry_at scenario_ab
            (find String.length (fun a b => decide (a = b)) scenario_ab "a") = some e ∧
          decide (e.1 = "a") = true ∧
          (find String.length (fun a b => decide (a = b)) scenario_ab "a").bucket =
            String.length "a" % scenario_ab.bucket_size ∧
          slot scenario_ab.buckets (String.length "a" % scenario_ab.bucket_size) = some c ∧
          e ∈ c) ∧
      (slot scenario_ab.buckets (String.length "a" % scenario_ab.bucket_size) = none →
        find String.length (fun a b => decide (a = b)) scenario_ab "a" = scenario_ab.end_) ∧
      (∀ k1, find String.length (fun a b => decide (a = b))
          (ctor : unordered_map String Nat) k1 = (ctor : unordered_map String Nat).end_) :=
  C12_find (lawful_of_eq String.length) scenario_ab_facts.1 "a"

/-- In a chain without equal keys the search for the key of the entry at
position `i` stops at position `i`. -/
theorem chain_find_of_get {hash : K → Nat} {key_equal : K → K → Bool}
    (L : Lawful hash key_equal) (c : Chain K V)
    (hu : c.Pairwise (fun a b => key_equal a.1 b.1 = false)) (i : Nat) (e : K × V)
    (hget : c.get? i = some e) (j : Nat) :
    chain_find key_equal e.1 c j = some (j + i) := by
  induction c generalizing i j with
  | nil => simp at hget
  | cons x rest ih =>
    rw [List.pairwise_cons] at hu
    cases i with
    | zero =>
      simp only [List.get?_cons_zero, Option.some.injEq] at hget
      subst hget
      simp [chain_find, L.refl]
    | succ i =>
      simp only [List.get?_cons_succ] at hget
      have hx : key_equal x.1 e.1 = false := hu.1 e (List.get?_mem hget)
      simp only [chain_find, hx, Bool.false_eq_true, if_false]
      rw [ih hu.2 i hget (j + 1)]
      congr 1
      omega

/-- A live iterator is the iterator `find` returns for the key it designates. -/
theorem live_eq_find {hash : K → Nat} {key_equal : K → K → Bool}
    (L : Lawful hash key_equal) {m : unordered_map K V} (W : WF hash key_equal m)
    {ite : __unordered_map_iterator} (h : Live m ite) :
    ∃ e, entry_at m ite = some e ∧ e ∈ entries m ∧
      contains hash key_equal m e.1 = true ∧ find hash key_equal m e.1 = ite := by
  obtain ⟨b, i, c, hite, hs, hi⟩ := h
  obtain ⟨e, hget⟩ : ∃ e, c.get? i = some e := ⟨c.get ⟨i, hi⟩, List.get?_eq_get hi⟩
  have hmem : e ∈ c := List.get?_mem hget
  have hent : e ∈ entries m := mem_entries_of.mpr ⟨b, c, hs, hmem⟩
  have hidx : hash e.1 % m.buckets.length = b := W.place b c hs _ hmem
  have hfind := chain_find_of_get L c (W.uniq b c hs) i e hget 0
  refine ⟨e, ?_, hent, contains_of_mem L W hent, ?_⟩
  · rw [hite]
    simp only [entry_at, hs, hget]
  · rw [hite]
    unfold find
    simp only [hidx, hs, hfind, Nat.zero_add, slot_ptr_of_some hs]

theorem erase_length {m m1 : unordered_map K V} {ite : __unordered_map_iterator}
    (h : erase m ite = some m1) : m1.buckets.length = m.buckets.length := by
  unfold erase at h
  split at h
  · split at h
    · split at h
      · simp only [Option.some.injEq] at h
        rw [← h]
        simp only
        split <;> simp
      · cases h
    · cases h
  · cases h

theorem next_prime_ge {B : Nat} (hB : B ∈ prime_list) : B ≤ next_prime B := by
  obtain ⟨_, _, _, _, hgrow, hmax⟩ := prime_list_facts B hB
  by_cases h : B = 4294967291
  · rw [hmax h]
  · have := hgrow h
    omega

theorem insert_result_length_ge {hash : K → Nat} {key_equal : K → K → Bool}
    (L : Lawful hash key_equal) {m : unordered_map K V} (I : Inv hash key_equal m)
    (p : K × V) : m.buckets.length ≤ (insert_result hash key_equal m p).buckets.length := by
  rw [(insert_result_spec L I p).2.2]
  split
  · exact next_prime_ge I.prime
  · exact Nat.le_refl _

/-- A table that evolves from a reachable table is reachable and has at least
as many buckets. -/
theorem Evolves.reachable_le {hash : K → Nat} {key_equal : K → K → Bool}
    (L : Lawful hash key_equal) {m m1 : unordered_map K V} (R : Reachable hash key_equal m)
    (E : Evolves hash key_equal m m1) :
    Reachable hash key_equal m1 ∧ m.buckets.length ≤ m1.buckets.length := by
  induction E with
  | refl => exact ⟨R, Nat.le_refl _⟩
  | insert m1 m2 p fuel _ h ih =>
    obtain ⟨R1, hle⟩ := ih
    refine ⟨Reachable.insert m1 m2 p fuel R1 h, ?_⟩
    rw [insert_some_eq_result L (R1.inv L) p fuel h]
    exact Nat.le_trans hle (insert_result_length_ge L (R1.inv L) p)
  | erase m1 m2 ite _ hlive h ih =>
    obtain ⟨R1, hle⟩ := ih
    obtain ⟨e, _, _, hcon, hfind⟩ := live_eq_find L (R1.inv L).wf hlive
    refine ⟨Reachable.erase m1 m2 e.1 R1 hcon (by rw [hfind]; exact h), ?_⟩
    rw [erase_length h]
    exact hle
  | clear m1 _ ih =>
    obtain ⟨R1, hle⟩ := ih
    refine ⟨Reachable.clear m1 R1, ?_⟩
    rw [clear_buckets, List.length_replicate]
    exact hle

/-- C13: on every reachable table, `bucket_size()` after an `insert`, after an
`erase` through a live iterator and after `clear` is at least `bucket_size()`
before (equal for `erase` and `clear`); and over any further sequence of such
operations the bucket count never shrinks. -/
theorem C13_bucket_size_monotone {hash : K → Nat} {key_equal : K → K → Bool}
    (L : Lawful hash key_equal) {m : unordered_map K V} (R : Reachable hash key_equal m) :
    (∀ p fuel m1, insert hash key_equal fuel m p = some m1 →
        m.bucket_size ≤ m1.bucket_size) ∧
      (∀ ite m1, Live m ite → erase m ite = some m1 → m1.bucket_size = m.bucket_size) ∧
      (clear m).bucket_size = m.bucket_size ∧
      (∀ m1, Evolves hash key_equal m m1 → m.bucket_size ≤ m1.bucket_size) := by
  refine ⟨fun p fuel m1 h => ?_, fun ite m1 _ h => erase_length h, ?_,
    fun m1 E => (E.reachable_le L R).2⟩
  · rw [insert_some_eq_result L (R.inv L) p fuel h]
    exact insert_result_length_ge L (R.inv L) p
  · unfold bucket_size
    rw [clear_buckets, List.length_replicate]

/-- C13 (witness): the default-constructed table. -/
theorem C13_bucket_size_monotone_witness :
    (∀ p fuel m1, insert id (fun a b => decide (a = b)) fuel (ctor : unordered_map Nat Nat) p =
          some m1 → (ctor : unordered_map Nat Nat).bucket_size ≤ m1.bucket_size) ∧
      (∀ ite m1, Live (ctor : unordered_map Nat Nat) ite →
        erase (ctor : unordered_map Nat Nat) ite = some m1 →
        m1.bucket_size = (ctor : unordered_map Nat Nat).bucket_size) ∧
      (clear (ctor : unordered_map Nat Nat)).bucket_size =
        (ctor : unordered_map Nat Nat).bucket_size ∧
      (∀ m1, Evolves id (fun a b => decide (a = b)) (ctor : unordered_map Nat Nat) m1 →
        (ctor : unordered_map Nat Nat).bucket_size ≤ m1.bucket_size) :=
  C13_bucket_size_monotone (lawful_of_eq id) Reachable.ctor

/-- C15: slot-placement invariant. In every reachable table every entry
`(k, v)` stored in the chain of slot `i` satisfies `hash(k) mod bucket_size() == i`;
the same holds in every table obtained from it by further `insert` (growing and
rehashing or not), `erase` and `clear` calls, and in the default-constructed
table. -/
theorem C15_slot_placement {hash : K → Nat} {key_equal : K → K → Bool}
    (L : Lawful hash key_equal) {m : unordered_map K V} (R : Reachable hash key_equal m) :
    (∀ i c, slot m.buckets i = some c → ∀ e ∈ c, hash e.1 % m.bucket_size = i) ∧
      (∀ m1, Evolves hash key_equal m m1 →
        ∀ i c, slot m1.buckets i = some c → ∀ e ∈ c, hash e.1 % m1.bucket_size = i) ∧
      (∀ i c, slot (ctor : unordered_map K V).buckets i = some c →
        ∀ e ∈ c, hash e.1 % (ctor : unordered_map K V).bucket_size = i) :=
  ⟨(R.inv L).wf.place, fun _ E => ((E.reachable_le L R).1.inv L).wf.place,
    (ctor_Inv hash key_equal).wf.place⟩

/-- C15 (witness): the table holding `"a" -> 1` and `"b" -> 2`. -/
theorem C15_slot_placement_witness :
    (∀ i c, slot scenario_ab.buckets i = some c →
        ∀ e ∈ c, String.length e.1 % scenario_ab.bucket_size = i) ∧
      (∀ m1, Evolves String.length (fun a b => decide (a = b)) scenario_ab m1 →
        ∀ i c, slot m1.buckets i = some c → ∀ e ∈ c, String.length e.1 % m1.bucket_size = i) ∧
      (∀ i c, slot (ctor : unordered_map String Nat).buckets i = some c →
        ∀ e ∈ c, String.length e.1 % (ctor : unordered_map String Nat).bucket_size = i) :=
  C15_slot_placement (lawful_of_eq String.length) scenario_ab_facts.1

/-- C16: key-uniqueness invariant. In every reachable table no two distinct
entries, in the same chain or in chains of different slots, have keys that
compare equal; the same holds in every table obtained from it by further
`insert` (fresh key, overwrite, rehash), `erase` and `clear` calls. -/
theorem C16_key_uniqueness {hash : K → Nat} {key_equal : K → K → Bool}
    (L : Lawful hash key_equal) {m : unordered_map K V} (R : Reachable hash key_equal m) :
    (entries m).Pairwise (fun a b => key_equal a.1 b.1 = false) ∧
      (∀ i c, slot m.buckets i = some c →
        c.Pairwise (fun a b => key_equal a.1 b.1 = false)) ∧
      (∀ m1, Evolves hash key_equal m m1 →
        (entries m1).Pairwise (fun a b => key_equal a.1 b.1 = false)) :=
  ⟨entries_pairwise L (R.inv L).wf, (R.inv L).wf.uniq,
    fun _ E => entries_pairwise L ((E.reachable_le L R).1.inv L).wf⟩

/-- C16 (witness): the table holding `"a" -> 1` and `"b" -> 2`. -/
theorem C16_key_uniqueness_witness :
    (entries scenario_ab).Pairwise (fun a b => decide (a.1 = b.1) = false) ∧
      (∀ i c, slot scenario_ab.buckets i = some c →
        c.Pairwise (fun a b => decide (a.1 = b.1) = false)) ∧
      (∀ m1, Evolves String.length (fun a b => decide (a = b)) scenario_ab m1 →
        (entries m1).Pairwise (fun a b => decide (a.1 = b.1) = false)) :=
  C16_key_uniqueness (lawful_of_eq String.length) scenario_ab_facts.1

theorem chain_total_eq (m : unordered_map K V) : chain_total m = (entries m).length := by
  unfold chain_total entries
  induction m.buckets with
  | nil => rfl
  | cons b bs ih =>
    rw [entries_of_cons, List.length_append, List.map_cons, List.sum_cons, ih]
    cases b <;> rfl

/-- C17 (amended): count invariant. In every reachable table, and in every
table obtained from it by further `insert` (with its clear-and-reinsert rehash
pass), `erase` and `clear` calls, `size()` equals the sum of the lengths of the
chains of all occupied slots modulo `2 ^ 32` (the range of the `unsigned int`
counter), hence equals that sum whenever the sum is below `2 ^ 32`; for the
default-constructed table both are `0`. -/
theorem C17_count_invariant {hash : K → Nat} {key_equal : K → K → Bool}
    (L : Lawful hash key_equal) {m : unordered_map K V} (R : Reachable hash key_equal m) :
    m.size = chain_total m % UINT_RANGE ∧
      (chain_total m < UINT_RANGE → m.size = chain_total m) ∧
      (∀ m1, Evolves hash key_equal m m1 → m1.size = chain_total m1 % UINT_RANGE) ∧
      (ctor : unordered_map K V).size = 0 ∧ chain_total (ctor : unordered_map K V) = 0 := by
  have h : ∀ m1 : unordered_map K V, Reachable hash key_equal m1 →
      m1.size = chain_total m1 % UINT_RANGE := by
    intro m1 R1
    rw [chain_total_eq, size_def]
    exact (R1.inv L).wf.count
  refine ⟨h m R, fun hlt => ?_, fun m1 E => h m1 (E.reachable_le L R).1, rfl, ?_⟩
  · rw [h m R, Nat.mod_eq_of_lt hlt]
  · rw [chain_total_eq, ctor_entries]
    rfl

/-- C17 (witness): the table holding `"a" -> 1` and `"b" -> 2`. -/
theorem C17_count_invariant_witness :
    scenario_ab.size = chain_total scenario_ab % UINT_RANGE ∧
      (chain_total scenario_ab < UINT_RANGE → scenario_ab.size = chain_total scenario_ab) ∧
      (∀ m1, Evolves String.length (fun a b => decide (a = b)) scenario_ab m1 →
        m1.size = chain_total m1 % UINT_RANGE) ∧
      (ctor : unordered_map String Nat).size = 0 ∧
      chain_total (ctor : unordered_map String Nat) = 0 :=
  C17_count_invariant (lawful_of_eq String.length) scenario_ab_facts.1

/-- C17 (counterexample): in `big_table`, a reachable table, the chains hold
`4294967296` entries in total while `size()` is `0`. -/
theorem C17_count_invariant_counterexample :
    Reachable id (fun a b => decide (a = b)) big_table ∧ big_table.size = 0 ∧
      chain_total big_table = 4294967296 ∧ big_table.size ≠ chain_total big_table := by
  obtain ⟨hR, hlen, hsize, _, _⟩ := big_table_facts
  have htotal : chain_total big_table = 4294967296 := by
    rw [chain_total_eq]
    exact hlen
  refine ⟨hR, hsize, htotal, ?_⟩
  rw [hsize, htotal]
  exact (Nat.succ_ne_zero 4294967295).symm

theorem modify_eq_set {c : Chain K V} {t : Nat} {e : K × V} (f : K × V → K × V)
    (hget : c.get? t = some e) : c.modify f t = c.set t (f e) := by
  rw [List.modify_eq_set_get?, hget]
  rfl

/-- `insert` returns after the insertion step, whatever positive fuel it is
given, when the load factor is at most one half or no larger bucket count
exists. -/
theorem insert_of_no_growth (hash : K → Nat) (key_equal : K → K → Bool) (fuel : Nat)
    (m : unordered_map K V) (p : K × V)
    (h : 2 * (insert_entry hash key_equal m p).size ≤
        (insert_entry hash key_equal m p).bucket_size ∨
      next_prime (insert_entry hash key_equal m p).bucket_size =
        (insert_entry hash key_equal m p).bucket_size) :
    insert hash key_equal (fuel + 1) m p = some (insert_entry hash key_equal m p) ∧
      insert_result hash key_equal m p = insert_entry hash key_equal m p := by
  rcases h with h | h
  · simp [insert, insert_result, Nat.not_lt.mpr h]
  · by_cases hc : 2 * (insert_entry hash key_equal m p).size >
        (insert_entry hash key_equal m p).bucket_size
    · simp [insert, insert_result, hc, h]
    · simp [insert, insert_result, hc]

/-- C18: on every reachable table, `insert((k, v))` for a key `k` that is
present triggers no rehash: it returns after the insertion step for every
positive fuel, `bucket_size()`, `size()` and the end iterator are unchanged,
every slot other than the one of `k` is unchanged, and in the chain of the slot
of `k` the single entry whose key equals `k` keeps its key and its position and
gets the value `v`, all other entries being unchanged. -/
theorem C18_overwrite_in_place {hash : K → Nat} {key_equal : K → K → Bool}
    (L : Lawful hash key_equal) {m : unordered_map K V} (R : Reachable hash key_equal m)
    (k : K) (v : V) (hk : contains hash key_equal m k = true) :
    ∃ m1 c t e,
      (∀ fuel, 1 ≤ fuel → insert hash key_equal fuel m (k, v) = some m1) ∧
      m1 = insert_entry hash key_equal m (k, v) ∧
      slot m.buckets (hash k % m.bucket_size) = some c ∧
      c.get? t = some e ∧ key_equal e.1 k = true ∧
      (∀ j x, c.get? j = some x → j ≠ t → key_equal x.1 k = false) ∧
      m1.buckets = m.buckets.set (hash k % m.bucket_size) (some (c.set t (e.1, v))) ∧
      (∀ i, i ≠ hash k % m.bucket_size → slot m1.buckets i = slot m.buckets i) ∧
      m1.bucket_size = m.bucket_size ∧ m1.size = m.size ∧
      m1.end_iterator = m.end_iterator := by
  have I := R.inv L
  obtain ⟨c, t, e, hs, hget, hke, _, hb, hsz⟩ := insert_entry_found hash key_equal m (k, v) hk
  have hlen := insert_entry_length hash key_equal m (k, v)
  have hcount := insert_entry_length_entries_found I.wf.pos (k, v) hk
  have hW1 := insert_entry_WF L I.wf (k, v)
  have hno : 2 * (insert_entry hash key_equal m (k, v)).size ≤
        (insert_entry hash key_equal m (k, v)).bucket_size ∨
      next_prime (insert_entry hash key_equal m (k, v)).bucket_size =
        (insert_entry hash key_equal m (k, v)).bucket_size := by
    unfold bucket_size
    rw [hlen]
    by_cases hB : m.buckets.length = 4294967291
    · right
      exact (prime_list_facts _ I.prime).2.2.2.2.2 hB
    · left
      have hload := I.load hB
      have hle : (insert_entry hash key_equal m (k, v)).size ≤
          (entries (insert_entry hash key_equal m (k, v))).length := by
        rw [size_def, hW1.count]
        exact Nat.mod_le _ _
      omega
  refine ⟨insert_entry hash key_equal m (k, v), c, t, e, fun fuel hf => ?_, rfl, hs, hget, hke,
    fun j x hj hne => ?_, ?_, fun i hi => ?_, hlen, hsz, insert_entry_end_iterator _ _ _ _⟩
  · obtain ⟨f, rfl⟩ : ∃ f, fuel = f + 1 := ⟨fuel - 1, by omega⟩
    exact (insert_of_no_growth hash key_equal f m (k, v) hno).1
  · have hfind := chain_find_of_get L c (I.wf.uniq _ c hs) j x hj 0
    cases hx : key_equal x.1 k with
    | false => rfl
    | true =>
      exfalso
      have hfind2 := chain_find_of_get L c (I.wf.uniq _ c hs) t e hget 0
      have e1 : chain_find key_equal x.1 c 0 = chain_find key_equal e.1 c 0 := by
        have hxe : key_equal x.1 e.1 = true := L.trans _ _ _ hx (L.symm _ _ hke)
        have : ∀ (l : Chain K V) (n : Nat),
            chain_find key_equal x.1 l n = chain_find key_equal e.1 l n := by
          intro l
          induction l with
          | nil => intro n; rfl
          | cons y rest ih =>
            intro n
            simp only [chain_find, key_equal_congr L hxe y.1, ih]
        exact this c 0
      rw [hfind, hfind2] at e1
      simp only [Nat.zero_add, Option.some.injEq] at e1
      exact hne e1
  · rw [hb, modify_eq_set _ hget]
    rfl
  · rw [hb]
    exact slot_set_ne _ _ _ _ (fun h => hi h.symm)

/-- C18 (witness): overwriting the value of `"a"` in the table holding
`"a" -> 1` and `"b" -> 2`. -/
theorem C18_overwrite_in_place_witness :
    ∃ m1 c t e,
      (∀ fuel, 1 ≤ fuel →
        insert String.length (fun a b => decide (a = b)) fuel scenario_ab ("a", 5) = some m1) ∧
      m1 = insert_entry String.length (fun a b => decide (a = b)) scenario_ab ("a", 5) ∧
      slot scenario_ab.buckets (String.length "a" % scenario_ab.bucket_size) = some c ∧
      c.get? t = some e ∧ decide (e.1 = "a") = true ∧
      (∀ j x, c.get? j = some x → j ≠ t → decide (x.1 = "a") = false) ∧
      m1.buckets = scenario_ab.buckets.set (String.length "a" % scenario_ab.bucket_size)
        (some (c.set t (e.1, 5))) ∧
      (∀ i, i ≠ String.length "a" % scenario_ab.bucket_size →
        slot m1.buckets i = slot scenario_ab.buckets i) ∧
      m1.bucket_size = scenario_ab.bucket_size ∧ m1.size = scenario_ab.size ∧
      m1.end_iterator = scenario_ab.end_iterator :=
  C18_overwrite_in_place (lawful_of_eq String.length) scenario_ab_facts.1 "a" 5
    (contains_of_subscript (scenario_ab_facts.1.inv (lawful_of_eq String.length)).wf
      scenario_ab_facts.2.2.2.1)

theorem no_divisor_upto_sound (n : Nat) :
    ∀ k, no_divisor_upto n k = true → ∀ d, 2 ≤ d → d ≤ k + 1 → ¬ d ∣ n := by
  intro k
  induction k with
  | zero => intro _ d h2 h1; omega
  | succ k ih =>
    intro h d h2 hd
    simp only [no_divisor_upto, Bool.and_eq_true, decide_eq_true_eq] at h
    by_cases hlast : d = k + 2
    · subst hlast
      intro hdvd
      exact h.1 (Nat.mod_eq_zero_of_dvd hdvd)
    · exact ih h.2 d h2 (by omega)

/-- The trial-division check is sound. -/
theorem is_prime_trial_sound (n : Nat) (h : is_prime_trial n = true) : Nat.Prime n := by
  simp only [is_prime_trial, Bool.and_eq_true, decide_eq_true_eq] at h
  obtain ⟨⟨h2, hlt⟩, hdiv⟩ := h
  rw [Nat.prime_def_le_sqrt]
  refine ⟨h2, fun d hd2 hd => ?_⟩
  rw [Nat.le_sqrt] at hd
  have hdr : d < isqrt_loop n 17 0 + 1 := by
    by_contra hge
    have hge2 : isqrt_loop n 17 0 + 1 ≤ d := Nat.le_of_not_lt hge
    have := Nat.mul_le_mul hge2 hge2
    omega
  exact no_divisor_upto_sound n _ hdiv d hd2 (by omega)

/-- The repeated-squaring loop computes the power modulo `p`. -/
theorem pow_mod_eq (p : Nat) :
    ∀ fuel a e, e < 2 ^ fuel → pow_mod p fuel a e = a ^ e % p := by
  intro fuel
  induction fuel with
  | zero =>
    intro a e he
    have : e = 0 := by simpa using he
    subst this
    simp [pow_mod]
  | succ fuel ih =>
    intro a e he
    have hhalf : e / 2 < 2 ^ fuel := by
      rw [Nat.div_lt_iff_lt_mul (by norm_num)]; rw [pow_succ] at he; exact he
    have hsplit : a ^ e = (a * a) ^ (e / 2) * a ^ (e % 2) := by
      rw [← pow_two, ← pow_mul, ← pow_add, Nat.div_add_mod]
    by_cases h0 : e = 0
    · subst h0; simp [pow_mod]
    · by_cases h1 : e % 2 = 1
      · simp only [pow_mod, h0, h1, if_true, if_false]
        rw [ih _ _ hhalf, hsplit, h1, pow_one, ← Nat.pow_mod, Nat.mul_comm a, Nat.mod_mul_mod]
      · have h2 : e % 2 = 0 := by omega
        simp only [pow_mod, h0, h1, if_false]
        rw [ih _ _ hhalf, hsplit, h2, pow_zero, mul_one, ← Nat.pow_mod]

/-- A number that passes the check of its Lucas certificate is prime. -/
theorem lucas_check_sound (c : Nat × Nat × List Nat) (h : lucas_check c = true) :
    Nat.Prime c.1 := by
  obtain ⟨p, a, fs⟩ := c
  simp only [lucas_check, Bool.and_eq_true, decide_eq_true_eq, List.all_eq_true, ne_eq] at h
  obtain ⟨⟨⟨hprod, hle⟩, hone⟩, hfs⟩ := h
  have hlt : ∀ e, e ≤ p - 1 → e < 2 ^ 32 := fun e he => by omega
  rw [pow_mod_eq p 32 a _ (hlt _ le_rfl)] at hone
  have hp2 : 2 ≤ p := by
    rcases Nat.lt_or_ge p 2 with hp | hp
    · exfalso
      have hp1 : p = 1 := by omega
      rw [hp1, Nat.mod_one] at hone
      exact absurd hone (by decide)
    · exact hp
  have h1mod : 1 % p = 1 := Nat.mod_eq_of_lt hp2
  refine lucas_primality p (a : ZMod p) ?_ ?_
  · have : ((a ^ (p - 1) : ℕ) : ZMod p) = ((1 : ℕ) : ZMod p) := by
      rw [ZMod.natCast_eq_natCast_iff']; rw [hone, h1mod]
    simpa using this
  · intro q hq hdvd hpow
    have hpm : p - 1 = fs.prod := by omega
    rw [hpm] at hdvd
    obtain ⟨x, hx, hqx⟩ := (Prime.dvd_prod_iff hq.prime).1 hdvd
    obtain ⟨hxp, hxpow⟩ := hfs x hx
    have hxprime := is_prime_trial_sound x hxp
    have hqe : q = x := (Nat.prime_dvd_prime_iff_eq hq hxprime).1 hqx
    subst hqe
    rw [pow_mod_eq p 32 a _ (hlt _ (Nat.div_le_self _ _))] at hxpow
    apply hxpow
    have : ((a ^ ((p - 1) / q) : ℕ) : ZMod p) = ((1 : ℕ) : ZMod p) := by
      simpa using hpow
    rw [ZMod.natCast_eq_natCast_iff'] at this
    rw [this, h1mod]

/-- The certificates are those of the entries of `prime_list`, in order. -/
theorem prime_certificates_fst : prime_certificates.map Prod.fst = prime_list := by
  decide

/-- Every certificate passes the check. -/
theorem prime_certificates_check : prime_certificates.all lucas_check = true := by
  decide!

/-- Every entry of `prime_list` is a prime number. -/
theorem prime_list_prime : ∀ p ∈ prime_list, Nat.Prime p := by
  intro p hp
  rw [← prime_certificates_fst] at hp
  obtain ⟨c, hc, rfl⟩ := List.mem_map.1 hp
  exact lucas_check_sound c (List.all_eq_true.mp prime_certificates_check c hc)

/-- C19: `prime_list` is a strictly ascending sequence of exactly 28 numbers,
its first entry is 53, its last entry is 4294967291, which is below `2 ^ 32`,
and every entry is a prime number; in every reachable table `bucket_size()` is
one of these entries, hence at least 53 and not zero, and
`hash(key) mod bucket_size()` is a valid slot index. -/
theorem C19_prime_list {hash : K → Nat} {key_equal : K → K → Bool}
    (L : Lawful hash key_equal) {m : unordered_map K V} (R : Reachable hash key_equal m) :
    prime_list.length = 28 ∧ prime_list.Pairwise (fun a b => a < b) ∧
      prime_list.head? = some 53 ∧ prime_list.getLast? = some 4294967291 ∧
      4294967291 < 2 ^ 32 ∧ (∀ p ∈ prime_list, Nat.Prime p) ∧
      m.bucket_size ∈ prime_list ∧ 53 ≤ m.bucket_size ∧ m.bucket_size ≠ 0 ∧
      ∀ k, hash k % m.bucket_size < m.bucket_size := by
  have hmem : m.bucket_size ∈ prime_list := (R.inv L).prime
  have hmin : ∀ q ∈ prime_list, 53 ≤ q := by decide
  have h53 := hmin _ hmem
  exact ⟨rfl, by decide, rfl, rfl, by norm_num, prime_list_prime, hmem, h53, by omega,
    fun k => Nat.mod_lt _ (by omega)⟩

/-- C19 (witness): the default-constructed table. -/
theorem C19_prime_list_witness :
    prime_list.length = 28 ∧ prime_list.Pairwise (fun a b => a < b) ∧
      prime_list.head? = some 53 ∧ prime_list.getLast? = some 4294967291 ∧
      4294967291 < 2 ^ 32 ∧ (∀ p ∈ prime_list, Nat.Prime p) ∧
      (ctor : unordered_map Nat Nat).bucket_size ∈ prime_list ∧
      53 ≤ (ctor : unordered_map Nat Nat).bucket_size ∧
      (ctor : unordered_map Nat Nat).bucket_size ≠ 0 ∧
      ∀ k, id k % (ctor : unordered_map Nat Nat).bucket_size <
        (ctor : unordered_map Nat Nat).bucket_size :=
  C19_prime_list (lawful_of_eq id) Reachable.ctor

theorem foldlM_mono (ins ins1 : unordered_map K V → K × V → Option (unordered_map K V))
    (hins : ∀ m p r, ins m p = some r → ins1 m p = some r) :
    ∀ (l : List (K × V)) (m r : unordered_map K V),
      l.foldlM ins m = some r → l.foldlM ins1 m = some r := by
  intro l
  induction l with
  | nil => intro m r h; exact h
  | cons e l ih =>
    intro m r h
    rw [List.foldlM_cons] at h ⊢
    cases he : ins m e with
    | none => rw [he] at h; cases h
    | some m1 =>
      rw [he] at h
      rw [hins m e m1 he]
      exact ih m1 r h

/-- An `insert` that returns without recursion returns at recursion depth 1. -/
theorem insert_depth_of_insert_one (hash : K → Nat) (key_equal : K → K → Bool)
    (loop_fuel depth : Nat) (m : unordered_map K V) (p : K × V) (r : unordered_map K V)
    (h : insert hash key_equal 1 m p = some r) :
    insert_depth hash key_equal loop_fuel (depth + 1) m p = some r := by
  by_cases hc : 2 * (insert_entry hash key_equal m p).size >
      (insert_entry hash key_equal m p).bucket_size
  · by_cases hn : next_prime (insert_entry hash key_equal m p).bucket_size =
        (insert_entry hash key_equal m p).bucket_size
    · simpa [insert, insert_depth, hc, hn] using h
    · simp [insert, hc, hn, rehash_loop] at h
  · simpa [insert, insert_depth, hc] using h

/-- With a loop budget above the number of entries and a recursion depth of 2,
`insert` returns, and returns `insert_result`. -/
theorem insert_depth_eq_result {hash : K → Nat} {key_equal : K → K → Bool}
    (L : Lawful hash key_equal) {m : unordered_map K V} (I : Inv hash key_equal m)
    (p : K × V) (loop_fuel depth : Nat) (hloop : (entries m).length + 2 ≤ loop_fuel)
    (hdepth : 2 ≤ depth) :
    insert_depth hash key_equal loop_fuel depth m p =
      some (insert_result hash key_equal m p) := by
  obtain ⟨d, rfl⟩ : ∃ d, depth = d + 2 := ⟨depth - 2, by omega⟩
  have W1 := insert_entry_WF L I.wf p
  have hlen1 := insert_entry_length hash key_equal m p
  obtain ⟨_, hlt, hodd, hnp, hgrow, hmax⟩ := prime_list_facts _ I.prime
  by_cases hc : 2 * (insert_entry hash key_equal m p).size >
      (insert_entry hash key_equal m p).bucket_size
  · by_cases hn : next_prime (insert_entry hash key_equal m p).bucket_size =
        (insert_entry hash key_equal m p).bucket_size
    · simp [insert_depth, insert_result, hc, hn]
    · have hB : m.buckets.length ≠ 4294967291 := by
        intro hB
        apply hn
        unfold bucket_size
        rw [hlen1]
        exact hmax hB
      obtain ⟨hsize, hload1⟩ := insert_entry_size_exact L I p hB
      have hcount := insert_entry_count hash key_equal I.wf.pos p
      have hle : (entries (insert_entry hash key_equal m p)).length ≤ (entries m).length + 1 := by
        rw [hcount]; split <;> omega
      have hnp2 := prime_list_facts _ hnp
      have hfold := foldlM_insert_fresh L (next_prime m.buckets.length) 1 (by omega) hnp2.2.1
        (entries (insert_entry hash key_equal m p))
        (rehash_start (insert_entry hash key_equal m p) (next_prime m.buckets.length)) []
        (rehash_start_WF W1 _ hnp2.1) (rehash_start_length _ _)
        (by rw [rehash_start_entries])
        (by simpa using entries_pairwise L W1)
        (by have := hgrow hB; simp only [List.length_nil]; omega)
      have hfold2 := foldlM_mono (insert hash key_equal 1)
        (insert_depth hash key_equal loop_fuel (d + 1))
        (fun m p r h => insert_depth_of_insert_one hash key_equal loop_fuel d m p r h)
        _ _ _ hfold.1
      have hloop := rehash_loop_eq (insert_depth hash key_equal loop_fuel (d + 1)) W1
        (entries (insert_entry hash key_equal m p)) loop_fuel
        (insert_entry hash key_equal m p).begin_
        (rehash_start (insert_entry hash key_equal m p) (next_prime m.buckets.length))
        (begin_IterAt W1) (by omega)
      simp only [insert_depth, insert_result, hc, hn, if_true, if_false, ne_eq,
        not_false_eq_true, and_self, copy_eq W1]
      unfold bucket_size
      rw [hlen1]
      rw [← hfold2, ← hloop]
      rfl
  · simp [insert_depth, insert_result, hc]

theorem prime_list_adjacent :
    ∀ B ∈ prime_list, B ≠ 4294967291 →
      ∃ i, i < 27 ∧ prime_list.get? i = some B ∧ prime_list.get? (i + 1) = some (next_prime B) := by
  decide

/-- The tables met during the re-insertion pass: after `j` nested inserts the
new table is well formed, has the new bucket count, and holds `j` entries. -/
theorem rehash_prefix_facts {hash : K → Nat} {key_equal : K → K → Bool}
    (L : Lawful hash key_equal) {m : unordered_map K V} (I : Inv hash key_equal m)
    (p : K × V) (hB : m.buckets.length ≠ 4294967291) (j : Nat)
    (hj : j ≤ (entries (insert_entry hash key_equal m p)).length) :
    WF hash key_equal (((entries (insert_entry hash key_equal m p)).take j).foldl
        (insert_entry hash key_equal)
        (rehash_start (insert_entry hash key_equal m p) (next_prime m.buckets.length))) ∧
      (((entries (insert_entry hash key_equal m p)).take j).foldl
        (insert_entry hash key_equal)
        (rehash_start (insert_entry hash key_equal m p)
          (next_prime m.buckets.length))).buckets.length = next_prime m.buckets.length ∧
      (((entries (insert_entry hash key_equal m p)).take j).foldl
        (insert_entry hash key_equal)
        (rehash_start (insert_entry hash key_equal m p)
          (next_prime m.buckets.length))).size = j ∧
      2 * j ≤ next_prime m.buckets.length := by
  have W1 := insert_entry_WF L I.wf p
  obtain ⟨_, hlt, hodd, hnp, hgrow, hmax⟩ := prime_list_facts _ I.prime
  obtain ⟨hsize, hload1⟩ := insert_entry_size_exact L I p hB
  have hnp2 := prime_list_facts _ hnp
  have hgrow2 := hgrow hB
  have hlen : ((entries (insert_entry hash key_equal m p)).take j).length = j := by
    rw [List.length_take]
    exact Nat.min_eq_left hj
  obtain ⟨_, hW, hl, hperm⟩ := foldlM_insert_fresh L (next_prime m.buckets.length) 1
    (by omega) hnp2.2.1
    ((entries (insert_entry hash key_equal m p)).take j)
    (rehash_start (insert_entry hash key_equal m p) (next_prime m.buckets.length)) []
    (rehash_start_WF W1 _ hnp2.1) (rehash_start_length _ _)
    (by rw [rehash_start_entries])
    (by
      rw [List.nil_append]
      exact (entries_pairwise L W1).sublist (List.take_sublist _ _))
    (by rw [hlen]; simp only [List.length_nil]; omega)
  refine ⟨hW, hl, ?_, by omega⟩
  rw [size_def, hW.count, hperm.length_eq, List.nil_append, hlen]
  apply Nat.mod_eq_of_lt
  have := hnp2.2.1
  omega

/-- C20: on every reachable table `insert` terminates: it returns for every
fuel from `size + 3` on, and at recursion depth 2 for every loop budget from
`size + 2` on. When the insertion step leaves `2 * size() > bucket_size()` with
`bucket_size()` below the largest candidate, the table grows to
`next_prime(bucket_size())`, which is the entry following `bucket_size()` in
`prime_list`, and during the re-insertion pass no nested `insert` meets the
load-factor condition again: after each of them `2 * size() <= bucket_size()`
holds in the new table, and each returns at recursion depth 1. Otherwise the
bucket count is unchanged. -/
theorem C20_single_growth_step {hash : K → Nat} {key_equal : K → K → Bool}
    (L : Lawful hash key_equal) {m : unordered_map K V} (R : Reachable hash key_equal m)
    (p : K × V) :
    ∃ m1,
      (∀ fuel, (entries m).length + 3 ≤ fuel → insert hash key_equal fuel m p = some m1) ∧
      (∀ loop_fuel depth, (entries m).length + 2 ≤ loop_fuel → 2 ≤ depth →
        insert_depth hash key_equal loop_fuel depth m p = some m1) ∧
      (m1.bucket_size = m.bucket_size ∨
        ∃ i, prime_list.get? i = some m.bucket_size ∧
          prime_list.get? (i + 1) = some m1.bucket_size) ∧
      (¬ (2 * (insert_entry hash key_equal m p).size >
            (insert_entry hash key_equal m p).bucket_size ∧
          m.bucket_size ≠ 4294967291) → m1.bucket_size = m.bucket_size) ∧
      (2 * (insert_entry hash key_equal m p).size >
          (insert_entry hash key_equal m p).bucket_size →
        m.bucket_size ≠ 4294967291 →
        m1.bucket_size = next_prime m.bucket_size ∧ m.bucket_size < m1.bucket_size ∧
        (∃ i, prime_list.get? i = some m.bucket_size ∧
          prime_list.get? (i + 1) = some m1.bucket_size) ∧
        ∀ j, j ≤ (entries (insert_entry hash key_equal m p)).length →
          (((entries (insert_entry hash key_equal m p)).take j).foldl
            (insert_entry hash key_equal)
            (rehash_start (insert_entry hash key_equal m p)
              (next_prime m.bucket_size))).bucket_size = next_prime m.bucket_size ∧
          2 * (((entries (insert_entry hash key_equal m p)).take j).foldl
            (insert_entry hash key_equal)
            (rehash_start (insert_entry hash key_equal m p)
              (next_prime m.bucket_size))).size ≤ next_prime m.bucket_size ∧
          ∀ e loop_fuel, (entries (insert_entry hash key_equal m p)).get? j = some e →
            insert_depth hash key_equal loop_fuel 1
              (((entries (insert_entry hash key_equal m p)).take j).foldl
                (insert_entry hash key_equal)
                (rehash_start (insert_entry hash key_equal m p)
                  (next_prime m.bucket_size))) e =
              some (((entries (insert_entry hash key_equal m p)).take (j + 1)).foldl
                (insert_entry hash key_equal)
                (rehash_start (insert_entry hash key_equal m p)
                  (next_prime m.bucket_size)))) := by
  have I := R.inv L
  obtain ⟨I1, _, hlen⟩ := insert_result_spec L I p
  have hlen1 := insert_entry_length hash key_equal m p
  obtain ⟨_, hlt, hodd, hnp, hgrow, hmax⟩ := prime_list_facts _ I.prime
  have hgrowcase : 2 * (insert_entry hash key_equal m p).size >
        (insert_entry hash key_equal m p).bucket_size → m.bucket_size ≠ 4294967291 →
      (insert_result hash key_equal m p).bucket_size = next_prime m.bucket_size := by
    intro hc hB
    obtain ⟨hsize, _⟩ := insert_entry_size_exact L I p hB
    unfold bucket_size at hc ⊢
    rw [hsize, hlen1] at hc
    rw [hlen, if_pos hc]
  have hnogrow : ¬ (2 * (insert_entry hash key_equal m p).size >
        (insert_entry hash key_equal m p).bucket_size ∧ m.bucket_size ≠ 4294967291) →
      (insert_result hash key_equal m p).bucket_size = m.bucket_size := by
    intro hno
    by_cases hB : m.bucket_size = 4294967291
    · unfold bucket_size at hB ⊢
      rw [hlen, hmax hB]
      simp
    · have hc : ¬ 2 * (insert_entry hash key_equal m p).size >
          (insert_entry hash key_equal m p).bucket_size := fun hc => hno ⟨hc, hB⟩
      obtain ⟨hsize, _⟩ := insert_entry_size_exact L I p hB
      unfold bucket_size at hc ⊢
      rw [hsize, hlen1] at hc
      rw [hlen, if_neg hc]
  have hadj : ∀ hB : m.bucket_size ≠ 4294967291,
      ∃ i, prime_list.get? i = some m.bucket_size ∧
        prime_list.get? (i + 1) = some (next_prime m.bucket_size) := by
    intro hB
    obtain ⟨i, _, h1, h2⟩ := prime_list_adjacent _ I.prime hB
    exact ⟨i, h1, h2⟩
  refine ⟨insert_result hash key_equal m p, fun fuel hf => insert_eq_result L I p fuel hf,
    fun loop_fuel depth hl hd => insert_depth_eq_result L I p loop_fuel depth hl hd,
    ?_, hnogrow, fun hc hB => ⟨hgrowcase hc hB, ?_, ?_, fun j hj => ?_⟩⟩
  · by_cases hcase : 2 * (insert_entry hash key_equal m p).size >
        (insert_entry hash key_equal m p).bucket_size ∧ m.bucket_size ≠ 4294967291
    · right
      rw [hgrowcase hcase.1 hcase.2]
      exact hadj hcase.2
    · left
      exact hnogrow hcase
  · rw [hgrowcase hc hB]
    have := hgrow hB
    unfold bucket_size
    omega
  · rw [hgrowcase hc hB]
    exact hadj hB
  · obtain ⟨hW, hl, hs, h2⟩ := rehash_prefix_facts L I p hB j hj
    refine ⟨hl, ?_, fun e loop_fuel he => ?_⟩
    · unfold bucket_size
      rw [hs]
      exact h2
    · have hjlt : j < (entries (insert_entry hash key_equal m p)).length := by
        rw [List.get?_eq_getElem?] at he
        exact (List.getElem?_eq_some_iff.mp he).1
      obtain ⟨_, hl2, hs2, h22⟩ := rehash_prefix_facts L I p hB (j + 1) hjlt
      have htake : (entries (insert_entry hash key_equal m p)).take (j + 1) =
          (entries (insert_entry hash key_equal m p)).take j ++ [e] := by
        rw [List.take_succ, ← List.get?_eq_getElem?, he]
        rfl
      have hstep : ((entries (insert_entry hash key_equal m p)).take (j + 1)).foldl
            (insert_entry hash key_equal)
            (rehash_start (insert_entry hash key_equal m p) (next_prime m.bucket_size)) =
          insert_entry hash key_equal
            (((entries (insert_entry hash key_equal m p)).take j).foldl
              (insert_entry hash key_equal)
              (rehash_start (insert_entry hash key_equal m p)
                (next_prime m.bucket_size))) e := by
        rw [htake, List.foldl_append]
        rfl
      rw [hstep]
      apply insert_depth_of_insert_one
      apply insert_no_rehash
      rw [← hstep]
      unfold bucket_size
      rw [hs2, hl2]
      exact h22

/-- C20 (witness): the first insert into the default-constructed table. -/
theorem C20_single_growth_step_witness :
    ∃ m1 : unordered_map Nat Nat,
      (∀ fuel, (entries (ctor : unordered_map Nat Nat)).length + 3 ≤ fuel →
        insert id (fun a b => decide (a = b)) fuel ctor (7, 40) = some m1) ∧
      (∀ loop_fuel depth, (entries (ctor : unordered_map Nat Nat)).length + 2 ≤ loop_fuel →
        2 ≤ depth →
        insert_depth id (fun a b => decide (a = b)) loop_fuel depth ctor (7, 40) = some m1) :=
  (C20_single_growth_step (lawful_of_eq id) Reachable.ctor (7, 40)).imp
    (fun _ h => ⟨h.1, h.2.1⟩)

set_option maxRecDepth 1000000 in
/-- The 27th insert of the keys `0 .. 26` (identity hash), which grows the table
from 53 to 97 buckets, evaluated with a bound on the recursion depth: depth `2`
returns the grown table, depth `1` is not enough for the nested calls, and the
26th insert, which does not grow, returns at depth `1`. -/
theorem eval_insert_depth :
    ((insert_all id (fun a b : Nat => decide (a = b)) 30 (ctor : unordered_map Nat Nat)
        ((List.range 26).map (fun k => (k, k + 100)))).bind
        (fun m => insert_depth id (fun a b => decide (a = b)) 30 2 m (26, 126))).map
        (fun m => (m.size, m.bucket_size)) = some (27, 97) ∧
    ((insert_all id (fun a b : Nat => decide (a = b)) 30 (ctor : unordered_map Nat Nat)
        ((List.range 26).map (fun k => (k, k + 100)))).bind
        (fun m => insert_depth id (fun a b => decide (a = b)) 30 1 m (26, 126))).isSome = false ∧
    ((insert_all id (fun a b : Nat => decide (a = b)) 30 (ctor : unordered_map Nat Nat)
        ((List.range 25).map (fun k => (k, k + 100)))).bind
        (fun m => insert_depth id (fun a b => decide (a = b)) 30 1 m (25, 125))).map
        (fun m => (m.size, m.bucket_size)) = some (26, 53) := by
  decide

/-- The last slot index `operator++` reads is the bucket index it ends with. -/
theorem skip_empty_reads_last (bs : List (Option (Chain K V))) :
    ∀ (fuel b : Nat) (lp : Option Nat),
      (b :: skip_empty_reads bs fuel b lp).getLast? = some (skip_empty bs fuel b lp).1 := by
  intro fuel
  induction fuel with
  | zero => intro b lp; rfl
  | succ fuel ih =>
    intro b lp
    by_cases hc : b < bs.length ∧ lp = none
    · simp only [skip_empty_reads, skip_empty, hc, and_self, if_true]
      rw [List.getLast?_cons_cons]
      exact ih (b + 1) _
    · simp only [skip_empty_reads, skip_empty, hc, if_false]
      rfl

/-- Advancing from the last entry of a table reads a slot index that is not
below the bucket count. -/
theorem incr_reads_out_of_range {hash : K → Nat} {key_equal : K → K → Bool}
    {m : unordered_map K V} (W : WF hash key_equal m) {ite : __unordered_map_iterator}
    {e : K × V} (h : IterAt m ite [e]) :
    ∃ i ∈ incr_reads m ite, m.bucket_size ≤ i ∧ m.buckets.get? i = none := by
  obtain ⟨_, next, hnext, hat⟩ := incr_IterAt W.nonempty h
  rcases h with ⟨hl, _⟩ | ⟨b, i, c, hite, hs, hi, hl⟩
  · cases hl
  · subst hite
    have hnb : m.buckets.length ≤ next.bucket := by
      rcases hat with ⟨_, hb⟩ | ⟨b1, i1, c1, _, _, hi1, hl1⟩
      · exact hb
      · exfalso
        have := congrArg List.length hl1
        simp only [List.length_nil, List.length_append, List.length_drop] at this
        omega
    by_cases hlast : i + 1 = c.length
    · have hlastq := skip_empty_reads_last m.buckets (m.buckets.length - (b + 1)) (b + 1)
        (slot_ptr m.buckets (b + 1))
      have hreads : incr_reads m ⟨some i, some b, b⟩ =
          (b + 1) :: skip_empty_reads m.buckets (m.buckets.length - (b + 1)) (b + 1)
            (slot_ptr m.buckets (b + 1)) := by
        simp [incr_reads, hs, hlast]
      have hbucket : next.bucket = (skip_empty m.buckets (m.buckets.length - (b + 1)) (b + 1)
          (slot_ptr m.buckets (b + 1))).1 := by
        simp only [incr, hs, hlast, ne_eq, not_true_eq_false, if_false] at hnext
        split at hnext
        · rw [← Option.some.inj hnext]
        · rw [← Option.some.inj hnext]
      rw [← hreads, ← hbucket] at hlastq
      refine ⟨next.bucket, List.mem_of_mem_getLast? hlastq, hnb, ?_⟩
      rw [List.get?_eq_getElem?]
      exact List.getElem?_eq_none hnb
    · exfalso
      simp only [incr, hs, ne_eq, hlast, not_false_eq_true, if_true, Option.some.injEq] at hnext
      rw [← hnext] at hnb
      have := slot_lt_of_some hs
      simp only at hnb
      omega

set_option maxRecDepth 1000000 in
/-- C14 (the code at the failing input): in the table holding the single key
`52`, which lies in the last slot `bucket_size() - 1 = 52`, `operator++` applied
to `begin()` reads `buckets[53]`, an index equal to `bucket_size()`, for which
the total indexing takes its out-of-range branch; in the table holding the
single key `7`, `operator++` applied to `begin()` reads the indexes `8` to `53`.
In both cases the iterator it returns compares equal to `end()`. -/
theorem C14_incr_reads_past_the_end :
    scenario_last_slot.bucket_size = 53 ∧
      scenario_last_slot.begin_ = ⟨some 0, some 52, 52⟩ ∧
      incr_reads scenario_last_slot scenario_last_slot.begin_ = [53] ∧
      scenario_last_slot.buckets.get? 53 = none ∧
      (incr scenario_last_slot scenario_last_slot.begin_).map
        (fun next => iter_eq scenario_last_slot next scenario_last_slot.end_) = some true ∧
      scenario_one_key.bucket_size = 53 ∧
      incr_reads scenario_one_key scenario_one_key.begin_ = (List.range 46).map (fun i => i + 8) ∧
      53 ∈ incr_reads scenario_one_key scenario_one_key.begin_ ∧
      scenario_one_key.buckets.get? 53 = none ∧
      (incr scenario_one_key scenario_one_key.begin_).map
        (fun next => iter_eq scenario_one_key next scenario_one_key.end_) = some true := by
  decide

end unordered_map

end ezSTL
